import Mathlib

/-!
Verification of the textum library (trie / Aho-Corasick / fuzzy search).

The development shallowly embeds the code of `include/textum/fsm.hpp`,
`include/textum/basic_trie.hpp` and `include/textum/aho_corasick.hpp`.
Symbols and labels are natural numbers.  A `std::map` transition table is an
association list (kept in sorted key order by `insertTransition`, matching the
iteration order of `std::map`); the `std::unordered_map` members of the trie
are total functions (`operator[]` semantics, default value for absent keys).
The trie-building code is textually identical in `basic_trie.hpp` and
`aho_corasick.hpp`; it is modelled once, with the richer Aho-Corasick state
attribute (`basic_trie`'s attribute is the `is_accept` field alone).
Unbounded `while` loops (the DFS stack of `visit_close_states`, the BFS queue
of `build_suffix_links`, the suffix-link chase of `aho_corasick::next`) are
modelled with an explicit fuel parameter; lemmas below show the chosen fuel is
sufficient for every structure actually produced by construction, so the
fuelled functions agree with the C++ loops there.
-/

namespace Textum

abbrev Symbol := Nat
abbrev Label := Nat

/-- Lookup in one state's transition table (`std::map::find`). -/
def lookupSym (a : Symbol) : List (Symbol × Nat) → Option Nat
  | [] => none
  | (b, d) :: rest => if a = b then some d else lookupSym a rest

/-- Insertion of an absent key into a transition table (`std::map::emplace`),
keeping the sorted key order `std::map` maintains. -/
def insertTransition (a : Symbol) (d : Nat) : List (Symbol × Nat) → List (Symbol × Nat)
  | [] => [(a, d)]
  | (b, e) :: rest =>
      if a < b then (a, d) :: (b, e) :: rest else (b, e) :: insertTransition a d rest

/-- The transition-table finite state machine of `fsm.hpp`: one transition map
per state, states are indices into the vector. -/
structure Fsm where
  transitions : List (List (Symbol × Nat))

/-- `fsm::fsm()`: one (root) state, no transitions. -/
def Fsm.empty : Fsm := ⟨[[]]⟩

/-- `fsm::size()`: number of states. -/
def Fsm.size (m : Fsm) : Nat := m.transitions.length

/-- The transition map of state `s` (empty for out-of-range `s`, which the C++
asserts against). -/
def Fsm.row (m : Fsm) (s : Nat) : List (Symbol × Nat) := m.transitions.getD s []

/-- `fsm::next(source, symbol)`: `(target, true)` if the transition exists,
otherwise `(source, false)`. -/
def Fsm.next (m : Fsm) (s : Nat) (a : Symbol) : Nat × Bool :=
  match lookupSym a (m.row s) with
  | some d => (d, true)
  | none => (s, false)

/-- `fsm::add_transition(source, symbol)`: return the existing target with
`created = false`, or allocate the state `size()` and append an empty
transition map (`resize(size()+1)`), returning `(new state, true)`. -/
def Fsm.addTransition (m : Fsm) (s : Nat) (a : Symbol) : Fsm × Nat × Bool :=
  match lookupSym a (m.row s) with
  | some d => (m, d, false)
  | none => (⟨(m.transitions.set s (insertTransition a m.size (m.row s))) ++ [[]]⟩, m.size, true)

/-- The state reached from `s` by reading the whole word `w`, if every
transition exists (the denotation of the transition graph; not itself in the
C++, used to specify it). -/
def walk (m : Fsm) : Nat → List Symbol → Option Nat
  | s, [] => some s
  | s, a :: rest =>
      match lookupSym a (m.row s) with
      | some d => walk m d rest
      | none => none

/-- `aho_corasick_state_attribute_t`: suffix link, accept-suffix link, accept
flag.  (`trie_state_attribute_t` is the `isAccept` field alone.) -/
structure Attr where
  suffixLink : Nat
  acceptSuffixLink : Nat
  isAccept : Bool

/-- `not_set`: `std::numeric_limits<std::uint32_t>::max()`. -/
def notSet : Nat := 4294967295

/-- A default-constructed state attribute. -/
def Attr.init : Attr := ⟨notSet, notSet, false⟩

/-- The trie / Aho-Corasick object: the automaton plus the per-state attribute
map, the reachable-values cache, the value table and the state-to-value-index
map.  The three `std::unordered_map` members are modelled as functions. -/
structure Trie where
  automaton : Fsm
  attrs : Nat → Attr
  reachable : Nat → List Nat
  values : List Label
  valueIdx : Nat → Option Nat

/-- The default-constructed (empty) trie. -/
def Trie.empty : Trie :=
  { automaton := Fsm.empty
    attrs := fun _ => Attr.init
    reachable := fun _ => []
    values := []
    valueIdx := fun _ => none }

/-- `basic_trie::traverse`: follow existing transitions from `s`; return the
state reached and the unconsumed remainder of the input. -/
def traverse (m : Fsm) : Nat → List Symbol → Nat × List Symbol
  | s, [] => (s, [])
  | s, a :: rest =>
      match m.next s a with
      | (t, true) => traverse m t rest
      | (_, false) => (s, a :: rest)

/-- `basic_trie::grow`: create a fresh chain of states for the remaining
symbols, default-initialising each new state's attribute. -/
def grow : Trie → Nat → List Symbol → Trie × Nat
  | t, s, [] => (t, s)
  | t, s, a :: rest =>
      match t.automaton.addTransition s a with
      | (m, s', _) =>
          grow { t with
                   automaton := m
                   attrs := fun x => if x = s' then Attr.init else t.attrs x } s' rest

/-- `basic_trie::insert` from the root: traverse as far as possible, then grow. -/
def insertSeq (t : Trie) (w : List Symbol) : Trie × Nat :=
  match traverse t.automaton 0 w with
  | (s, rest) => grow t s rest

/-- `basic_trie::attach_value`: label state `s` unless it is already labelled;
returns the value index and whether a new value was inserted. -/
def attachValue (t : Trie) (s : Nat) (lab : Label) : Trie × Nat × Bool :=
  match t.valueIdx s with
  | some i => (t, i, false)
  | none =>
      let i := t.values.length
      ({ t with
           values := t.values ++ [lab]
           valueIdx := fun x => if x = s then some i else t.valueIdx x
           attrs := fun x => if x = s then { t.attrs x with isAccept := true } else t.attrs x },
       i, true)

/-- The states visited by `basic_trie::visit_sources_of_path`: every state on
the path of `w` from the root except the final one. -/
def pathStates (m : Fsm) : Nat → List Symbol → List Nat
  | _, [] => []
  | s, a :: rest => s :: pathStates m (m.next s a).1 rest

/-- `basic_trie::attach_reachable_value`: push a value index onto the
reachable-values cache of `s`. -/
def attachReachable (t : Trie) (s : Nat) (i : Nat) : Trie :=
  { t with reachable := fun x => if x = s then t.reachable x ++ [i] else t.reachable x }

/-- One iteration of the loop in `basic_trie::build_trie`: insert the
sequence, attach the label, and on success record the value index on every
state of the path. -/
def addPair (t : Trie) (w : List Symbol) (lab : Label) : Trie :=
  match insertSeq t w with
  | (t₁, s) =>
    match attachValue t₁ s lab with
    | (t₂, i, ok) =>
      if ok then
        attachReachable
          ((pathStates t₂.automaton 0 w).foldl (fun u x => attachReachable u x i) t₂) s i
      else t₂

/-- `basic_trie::build_trie`: fold the construction over the input pairs. -/
def buildTrie (ps : List (List Symbol × Label)) : Trie :=
  ps.foldl (fun t pr => addPair t pr.1 pr.2) Trie.empty

/-- `basic_trie::find`: walk the sequence from the root; if fully consumed and
the state is labelled, the label (the dereferenced iterator), else `none`
(`end()`). -/
def Trie.find (t : Trie) (w : List Symbol) : Option Label :=
  match traverse t.automaton 0 w with
  | (s, []) => (t.valueIdx s).map (fun i => t.values.getD i 0)
  | _ => none

/-- `basic_trie::find_prefix` (exact overload): walk the sequence; if fully
consumed, emit the label of every value index in the reachable-values cache of
the reached state (`collect_reachable`), else emit nothing. -/
def Trie.findPrefix (t : Trie) (w : List Symbol) : List Label :=
  match traverse t.automaton 0 w with
  | (s, []) => (t.reachable s).map (fun i => t.values.getD i 0)
  | _ => []

/-- The label of the first input pair carrying the given sequence. -/
def firstLabel : List (List Symbol × Label) → List Symbol → Option Label
  | [], _ => none
  | (x, l) :: rest, w => if x = w then some l else firstLabel rest w

/-- The distinct sequences of the input, in order of first occurrence (the
order in which `build_trie` appends to the value table). -/
def dedupKeys (ps : List (List Symbol × Label)) : List (List Symbol) :=
  ps.foldl (fun acc pr => if pr.1 ∈ acc then acc else acc ++ [pr.1]) []

/-- `TransTo m s a d`: the automaton has a transition `s --a--> d`. -/
def TransTo (m : Fsm) (s : Nat) (a : Symbol) (d : Nat) : Prop :=
  lookupSym a (m.row s) = some d

/-- Structural well-formedness of the automaton maintained by construction:
at least the root exists, every transition goes from a smaller to a larger
in-range state (so the graph is acyclic and nothing re-enters the root), every
state has at most one incoming transition (the graph is a tree), and no
transition map repeats a key. -/
structure FsmInv (m : Fsm) : Prop where
  size_pos : 0 < m.size
  edges : ∀ s a d, TransTo m s a d → s < d ∧ d < m.size
  uinc : ∀ s a s' a' d, TransTo m s a d → TransTo m s' a' d → s = s' ∧ a = a'
  rows_nodup : ∀ s, ((m.row s).map Prod.fst).Nodup

/-- The full construction invariant tying the trie built from the pair list
`ps` to `ps` itself (writing `K` for `dedupKeys ps`):
the value table holds the first-occurrence labels of `K` in order; every
prefix of a key is walkable; every non-root state is reached by a non-empty
prefix of a key; a state is labelled with index `i` exactly when it is reached
by the `i`-th key; the accept flag mirrors the label map; the
reachable-values cache of the state reached by `v` lists, in increasing
order, the indices of the keys extending `v`; caches of not-yet-created
states are empty. -/
structure Inv (t : Trie) (ps : List (List Symbol × Label)) : Prop where
  fsmInv : FsmInv t.automaton
  vals : t.values = (dedupKeys ps).map (fun w => (firstLabel ps w).getD 0)
  keys_closed : ∀ w, w ∈ dedupKeys ps → ∀ v, v <+: w → (walk t.automaton 0 v).isSome
  states_reached : ∀ s, s < t.automaton.size → s ≠ 0 →
      ∃ v w, w ∈ dedupKeys ps ∧ v <+: w ∧ v ≠ [] ∧ walk t.automaton 0 v = some s
  vidx : ∀ s i, t.valueIdx s = some i ↔
      ∃ w, walk t.automaton 0 w = some s ∧ (dedupKeys ps)[i]? = some w
  accept : ∀ s, (t.attrs s).isAccept = (t.valueIdx s).isSome
  cache : ∀ v s, walk t.automaton 0 v = some s →
      t.reachable s = (List.range (dedupKeys ps).length).filter
        (fun i => v.isPrefixOf ((dedupKeys ps).getD i []))
  cache_fresh : ∀ u, t.automaton.size ≤ u → t.reachable u = []

/-- `levenshtein_parameters_t`: the distance bound and the two edit-cost
functions, with the arithmetic type fixed to `Nat`. -/
structure LevParams where
  distance_limit : Nat
  deletion_or_insertion_penalty : Symbol → Nat
  replacement_penalty : Symbol → Symbol → Nat

/-- The cost structure handed to Mathlib's independent Wagner-Fischer
`levenshtein` function: deletion and insertion share the single
`deletion_or_insertion_penalty` (the source has no separate delete cost), and
substitution is `replacement_penalty`. -/
def levCost (p : LevParams) : Levenshtein.Cost Symbol Symbol Nat :=
  { delete := p.deletion_or_insertion_penalty
    insert := p.deletion_or_insertion_penalty
    substitute := p.replacement_penalty }

/-- The weighted Wagner-Fischer edit distance between the query `q` and a
candidate `w`, taken from Mathlib (an implementation-independent spec). -/
def editDistance (p : LevParams) (q w : List Symbol) : Nat :=
  levenshtein (levCost p) q w

/-- The loop body of `fill_initial_levenshtein_row`: `row[i] = row[i-1] +
insertion cost of q[i-1]`, threaded through `acc`. -/
def initialRowFrom (p : LevParams) : Nat → List Symbol → List Nat
  | _, [] => []
  | acc, a :: qs =>
      let v := acc + p.deletion_or_insertion_penalty a
      v :: initialRowFrom p v qs

/-- `basic_trie::fill_initial_levenshtein_row`: `row[0] = 0`, then prefix sums
of the insertion costs of the query. -/
def initialRow (p : LevParams) (q : List Symbol) : List Nat :=
  0 :: initialRowFrom p 0 q

/-- The loop of `fill_levenshtein_row` for `i ≥ 1`: `prev` is
`destination_row[i-1]`, the source row is consumed through adjacent pairs
`(source_row[i-1], source_row[i])`. -/
def fillRowFrom (p : LevParams) (b : Symbol) : Nat → List Symbol → List Nat → List Nat
  | _, [], _ => []
  | prev, a :: qs, s0 :: s1 :: srest =>
      let v := min (prev + p.deletion_or_insertion_penalty a)
        (min (s1 + p.deletion_or_insertion_penalty b) (s0 + p.replacement_penalty a b))
      v :: fillRowFrom p b v qs (s1 :: srest)
  | _, _ :: _, _ => []

/-- `basic_trie::fill_levenshtein_row`: the next Wagner-Fischer row after
reading transition symbol `b`, given the current row `src` for query `q`
(rows have length `q.length + 1`; the final catch-all of `fillRowFrom` is
unreachable for well-shaped rows). -/
def fillRow (p : LevParams) (q : List Symbol) (src : List Nat) (b : Symbol) : List Nat :=
  match src with
  | [] => []
  | s0 :: rest => (s0 + p.deletion_or_insertion_penalty b) ::
      fillRowFrom p b (s0 + p.deletion_or_insertion_penalty b) q (s0 :: rest)

/-- `row.back()` (rows are never empty). -/
def rowLast (row : List Nat) : Nat := row.getLastD 0

/-- The stack loop of `basic_trie::visit_close_states`, returning the list of
`(state, distance)` pairs passed to the visitor, in visit order.  The stack
holds `(state, row)` pairs, head topmost; children are pushed in transition-map
order, exactly as `visit_transitions` enumerates them.  `fuel` bounds the
number of loop iterations; on the tries produced by construction the loop
terminates and the chosen fuel is shown sufficient below. -/
def visitStack (t : Trie) (p : LevParams) (q : List Symbol) :
    Nat → List (Nat × List Nat) → List (Nat × Nat)
  | 0, _ => []
  | _ + 1, [] => []
  | fuel + 1, (s, row) :: stack =>
      let out := if rowLast row ≤ p.distance_limit then [(s, rowLast row)] else []
      let stack' :=
        if row.any (fun x => x ≤ p.distance_limit) then
          (t.automaton.row s).foldl
            (fun st pr => (pr.2, fillRow p q row pr.1) :: st) stack
        else stack
      out ++ visitStack t p q fuel stack'

/-- `basic_trie::visit_close_states` started at the root with the initial row. -/
def visitCloseStates (t : Trie) (p : LevParams) (q : List Symbol) : List (Nat × Nat) :=
  visitStack t p q (2 ^ t.automaton.size) [(0, initialRow p q)]

/-- Termination measure for the DFS stack: an entry at state `s` accounts for
`2 ^ (size - s)` loop iterations, strictly dominating its whole subtree (all
descendants of `s` have strictly larger indices). -/
def stackMeasure (t : Trie) (stack : List (Nat × List Nat)) : Nat :=
  (stack.map (fun e => 2 ^ (t.automaton.size - e.1))).sum

/-- The fuzzy `basic_trie::find` overload: for every visited accepting state
emit `(label, distance)`. -/
def fuzzyFind (t : Trie) (p : LevParams) (q : List Symbol) : List (Label × Nat) :=
  (visitCloseStates t p q).filterMap (fun sd =>
    if (t.attrs sd.1).isAccept then
      some (t.values.getD ((t.valueIdx sd.1).getD 0) 0, sd.2)
    else none)

/-- The working buffer of the fuzzy `basic_trie::find_prefix` overload: for
every visited state, `collect_reachable` pairs every cached label with the
state's distance. -/
def collectedPairs (t : Trie) (p : LevParams) (q : List Symbol) : List (Label × Nat) :=
  (visitCloseStates t p q).flatMap (fun sd =>
    (t.reachable sd.1).map (fun i => (t.values.getD i 0, sd.2)))

/-- Lexicographic comparison of `(label, distance)` pairs —
`std::pair::operator<`. -/
def pairLe (x y : Nat × Nat) : Bool :=
  decide (x.1 < y.1 ∨ (x.1 = y.1 ∧ x.2 ≤ y.2))

/-- Sorted insertion; `sortPairs` below produces the sorted permutation of the
buffer.  (`std::sort` under the total lexicographic order produces the same
list: the sorted permutation of a multiset is unique.) -/
def insertPairSorted (x : Nat × Nat) : List (Nat × Nat) → List (Nat × Nat)
  | [] => [x]
  | y :: ys => if pairLe x y then x :: y :: ys else y :: insertPairSorted x ys

/-- `std::sort(results.begin(), results.end())` on the pair buffer. -/
def sortPairs : List (Nat × Nat) → List (Nat × Nat)
  | [] => []
  | x :: xs => insertPairSorted x (sortPairs xs)

/-- The tail loop of `std::unique` with equality on the first component:
`k` is the label of the last kept element. -/
def uniqueRest (k : Nat) : List (Nat × Nat) → List (Nat × Nat)
  | [] => []
  | x :: xs => if x.1 = k then uniqueRest k xs else x :: uniqueRest x.1 xs

/-- `std::unique(..., l.first == r.first)` followed by erasing the tail: keep
the first element of every run of equal labels. -/
def uniqueByFirst : List (Nat × Nat) → List (Nat × Nat)
  | [] => []
  | x :: xs => x :: uniqueRest x.1 xs

/-- The fuzzy `basic_trie::find_prefix` overload: collect the buffer through
the traversal, sort it, deduplicate by label, emit. -/
def fuzzyFindPrefix (t : Trie) (p : LevParams) (q : List Symbol) : List (Label × Nat) :=
  uniqueByFirst (sortPairs (collectedPairs t p q))

/-- Pointwise update of one state's attribute (mutation of one
`m_attributes` entry). -/
def updateAttr (t : Trie) (s : Nat) (f : Attr → Attr) : Trie :=
  { t with attrs := fun x => if x = s then f (t.attrs x) else t.attrs x }

/-- `aho_corasick::next`: try the transition; on failure follow the suffix
link and retry; at the root return whatever the automaton yields.  The C++
`while` loop is fuelled; suffix links decrease depth, so fuel
`t.automaton.size` is sufficient whenever the links of the visited states are
set (shown below). -/
def acNext (t : Trie) : Nat → Nat → Symbol → Nat × Bool
  | 0, s, a => ((t.automaton.next s a).1, true)
  | fuel + 1, s, a =>
      if s = 0 then ((t.automaton.next s a).1, true)
      else
        match t.automaton.next s a with
        | (d, true) => (d, true)
        | (_, false) => acNext t fuel ((t.attrs s).suffixLink) a

/-- One iteration of the transition-visiting fold inside the BFS loop of
`build_suffix_links` (named so the loop below can be unfolded one dequeued
state at a time). -/
def linkStep (s : Nat) (acc : Trie × List Nat) (pr : Symbol × Nat) : Trie × List Nat :=
  let u := acc.1
  let sl := (acNext u u.automaton.size ((u.attrs s).suffixLink) pr.1).1
  let slAttr := u.attrs sl
  let u' := updateAttr u pr.2 (fun a =>
    { a with
        suffixLink := sl
        acceptSuffixLink := if slAttr.isAccept then sl else slAttr.acceptSuffixLink })
  (u', acc.2 ++ [pr.2])

/-- The body of the BFS `while` loop of `build_suffix_links`: dequeue `s`,
then for every transition `(s, symbol, destination)` in map order compute the
link through `acNext`, set both links of the destination and enqueue it.
`fuel` bounds the number of dequeues (sufficient fuel is supplied below). -/
def buildLinksLoop (t0 : Trie) : Nat → Trie → List Nat → Trie
  | 0, t, _ => t
  | _ + 1, t, [] => t
  | fuel + 1, t, s :: queue =>
      let step := (t.automaton.row s).foldl
        (fun (acc : Trie × List Nat) pr =>
          let u := acc.1
          let sl := (acNext u u.automaton.size ((u.attrs s).suffixLink) pr.1).1
          let slAttr := u.attrs sl
          let u' := updateAttr u pr.2 (fun a =>
            { a with
                suffixLink := sl
                acceptSuffixLink := if slAttr.isAccept then sl else slAttr.acceptSuffixLink })
          (u', acc.2 ++ [pr.2]))
        (t, queue)
      buildLinksLoop t0 fuel step.1 step.2

/-- `aho_corasick::build_suffix_links`: the root's suffix link is the root;
every direct child of the root gets suffix link root and is enqueued; then the
BFS loop runs. -/
def buildSuffixLinks (t : Trie) : Trie :=
  let t₀ := updateAttr t 0 (fun a => { a with suffixLink := 0 })
  let rootChildren := (t₀.automaton.row 0).map Prod.snd
  let t₁ := rootChildren.foldl
    (fun u d => updateAttr u d (fun a => { a with suffixLink := 0 })) t₀
  buildLinksLoop t₁ (2 ^ t₁.automaton.size) t₁ rootChildren

/-- `aho_corasick::initialize`: build the trie, then the links. -/
def buildAho (ps : List (List Symbol × Label)) : Trie :=
  buildSuffixLinks (buildTrie ps)

/-- The `while (state != not_set)` walk along accept-suffix links inside
`collect_matching`, fuelled (links decrease depth). -/
def acceptChain (t : Trie) : Nat → Nat → List Label
  | 0, _ => []
  | fuel + 1, state =>
      if state = notSet then []
      else (t.values.getD ((t.valueIdx state).getD 0) 0) ::
        acceptChain t fuel ((t.attrs state).acceptSuffixLink)

/-- `aho_corasick::collect_matching`: the label of `state` when accepting,
then the labels along the accept-suffix chain. -/
def collectMatching (t : Trie) (state : Nat) : List Label :=
  (if (t.attrs state).isAccept then [t.values.getD ((t.valueIdx state).getD 0) 0] else []) ++
  acceptChain t t.automaton.size ((t.attrs state).acceptSuffixLink)

/-- The loop of `aho_corasick::match`: advance with `acNext` on each text
symbol and collect the matches ending there. -/
def acMatchFrom (t : Trie) : Nat → List Symbol → List Label
  | _, [] => []
  | state, a :: rest =>
      let nxt := (acNext t t.automaton.size state a).1
      collectMatching t nxt ++ acMatchFrom t nxt rest

/-- `aho_corasick::match` over a whole text, from the root. -/
def acMatch (t : Trie) (text : List Symbol) : List Label :=
  acMatchFrom t 0 text

/-- The proper suffixes of `w`, longest first, ending with `[]`. -/
def properSuffixes (w : List Symbol) : List (List Symbol) := w.tails.drop 1

/-- The longest proper suffix of `w` whose path exists in the trie (the empty
suffix — the root — always does). -/
def lps (t : Trie) (w : List Symbol) : List Symbol :=
  ((properSuffixes w).find? (fun v => (walk t.automaton 0 v).isSome)).getD []

/-- The state reached by `w` (for present `w`). -/
def stateOf (t : Trie) (w : List Symbol) : Nat := (walk t.automaton 0 w).getD 0

/-- The longest suffix of `x` (possibly `x` itself) whose path exists in the
trie; the empty suffix always does. -/
def lss (t : Trie) (x : List Symbol) : List Symbol :=
  (x.tails.find? (fun v => (walk t.automaton 0 v).isSome)).getD []

/-- The longest suffix `v` of `w` such that `v ++ [a]` is present in the trie:
the suffix at which the suffix-link descent of `aho_corasick::next` stops. -/
def matchSuffix (t : Trie) (w : List Symbol) (a : Symbol) : Option (List Symbol) :=
  w.tails.find? (fun v => (walk t.automaton 0 (v ++ [a])).isSome)

/-- The intended value of `aho_corasick::next` from the state of `w` on `a`:
the state of `v ++ [a]` for the longest suffix `v` of `w` with `v ++ [a]`
present, else the root. -/
def acNextSpec (t : Trie) (w : List Symbol) (a : Symbol) : Nat :=
  match matchSuffix t w a with
  | some v => stateOf t (v ++ [a])
  | none => 0


/-- What `build_suffix_links` stores in `accept_suffix_link`, as a recursion
over words: states of depth `≤ 1` keep `not_set` (the root is never assigned
one and the root-children loop sets only `suffix_link`); a deeper state points
at the state of its longest present proper suffix if that is accepting, else
inherits that state's value.  Fuelled by word length. -/
def accSpecGo (t : Trie) : Nat → List Symbol → Nat
  | 0, _ => notSet
  | fuel + 1, w =>
      if w.length ≤ 1 then notSet
      else
        let v := lps t w
        if (t.attrs (stateOf t v)).isAccept then stateOf t v
        else accSpecGo t fuel v

/-- `accSpecGo` with adequate fuel. -/
def accSpec (t : Trie) (w : List Symbol) : Nat := accSpecGo t w.length w

/-- Correctness of the two links stored at the state `s` reached by `v`,
relative to the reference trie `t` (whose automaton and accept flags the
link-building phase never changes). -/
def LinkCorr (t u : Trie) (s : Nat) (v : List Symbol) : Prop :=
  (u.attrs s).suffixLink = stateOf t (lps t v) ∧
  (u.attrs s).acceptSuffixLink = accSpec t v

/-- The suffixes of `x` (including `x` itself) that are present in the trie
and whose state is accepting — the words whose labels `collect_matching`
emits at the state reached after reading `x`, longest first. -/
def accSuffixes (t : Trie) (x : List Symbol) : List (List Symbol) :=
  x.tails.filter (fun v => (walk t.automaton 0 v).isSome &&
    (t.attrs (stateOf t v)).isAccept)

/-- The proper such suffixes: what the accept-suffix-link chain walks. -/
def accProperSuffixes (t : Trie) (x : List Symbol) : List (List Symbol) :=
  (properSuffixes x).filter (fun v => (walk t.automaton 0 v).isSome &&
    (t.attrs (stateOf t v)).isAccept)

/-- The label stored for the state reached by `v`. -/
def labelOf (t : Trie) (v : List Symbol) : Label :=
  t.values.getD ((t.valueIdx (stateOf t v)).getD 0) 0

/-- The number of occurrences of `w` as a contiguous substring of `text`,
counted by start position (overlaps counted separately). -/
def countOccurrences (w text : List Symbol) : Nat :=
  ((List.range (text.length + 1)).filter (fun j => w.isPrefixOf (text.drop j))).length

/-- The intended contents of a Wagner-Fischer row at the trie word `w`:
entry `i` is the edit distance from the query prefix of length `i` to `w`.
`X` accumulates the consumed query prefix, `qs` the rest of the query. -/
def specRow (p : LevParams) (w : List Symbol) : List Symbol → List Symbol → List Nat
  | X, [] => [editDistance p X w]
  | X, a :: qs => editDistance p X w :: specRow p w (X ++ [a]) qs

/-- Aggregate description of the effect of `grow t s rest` when `s` is the
state reached by `v₀` and the first remaining symbol has no transition:
a fresh chain of states is appended, old walks are preserved and reflected,
the final state is the end of the chain, the words of the fresh states are
exactly `v₀` extended by the non-empty prefixes of `rest`, and all value /
cache data is untouched. -/
structure GrowSpec (t : Trie) (s : Nat) (v₀ rest : List Symbol)
    (t' : Trie) (sFin : Nat) : Prop where
  inv : FsmInv t'.automaton
  size_eq : t'.automaton.size = t.automaton.size + rest.length
  mono : ∀ v u, walk t.automaton 0 v = some u → walk t'.automaton 0 v = some u
  reflect : ∀ v u, u < t.automaton.size → walk t'.automaton 0 v = some u →
      walk t.automaton 0 v = some u
  final : walk t'.automaton 0 (v₀ ++ rest) = some sFin
  nil_case : rest = [] → t' = t ∧ sFin = s
  fresh : rest ≠ [] → t.automaton.size ≤ sFin
  fin_lt : sFin < t'.automaton.size
  new_words : ∀ v u, walk t'.automaton 0 v = some u → t.automaton.size ≤ u →
      ∃ r, r ≠ [] ∧ r <+: rest ∧ v = v₀ ++ r
  new_covered : ∀ u, t.automaton.size ≤ u → u < t'.automaton.size →
      ∃ r, r ≠ [] ∧ r <+: rest ∧ walk t'.automaton 0 (v₀ ++ r) = some u
  vals_eq : t'.values = t.values
  vidx_eq : t'.valueIdx = t.valueIdx
  reach_eq : t'.reachable = t.reachable
  attrs_old : ∀ x, x < t.automaton.size → t'.attrs x = t.attrs x
  attrs_new : ∀ x, t.automaton.size ≤ x → x < t'.automaton.size → t'.attrs x = Attr.init
  attrs_junk : ∀ x, t'.automaton.size ≤ x → t'.attrs x = t.attrs x

/-- Claim C9: for a state `s < size()` and a symbol `a`, `add_transition`
returns the existing target with `created = false` and the automaton
unchanged when a transition from `s` on `a` already exists, and otherwise
returns a fresh identifier equal to the old `size()` with `created = true`;
in all cases `size()` grows by exactly one iff `created` is `true`. -/
theorem fsm_addTransition_spec (m : Fsm) (s : Nat) (a : Symbol) (_h : s < m.size) :
    (∀ d, m.next s a = (d, true) → m.addTransition s a = (m, d, false)) ∧
    (m.next s a = (s, false) →
      (m.addTransition s a).2.1 = m.size ∧ (m.addTransition s a).2.2 = true ∧
      (m.addTransition s a).1.size = m.size + 1) ∧
    ((m.addTransition s a).1.size = m.size + 1 ↔ (m.addTransition s a).2.2 = true) := by
  unfold Fsm.next Fsm.addTransition Fsm.size
  cases hl : lookupSym a (m.row s) with
  | some d =>
      refine ⟨?_, ?_, ?_⟩
      · intro d' hd'
        simp at hd'
        simp [hd']
      · intro hfalse
        simp at hfalse
      · simp
  | none =>
      refine ⟨?_, ?_, ?_⟩
      · intro d' hd'
        simp at hd'
      · intro _
        simp [Fsm.size, List.length_set]
      · simp [Fsm.size, List.length_set]

theorem fsm_addTransition_spec_witness :
    (0 : Nat) < Fsm.empty.size ∧
    (Fsm.empty.addTransition 0 7).2.1 = Fsm.empty.size ∧
    (Fsm.empty.addTransition 0 7).1.size = Fsm.empty.size + 1 := by
  have h0 : (0 : Nat) < Fsm.empty.size := by decide
  have h := fsm_addTransition_spec Fsm.empty 0 7 h0
  have hnext : Fsm.empty.next 0 7 = (0, false) := by decide
  exact ⟨h0, (h.2.1 hnext).1, (h.2.1 hnext).2.2⟩

theorem lookupSym_eq_none_iff (a : Symbol) (l : List (Symbol × Nat)) :
    lookupSym a l = none ↔ a ∉ l.map Prod.fst := by
  induction l with
  | nil => simp [lookupSym]
  | cons p rest ih =>
      obtain ⟨b, d⟩ := p
      by_cases hab : a = b
      · subst hab
        simp [lookupSym]
      · simp [lookupSym, hab, ih]

theorem lookupSym_insertTransition (a b : Symbol) (d : Nat) (l : List (Symbol × Nat))
    (h : lookupSym a l = none) :
    lookupSym b (insertTransition a d l) =
      if b = a then some d else lookupSym b l := by
  induction l with
  | nil =>
      by_cases hba : b = a <;> simp [insertTransition, lookupSym, hba]
  | cons p rest ih =>
      obtain ⟨c, e⟩ := p
      have hac : ¬ a = c := by
        intro hac
        simp [lookupSym, hac] at h
      have hrest : lookupSym a rest = none := by
        simpa [lookupSym, hac] using h
      by_cases hlt : a < c
      · by_cases hba : b = a
        · simp [insertTransition, hlt, lookupSym, hba]
        · simp [insertTransition, hlt, lookupSym, hba]
      · have hca : ¬ c = a := fun hh => hac hh.symm
        by_cases hbc : b = c
        · simp [insertTransition, hlt, lookupSym, hbc, hca]
        · simp [insertTransition, hlt, lookupSym, hbc, ih hrest]

theorem keys_insertTransition (a : Symbol) (d : Nat) (l : List (Symbol × Nat)) :
    ∀ b, b ∈ (insertTransition a d l).map Prod.fst ↔ b = a ∨ b ∈ l.map Prod.fst := by
  induction l with
  | nil => simp [insertTransition]
  | cons p rest ih =>
      obtain ⟨c, e⟩ := p
      intro b
      by_cases hlt : a < c
      · simp [insertTransition, hlt]
      · simp [insertTransition, hlt, ih]
        tauto

theorem nodup_keys_insertTransition (a : Symbol) (d : Nat) (l : List (Symbol × Nat))
    (h : lookupSym a l = none) (hl : (l.map Prod.fst).Nodup) :
    ((insertTransition a d l).map Prod.fst).Nodup := by
  induction l with
  | nil => simp [insertTransition]
  | cons p rest ih =>
      obtain ⟨c, e⟩ := p
      have hac : ¬ a = c := by
        intro hac
        simp [lookupSym, hac] at h
      have hrest : lookupSym a rest = none := by
        simpa [lookupSym, hac] using h
      rw [List.map_cons, List.nodup_cons] at hl
      obtain ⟨hc_notin, hrest_nodup⟩ := hl
      have ha_notin : a ∉ rest.map Prod.fst := (lookupSym_eq_none_iff a rest).mp hrest
      by_cases hlt : a < c
      · rw [insertTransition, if_pos hlt, List.map_cons, List.nodup_cons, List.map_cons,
          List.nodup_cons]
        refine ⟨?_, hc_notin, hrest_nodup⟩
        simp only [List.mem_cons]
        rintro (hca | hmem)
        · exact hac hca
        · exact ha_notin hmem
      · rw [insertTransition, if_neg hlt, List.map_cons, List.nodup_cons]
        refine ⟨?_, ih hrest hrest_nodup⟩
        intro hmem
        rcases (keys_insertTransition a d rest c).mp hmem with hca | hmem'
        · exact hac hca.symm
        · exact hc_notin hmem'

theorem walk_append (m : Fsm) (v v' : List Symbol) :
    ∀ s, walk m s (v ++ v') = (walk m s v).bind (fun u => walk m u v') := by
  induction v with
  | nil => intro s; simp [walk]
  | cons a rest ih =>
      intro s
      simp only [List.cons_append, walk]
      cases lookupSym a (m.row s) with
      | some d => simpa using ih d
      | none => simp

theorem walk_single (m : Fsm) (s : Nat) (a : Symbol) :
    walk m s [a] = lookupSym a (m.row s) := by
  unfold walk
  cases lookupSym a (m.row s) <;> simp [walk]

theorem walk_le (m : Fsm) (hedge : ∀ s a d, TransTo m s a d → s < d) :
    ∀ v s u, walk m s v = some u → s ≤ u := by
  intro v
  induction v with
  | nil => intro s u h; simp [walk] at h; omega
  | cons a rest ih =>
      intro s u h
      unfold walk at h
      cases hl : lookupSym a (m.row s) with
      | some d =>
          rw [hl] at h
          have h1 := hedge s a d hl
          have h2 := ih d u h
          omega
      | none => rw [hl] at h; exact absurd h (by simp)

theorem walk_lt_size (m : Fsm) (hm : FsmInv m) :
    ∀ v s u, walk m s v = some u → s < m.size → u < m.size := by
  intro v
  induction v with
  | nil => intro s u h hs; simp [walk] at h; omega
  | cons a rest ih =>
      intro s u h hs
      unfold walk at h
      cases hl : lookupSym a (m.row s) with
      | some d =>
          rw [hl] at h
          exact ih d u h (hm.edges s a d hl).2
      | none => rw [hl] at h; exact absurd h (by simp)

theorem walk_mono_of (m m' : Fsm)
    (hmono : ∀ x b d, TransTo m x b d → TransTo m' x b d) :
    ∀ v x u, walk m x v = some u → walk m' x v = some u := by
  intro v
  induction v with
  | nil => intro x u h; simpa [walk] using h
  | cons a rest ih =>
      intro x u h
      unfold walk at h ⊢
      cases hl : lookupSym a (m.row x) with
      | some d =>
          rw [hl] at h
          rw [hmono x a d hl]
          exact ih d u h
      | none => rw [hl] at h; exact absurd h (by simp)

theorem walk_reflect (m m' : Fsm) (N : Nat)
    (hedge' : ∀ s a d, TransTo m' s a d → s < d)
    (hcompat : ∀ s a d, TransTo m' s a d → d < N → TransTo m s a d) :
    ∀ v x u, walk m' x v = some u → u < N → walk m x v = some u := by
  intro v
  induction v with
  | nil => intro x u h _; simpa [walk] using h
  | cons a rest ih =>
      intro x u h hu
      unfold walk at h ⊢
      cases hl : lookupSym a (m'.row x) with
      | some d =>
          rw [hl] at h
          have hdu : d ≤ u := walk_le m' hedge' rest d u h
          have hdN : d < N := by omega
          rw [hcompat x a d hl hdN]
          exact ih d u h hu
      | none => rw [hl] at h; exact absurd h (by simp)

theorem no_trans_to_root (m : Fsm) (hm : FsmInv m) (s : Nat) (a : Symbol) :
    ¬ TransTo m s a 0 := by
  intro h
  have := (hm.edges s a 0 h).1
  omega

theorem walk_inj (m : Fsm) (hm : FsmInv m) :
    ∀ v v' u, walk m 0 v = some u → walk m 0 v' = some u → v = v' := by
  intro v
  induction v using List.reverseRecOn with
  | nil =>
      intro v' u h h'
      simp [walk] at h
      subst h
      induction v' using List.reverseRecOn with
      | nil => rfl
      | append_singleton w a _ =>
          rw [walk_append] at h'
          cases hw : walk m 0 w with
          | none => rw [hw] at h'; simp at h'
          | some x =>
              rw [hw] at h'
              simp [walk_single] at h'
              exact absurd h' (no_trans_to_root m hm x a)
  | append_singleton w a ih =>
      intro v' u h h'
      rw [walk_append] at h
      cases hw : walk m 0 w with
      | none => rw [hw] at h; simp at h
      | some x =>
          rw [hw] at h
          simp [walk_single] at h
          induction v' using List.reverseRecOn with
          | nil =>
              simp [walk] at h'
              subst h'
              exact absurd h (no_trans_to_root m hm x a)
          | append_singleton w' a' _ =>
              rw [walk_append] at h'
              cases hw' : walk m 0 w' with
              | none => rw [hw'] at h'; simp at h'
              | some x' =>
                  rw [hw'] at h'
                  simp [walk_single] at h'
                  obtain ⟨hx, ha⟩ := hm.uinc x a x' a' u h h'
                  subst hx; subst ha
                  rw [ih w' x hw hw']

theorem mem_dedup_go (ps : List (List Symbol × Label)) :
    ∀ acc x,
      (x ∈ ps.foldl (fun acc pr => if pr.1 ∈ acc then acc else acc ++ [pr.1]) acc ↔
        x ∈ acc ∨ x ∈ ps.map Prod.fst) := by
  induction ps with
  | nil => intro acc x; simp
  | cons p rest ih =>
      intro acc x
      simp only [List.foldl_cons, List.map_cons, List.mem_cons]
      by_cases hp : p.1 ∈ acc
      · simp only [if_pos hp, ih]
        constructor
        · rintro (h | h)
          · exact Or.inl h
          · exact Or.inr (Or.inr h)
        · rintro (h | h | h)
          · exact Or.inl h
          · exact Or.inl (h ▸ hp)
          · exact Or.inr h
      · simp only [if_neg hp, ih, List.mem_append, List.mem_singleton]
        tauto

theorem mem_dedupKeys (ps : List (List Symbol × Label)) (x : List Symbol) :
    x ∈ dedupKeys ps ↔ x ∈ ps.map Prod.fst := by
  unfold dedupKeys
  rw [mem_dedup_go]
  simp

theorem nodup_dedup_go (ps : List (List Symbol × Label)) :
    ∀ acc, acc.Nodup →
      (ps.foldl (fun acc pr => if pr.1 ∈ acc then acc else acc ++ [pr.1]) acc).Nodup := by
  induction ps with
  | nil => intro acc h; simpa
  | cons p rest ih =>
      intro acc h
      simp only [List.foldl_cons]
      by_cases hp : p.1 ∈ acc
      · simpa [if_pos hp] using ih acc h
      · refine if_neg hp ▸ ih _ ?_
        simp [List.nodup_append, h, hp]

theorem nodup_dedupKeys (ps : List (List Symbol × Label)) : (dedupKeys ps).Nodup :=
  nodup_dedup_go ps [] List.nodup_nil

theorem dedupKeys_append (ps : List (List Symbol × Label)) (pr : List Symbol × Label) :
    dedupKeys (ps ++ [pr]) =
      if pr.1 ∈ dedupKeys ps then dedupKeys ps else dedupKeys ps ++ [pr.1] := by
  unfold dedupKeys
  rw [List.foldl_append]
  simp

theorem firstLabel_isSome_iff (ps : List (List Symbol × Label)) (w : List Symbol) :
    (firstLabel ps w).isSome ↔ w ∈ ps.map Prod.fst := by
  induction ps with
  | nil => simp [firstLabel]
  | cons p rest ih =>
      obtain ⟨x, l⟩ := p
      by_cases hx : x = w
      · subst hx
        simp [firstLabel]
      · simp [firstLabel, hx, ih, Ne.symm hx]

theorem firstLabel_append_single (ps : List (List Symbol × Label)) (x : List Symbol)
    (l : Label) (w : List Symbol) :
    firstLabel (ps ++ [(x, l)]) w =
      match firstLabel ps w with
      | some l' => some l'
      | none => if x = w then some l else none := by
  induction ps with
  | nil => simp [firstLabel]
  | cons p rest ih =>
      obtain ⟨y, l'⟩ := p
      by_cases hy : y = w
      · simp [firstLabel, hy]
      · simp [firstLabel, hy, ih]

theorem buildTrie_append (ps : List (List Symbol × Label)) (pr : List Symbol × Label) :
    buildTrie (ps ++ [pr]) = addPair (buildTrie ps) pr.1 pr.2 := by
  unfold buildTrie
  rw [List.foldl_append]
  simp

theorem traverse_spec (m : Fsm) :
    ∀ w s u rest, traverse m s w = (u, rest) →
      ∃ v, w = v ++ rest ∧ walk m s v = some u ∧
        (∀ a tl, rest = a :: tl → lookupSym a (m.row u) = none) := by
  intro w
  induction w with
  | nil =>
      intro s u rest h
      simp [traverse] at h
      exact ⟨[], by simp [h.2], by simp [walk, h.1], by intro a tl htl; rw [h.2] at htl; cases htl⟩
  | cons a w' ih =>
      intro s u rest h
      unfold traverse at h
      unfold Fsm.next at h
      cases hl : lookupSym a (m.row s) with
      | some d =>
          rw [hl] at h
          simp at h
          obtain ⟨v, hv, hwalk, hstall⟩ := ih d u rest h
          refine ⟨a :: v, by simp [hv], ?_, hstall⟩
          unfold walk
          rw [hl]
          exact hwalk
      | none =>
          rw [hl] at h
          simp at h
          refine ⟨[], by simp [h.2], by simp [walk, h.1], ?_⟩
          intro b tl htl
          rw [← h.2] at htl
          cases htl
          rw [← h.1]
          exact hl

theorem traverse_of_walk (m : Fsm) :
    ∀ w s u, walk m s w = some u → traverse m s w = (u, []) := by
  intro w
  induction w with
  | nil => intro s u h; simp [walk] at h; simp [traverse, h]
  | cons a w' ih =>
      intro s u h
      unfold walk at h
      cases hl : lookupSym a (m.row s) with
      | some d =>
          rw [hl] at h
          unfold traverse Fsm.next
          rw [hl]
          exact ih d u h
      | none => rw [hl] at h; exact absurd h (by simp)

theorem row_oob (m : Fsm) (x : Nat) (h : m.size ≤ x) : m.row x = [] := by
  unfold Fsm.row
  simp [List.getD_eq_getElem?_getD, List.getElem?_eq_none h]

theorem addTransition_none_spec (m : Fsm) (s : Nat) (a : Symbol)
    (hs : s < m.size) (hl : lookupSym a (m.row s) = none) :
    (m.addTransition s a).2.1 = m.size ∧
    (m.addTransition s a).2.2 = true ∧
    ((m.addTransition s a).1).size = m.size + 1 ∧
    (∀ x, x ≠ s → ((m.addTransition s a).1).row x = m.row x) ∧
    ((m.addTransition s a).1).row s = insertTransition a m.size (m.row s) ∧
    (∀ x b d, TransTo (m.addTransition s a).1 x b d ↔
        TransTo m x b d ∨ (x = s ∧ b = a ∧ d = m.size)) := by
  have hsl : s < m.transitions.length := hs
  have hsz : m.size = m.transitions.length := rfl
  have hrow_ne : ∀ x, x ≠ s → ((m.addTransition s a).1).row x = m.row x := by
    intro x hx
    unfold Fsm.addTransition
    rw [hl]
    show (m.transitions.set s _ ++ [[]]).getD x [] = m.row x
    rcases Nat.lt_or_ge x m.transitions.length with h | h
    · rw [List.getD_eq_getElem?_getD, List.getElem?_append_left (by simpa using h),
        List.getElem?_set_ne (Ne.symm hx)]
      simp [Fsm.row, List.getD_eq_getElem?_getD]
    · have hx_row : m.row x = [] := row_oob m x (by omega)
      rw [hx_row]
      rcases Nat.eq_or_lt_of_le h with h2 | h2
      · subst h2
        rw [List.getD_eq_getElem?_getD, List.getElem?_append_right (by simp)]
        simp
      · rw [List.getD_eq_getElem?_getD, List.getElem?_eq_none (by simp; omega)]
        rfl
  have hrow_s : ((m.addTransition s a).1).row s = insertTransition a m.size (m.row s) := by
    unfold Fsm.addTransition
    rw [hl]
    show (m.transitions.set s _ ++ [[]]).getD s [] = _
    rw [List.getD_eq_getElem?_getD, List.getElem?_append_left (by simpa using hsl),
      List.getElem?_set_self (by simpa using hsl)]
    rfl
  refine ⟨?_, ?_, ?_, hrow_ne, hrow_s, ?_⟩
  · unfold Fsm.addTransition; rw [hl]
  · unfold Fsm.addTransition; rw [hl]
  · unfold Fsm.addTransition Fsm.size; rw [hl]; simp
  · intro x b d
    unfold TransTo
    by_cases hx : x = s
    · subst hx
      rw [hrow_s, lookupSym_insertTransition a b m.size (m.row x) hl]
      by_cases hba : b = a
      · subst hba
        rw [if_pos rfl]
        constructor
        · intro h
          exact Or.inr ⟨rfl, rfl, by simpa using h.symm⟩
        · rintro (h | ⟨-, -, h⟩)
          · rw [h] at hl; cases hl
          · simp [h]
      · rw [if_neg hba]
        constructor
        · exact fun h => Or.inl h
        · rintro (h | ⟨-, hba', -⟩)
          · exact h
          · exact absurd hba' hba
    · rw [hrow_ne x hx]
      constructor
      · exact fun h => Or.inl h
      · rintro (h | ⟨hx', -, -⟩)
        · exact h
        · exact absurd hx' hx

theorem fsmInv_addTransition (m : Fsm) (s : Nat) (a : Symbol)
    (hm : FsmInv m) (hs : s < m.size) (hl : lookupSym a (m.row s) = none) :
    FsmInv (m.addTransition s a).1 := by
  obtain ⟨-, -, hsize, hrow_ne, hrow_s, htrans⟩ := addTransition_none_spec m s a hs hl
  refine ⟨?_, ?_, ?_, ?_⟩
  · rw [hsize]; omega
  · intro x b d h
    rcases (htrans x b d).mp h with h' | ⟨hx, hb, hd⟩
    · have := hm.edges x b d h'
      omega
    · subst hx; subst hd
      omega
  · intro x b x' b' d h h'
    rcases (htrans x b d).mp h with h1 | ⟨hx, hb, hd⟩ <;>
      rcases (htrans x' b' d).mp h' with h2 | ⟨hx', hb', hd'⟩
    · exact hm.uinc x b x' b' d h1 h2
    · exfalso
      have := (hm.edges x b d h1).2
      omega
    · exfalso
      have := (hm.edges x' b' d h2).2
      omega
    · subst hx; subst hb; subst hx'; subst hb'; exact ⟨rfl, rfl⟩
  · intro x
    by_cases hx : x = s
    · subst hx
      rw [hrow_s]
      exact nodup_keys_insertTransition a m.size (m.row x) hl (hm.rows_nodup x)
    · rw [hrow_ne x hx]
      exact hm.rows_nodup x

theorem grow_cons (t : Trie) (s : Nat) (a : Symbol) (rest : List Symbol) :
    grow t s (a :: rest) =
      grow { t with automaton := (t.automaton.addTransition s a).1,
                    attrs := fun x =>
                      if x = (t.automaton.addTransition s a).2.1 then Attr.init
                      else t.attrs x }
        (t.automaton.addTransition s a).2.1 rest := by
  rcases h : t.automaton.addTransition s a with ⟨m, s', c⟩
  simp only [grow, h]

theorem grow_spec :
    ∀ (rest : List Symbol) (t : Trie) (s : Nat) (v₀ : List Symbol),
      FsmInv t.automaton →
      walk t.automaton 0 v₀ = some s →
      (∀ a tl, rest = a :: tl → lookupSym a (t.automaton.row s) = none) →
      GrowSpec t s v₀ rest (grow t s rest).1 (grow t s rest).2 := by
  intro rest
  induction rest with
  | nil =>
      intro t s v₀ hm hv₀ _
      have hgrow : grow t s [] = (t, s) := rfl
      rw [hgrow]
      show GrowSpec t s v₀ [] t s
      have hslt : s < t.automaton.size := walk_lt_size _ hm v₀ 0 s hv₀ hm.size_pos
      exact
        { inv := hm
          size_eq := by simp
          mono := fun v u h => h
          reflect := fun v u _ h => h
          final := by simpa using hv₀
          nil_case := fun _ => ⟨rfl, rfl⟩
          fresh := fun h => absurd rfl h
          fin_lt := hslt
          new_words := fun v u hw hu => by
            have := walk_lt_size _ hm v 0 u hw hm.size_pos
            omega
          new_covered := fun u hu1 hu2 => absurd hu2 (by omega)
          vals_eq := rfl
          vidx_eq := rfl
          reach_eq := rfl
          attrs_old := fun _ _ => rfl
          attrs_new := fun x h1 h2 => by omega
          attrs_junk := fun _ _ => rfl }
  | cons a rest' ih =>
      intro t s v₀ hm hv₀ hstall
      have hslt : s < t.automaton.size := walk_lt_size _ hm v₀ 0 s hv₀ hm.size_pos
      have hl : lookupSym a (t.automaton.row s) = none := hstall a rest' rfl
      obtain ⟨hdst, -, hsize₁, hrow_ne, hrow_s, htrans⟩ :=
        addTransition_none_spec t.automaton s a hslt hl
      set m₁ := (t.automaton.addTransition s a).1 with hm₁
      set s₁ := (t.automaton.addTransition s a).2.1 with hs₁
      set t₁ : Trie :=
        { t with automaton := m₁,
                 attrs := fun x => if x = s₁ then Attr.init else t.attrs x } with ht₁
      have hinv₁ : FsmInv m₁ := fsmInv_addTransition t.automaton s a hm hslt hl
      have hmono₁ : ∀ v u, walk t.automaton 0 v = some u → walk m₁ 0 v = some u :=
        fun v u h =>
          walk_mono_of t.automaton m₁ (fun x b d hx => (htrans x b d).mpr (Or.inl hx)) v 0 u h
      have hTnew : TransTo m₁ s a s₁ := by
        rw [hdst]
        exact (htrans s a t.automaton.size).mpr (Or.inr ⟨rfl, rfl, rfl⟩)
      have hwalk₁ : walk m₁ 0 (v₀ ++ [a]) = some s₁ := by
        rw [walk_append, hmono₁ v₀ s hv₀]
        simpa [walk_single] using hTnew
      have hrow₁ : m₁.row s₁ = [] := by
        have hne : s₁ ≠ s := by omega
        rw [hrow_ne s₁ hne]
        exact row_oob t.automaton s₁ (le_of_eq hdst.symm)
      have hstall₁ : ∀ b tl, rest' = b :: tl → lookupSym b (m₁.row s₁) = none := by
        intro b tl _
        rw [hrow₁]
        rfl
      have hIH := ih t₁ s₁ (v₀ ++ [a]) hinv₁ hwalk₁ hstall₁
      have hgrow_eq : grow t s (a :: rest') = grow t₁ s₁ rest' := grow_cons t s a rest'
      rw [hgrow_eq]
      set t' := (grow t₁ s₁ rest').1
      set sFin := (grow t₁ s₁ rest').2
      have ht₁size : t₁.automaton.size = t.automaton.size + 1 := hsize₁
      refine
        { inv := hIH.inv
          size_eq := by rw [hIH.size_eq, ht₁size]; simp; omega
          mono := fun v u h => hIH.mono v u (hmono₁ v u h)
          reflect := ?_
          final := ?_
          nil_case := fun h => absurd h (by simp)
          fresh := ?_
          fin_lt := hIH.fin_lt
          new_words := ?_
          new_covered := ?_
          vals_eq := hIH.vals_eq
          vidx_eq := hIH.vidx_eq
          reach_eq := hIH.reach_eq
          attrs_old := ?_
          attrs_new := ?_
          attrs_junk := ?_ }
      · intro v u hu hw
        have h1 : walk m₁ 0 v = some u := hIH.reflect v u (by omega) hw
        refine walk_reflect t.automaton m₁ t.automaton.size
          (fun x b d hx => (hinv₁.edges x b d hx).1) ?_ v 0 u h1 hu
        intro x b d hx hd
        rcases (htrans x b d).mp hx with h' | ⟨-, -, hd'⟩
        · exact h'
        · omega
      · have : v₀ ++ a :: rest' = (v₀ ++ [a]) ++ rest' := by simp
        rw [this]
        exact hIH.final
      · intro _
        rcases Decidable.em (rest' = []) with hrest' | hrest'
        · have := (hIH.nil_case hrest').2
          omega
        · have := hIH.fresh hrest'
          omega
      · intro v u hw hu
        rcases Nat.lt_or_ge u t₁.automaton.size with hcase | hcase
        · have hu_eq : u = s₁ := by omega
          have hws₁ : walk t'.automaton 0 (v₀ ++ [a]) = some u := by
            rw [hu_eq]
            exact hIH.mono (v₀ ++ [a]) s₁ hwalk₁
          have hv_eq : v = v₀ ++ [a] := walk_inj t'.automaton hIH.inv v (v₀ ++ [a]) u hw hws₁
          exact ⟨[a], by simp, ⟨rest', rfl⟩, hv_eq⟩
        · obtain ⟨r', hr'ne, hr'pref, hveq⟩ := hIH.new_words v u hw hcase
          obtain ⟨tail, htail⟩ := hr'pref
          refine ⟨a :: r', by simp, ⟨tail, by rw [← htail]; simp⟩, by simp [hveq]⟩
      · intro u hu1 hu2
        rcases Nat.lt_or_ge u t₁.automaton.size with hcase | hcase
        · have hu_eq : u = s₁ := by omega
          refine ⟨[a], by simp, ⟨rest', rfl⟩, ?_⟩
          rw [hu_eq]
          exact hIH.mono (v₀ ++ [a]) s₁ hwalk₁
        · obtain ⟨r', hr'ne, hr'pref, hwr'⟩ := hIH.new_covered u hcase hu2
          obtain ⟨tail, htail⟩ := hr'pref
          refine ⟨a :: r', by simp, ⟨tail, by rw [← htail]; simp⟩, ?_⟩
          have : v₀ ++ a :: r' = (v₀ ++ [a]) ++ r' := by simp
          rw [this]
          exact hwr'
      · intro x hx
        have h1 := hIH.attrs_old x (by omega)
        rw [h1]
        show (if x = s₁ then Attr.init else t.attrs x) = t.attrs x
        rw [if_neg (by omega)]
      · intro x hx1 hx2
        rcases Nat.eq_or_lt_of_le hx1 with heq | hlt
        · have h1 := hIH.attrs_old x (by omega)
          rw [h1]
          show (if x = s₁ then Attr.init else t.attrs x) = Attr.init
          rw [if_pos (by omega)]
        · exact hIH.attrs_new x (by omega) hx2
      · intro x hx
        have h1 := hIH.attrs_junk x hx
        rw [h1]
        show (if x = s₁ then Attr.init else t.attrs x) = t.attrs x
        have : s₁ < t'.automaton.size := by
          rw [hIH.size_eq]
          omega
        rw [if_neg (by omega)]

theorem walk_isSome_of_append (m : Fsm) (v₁ v₂ : List Symbol) (u : Nat)
    (h : walk m 0 (v₁ ++ v₂) = some u) : ∃ x, walk m 0 v₁ = some x := by
  rw [walk_append] at h
  cases hv : walk m 0 v₁ with
  | none => rw [hv] at h; simp at h
  | some x => exact ⟨x, rfl⟩

theorem pathStates_mem (m : Fsm) :
    ∀ (v : List Symbol) (s u x : Nat), walk m s v = some u →
      (x ∈ pathStates m s v ↔ ∃ j, j < v.length ∧ walk m s (v.take j) = some x) := by
  intro v
  induction v with
  | nil => intro s u x h; simp [pathStates]
  | cons a rest ih =>
      intro s u x h
      unfold walk at h
      cases hl : lookupSym a (m.row s) with
      | none => rw [hl] at h; simp at h
      | some d =>
          rw [hl] at h
          have hnext : (m.next s a).1 = d := by simp [Fsm.next, hl]
          unfold pathStates
          rw [hnext]
          simp only [List.mem_cons]
          constructor
          · rintro (rfl | hx)
            · exact ⟨0, by simp, by simp [walk]⟩
            · obtain ⟨j, hj, hwj⟩ := (ih d u x h).mp hx
              refine ⟨j + 1, by simpa using hj, ?_⟩
              simp only [List.take_succ_cons]
              unfold walk
              rw [hl]
              exact hwj
          · rintro ⟨j, hj, hwj⟩
            cases j with
            | zero =>
                simp [walk] at hwj
                exact Or.inl hwj.symm
            | succ j' =>
                simp only [List.take_succ_cons] at hwj
                unfold walk at hwj
                rw [hl] at hwj
                exact Or.inr ((ih d u x h).mpr ⟨j', by simpa using hj, hwj⟩)

theorem pathStates_nodup (m : Fsm) (hedge : ∀ s a d, TransTo m s a d → s < d) :
    ∀ (v : List Symbol) (s u : Nat), walk m s v = some u →
      (pathStates m s v).Nodup := by
  intro v
  induction v with
  | nil => intro s u _; simp [pathStates]
  | cons a rest ih =>
      intro s u h
      unfold walk at h
      cases hl : lookupSym a (m.row s) with
      | none => rw [hl] at h; simp at h
      | some d =>
          rw [hl] at h
          have hnext : (m.next s a).1 = d := by simp [Fsm.next, hl]
          unfold pathStates
          rw [hnext, List.nodup_cons]
          refine ⟨?_, ih d u h⟩
          intro hmem
          obtain ⟨j, hj, hwj⟩ := (pathStates_mem m rest d u s h).mp hmem
          have h1 : d ≤ s := walk_le m hedge (rest.take j) d s hwj
          have h2 : s < d := hedge s a d hl
          omega

theorem foldl_attachReachable (i : Nat) :
    ∀ (L : List Nat) (t : Trie), L.Nodup →
      (L.foldl (fun u x => attachReachable u x i) t).automaton = t.automaton ∧
      (L.foldl (fun u x => attachReachable u x i) t).attrs = t.attrs ∧
      (L.foldl (fun u x => attachReachable u x i) t).values = t.values ∧
      (L.foldl (fun u x => attachReachable u x i) t).valueIdx = t.valueIdx ∧
      ∀ u, (L.foldl (fun u x => attachReachable u x i) t).reachable u =
        if u ∈ L then t.reachable u ++ [i] else t.reachable u := by
  intro L
  induction L with
  | nil => intro t _; exact ⟨rfl, rfl, rfl, rfl, fun u => by simp⟩
  | cons x L' ih =>
      intro t hnd
      rw [List.nodup_cons] at hnd
      obtain ⟨hx, hnd'⟩ := hnd
      simp only [List.foldl_cons]
      obtain ⟨h1, h2, h3, h4, h5⟩ := ih (attachReachable t x i) hnd'
      refine ⟨h1, h2, h3, h4, ?_⟩
      intro u
      rw [h5 u]
      by_cases hu : u = x
      · subst hu
        rw [if_neg hx, if_pos (by simp)]
        simp [attachReachable]
      · by_cases hu' : u ∈ L'
        · rw [if_pos hu', if_pos (by simp [hu'])]
          simp [attachReachable, hu]
        · rw [if_neg hu', if_neg (by simp [hu, hu'])]
          simp [attachReachable, hu]

theorem walk_empty (v : List Symbol) (s u : Nat) :
    walk Trie.empty.automaton s v = some u ↔ v = [] ∧ u = s := by
  cases v with
  | nil => simp [walk]; exact comm
  | cons a rest =>
      unfold walk
      have : Fsm.row Trie.empty.automaton s = [] := by
        unfold Trie.empty Fsm.empty Fsm.row
        cases s with
        | zero => rfl
        | succ n => simp [List.getD_eq_getElem?_getD]
      rw [this]
      simp [lookupSym]

theorem inv_empty : Inv Trie.empty [] := by
  have hrow : ∀ s, Fsm.row Trie.empty.automaton s = [] := by
    intro s
    unfold Trie.empty Fsm.empty Fsm.row
    cases s with
    | zero => rfl
    | succ n => simp [List.getD_eq_getElem?_getD]
  have hnoTrans : ∀ s a d, ¬ TransTo Trie.empty.automaton s a d := by
    intro s a d h
    unfold TransTo at h
    rw [hrow s] at h
    simp [lookupSym] at h
  refine ⟨⟨by decide, ?_, ?_, ?_⟩, rfl, ?_, ?_, ?_, ?_, ?_, ?_⟩
  · intro s a d h; exact absurd h (hnoTrans s a d)
  · intro s a s' a' d h _; exact absurd h (hnoTrans s a d)
  · intro s; rw [hrow s]; simp
  · intro w hw; simp [dedupKeys] at hw
  · intro s hs hs0
    have : s = 0 := by
      have : Trie.empty.automaton.size = 1 := rfl
      omega
    exact absurd this hs0
  · intro s i
    constructor
    · intro h; simp [Trie.empty] at h
    · rintro ⟨w, -, hKi⟩
      simp [dedupKeys] at hKi
  · intro s; rfl
  · intro v s h
    rw [walk_empty] at h
    simp [dedupKeys, Trie.empty]
  · intro u _; rfl

theorem inv_addPair (t : Trie) (ps : List (List Symbol × Label))
    (w : List Symbol) (lab : Label) (hInv : Inv t ps) :
    Inv (addPair t w lab) (ps ++ [(w, lab)]) := by
  obtain ⟨s₀, rest, htrav⟩ : ∃ s₀ rest, traverse t.automaton 0 w = (s₀, rest) := ⟨_, _, rfl⟩
  obtain ⟨v₀, hw_eq, hwalk₀, hstall⟩ := traverse_spec t.automaton w 0 s₀ rest htrav
  have hgs := grow_spec rest t s₀ v₀ hInv.fsmInv hwalk₀ hstall
  have hins : insertSeq t w = ((grow t s₀ rest).1, (grow t s₀ rest).2) := by
    unfold insertSeq
    rw [htrav]
  set t₁ := (grow t s₀ rest).1 with ht₁
  set sF := (grow t s₀ rest).2 with hsF
  have hwalkF : walk t₁.automaton 0 w = some sF := by rw [hw_eq]; exact hgs.final
  have hKlen : t.values.length = (dedupKeys ps).length := by rw [hInv.vals]; simp
  cases hvidx : t₁.valueIdx sF with
  | some i =>
      have hvidx_t : t.valueIdx sF = some i := by rw [← hgs.vidx_eq]; exact hvidx
      obtain ⟨w', hw'walk, hw'K⟩ := (hInv.vidx sF i).mp hvidx_t
      have hrest_nil : rest = [] := by
        by_contra hne
        have hfresh := hgs.fresh hne
        have := walk_lt_size t.automaton hInv.fsmInv w' 0 sF hw'walk hInv.fsmInv.size_pos
        omega
      obtain ⟨hteq, hseq⟩ := hgs.nil_case hrest_nil
      rw [hteq] at hwalkF
      have hww' : w = w' := walk_inj t.automaton hInv.fsmInv w w' sF hwalkF hw'walk
      have hwK : w ∈ dedupKeys ps := by
        rw [hww']
        exact List.getElem?_mem hw'K
      have hattach : attachValue t₁ sF lab = (t₁, i, false) := by
        unfold attachValue
        rw [hvidx]
      have haddPair : addPair t w lab = t₁ := by
        unfold addPair
        simp only [hins, hattach]
        simp
      rw [haddPair, hteq]
      have hK' : dedupKeys (ps ++ [(w, lab)]) = dedupKeys ps := by
        rw [dedupKeys_append, if_pos hwK]
      have hfl : ∀ k ∈ dedupKeys ps,
          firstLabel (ps ++ [(w, lab)]) k = firstLabel ps k := by
        intro k hk
        rw [firstLabel_append_single]
        have hsome : (firstLabel ps k).isSome :=
          (firstLabel_isSome_iff ps k).mpr ((mem_dedupKeys ps k).mp hk)
        cases hfk : firstLabel ps k with
        | some l' => rfl
        | none => rw [hfk] at hsome; simp at hsome
      refine ⟨hInv.fsmInv, ?_, ?_, ?_, ?_, hInv.accept, ?_, hInv.cache_fresh⟩
      · rw [hK', hInv.vals]
        refine List.map_congr_left ?_
        intro k hk
        rw [hfl k hk]
      · rw [hK']; exact hInv.keys_closed
      · rw [hK']; exact hInv.states_reached
      · rw [hK']; exact hInv.vidx
      · rw [hK']; exact hInv.cache
  | none =>
      -- genuinely new key: a fresh value is attached at sF
      have hwnotK : w ∉ dedupKeys ps := by
        intro hwK
        have hclosed := hInv.keys_closed w hwK w (List.prefix_refl w)
        obtain ⟨x, hx⟩ := Option.isSome_iff_exists.mp hclosed
        have htrav2 := traverse_of_walk t.automaton w 0 x hx
        rw [htrav] at htrav2
        injection htrav2 with h1 h2
        obtain ⟨hteq, hseq⟩ := hgs.nil_case h2
        obtain ⟨j, hj⟩ := List.mem_iff_getElem?.mp hwK
        have hsome : t.valueIdx x = some j := (hInv.vidx x j).mpr ⟨w, hx, hj⟩
        rw [hteq, hseq, h1] at hvidx
        rw [hsome] at hvidx
        cases hvidx
      have hK' : dedupKeys (ps ++ [(w, lab)]) = dedupKeys ps ++ [w] := by
        rw [dedupKeys_append, if_neg hwnotK]
      have hfl_old : ∀ k ∈ dedupKeys ps,
          firstLabel (ps ++ [(w, lab)]) k = firstLabel ps k := by
        intro k hk
        rw [firstLabel_append_single]
        have hsome : (firstLabel ps k).isSome :=
          (firstLabel_isSome_iff ps k).mpr ((mem_dedupKeys ps k).mp hk)
        cases hfk : firstLabel ps k with
        | some l' => rfl
        | none => rw [hfk] at hsome; simp at hsome
      have hfl_w : firstLabel (ps ++ [(w, lab)]) w = some lab := by
        rw [firstLabel_append_single]
        have hnone : firstLabel ps w = none := by
          have : ¬ (firstLabel ps w).isSome := by
            rw [firstLabel_isSome_iff]
            intro hmem
            exact hwnotK ((mem_dedupKeys ps w).mpr hmem)
          exact Option.not_isSome_iff_eq_none.mp this
        rw [hnone]
        simp
      set i := t₁.values.length with hi
      have hiK : i = (dedupKeys ps).length := by
        rw [hi, hgs.vals_eq, hKlen]
      set t₂ : Trie :=
        { t₁ with
            values := t₁.values ++ [lab]
            valueIdx := fun x => if x = sF then some i else t₁.valueIdx x
            attrs := fun x =>
              if x = sF then { t₁.attrs x with isAccept := true } else t₁.attrs x }
        with ht₂
      have hattach : attachValue t₁ sF lab = (t₂, i, true) := by
        unfold attachValue
        rw [hvidx]
      set PL := pathStates t₁.automaton 0 w with hPLdef
      have hPLchar : ∀ x, x ∈ PL ↔
          ∃ j, j < w.length ∧ walk t₁.automaton 0 (w.take j) = some x :=
        fun x => pathStates_mem t₁.automaton w 0 sF x hwalkF
      have hPLnodup : PL.Nodup :=
        pathStates_nodup t₁.automaton (fun s a d h => (hgs.inv.edges s a d h).1) w 0 sF hwalkF
      obtain ⟨hFa, hFat, hFv, hFvi, hFr⟩ := foldl_attachReachable i PL t₂ hPLnodup
      set tF := attachReachable (PL.foldl (fun u x => attachReachable u x i) t₂) sF i
        with htF
      have haddPair : addPair t w lab = tF := by
        unfold addPair
        simp only [hins, hattach]
        rfl
      rw [haddPair]
      have hFauto : tF.automaton = t₁.automaton := by
        rw [htF]
        show (PL.foldl (fun u x => attachReachable u x i) t₂).automaton = t₁.automaton
        rw [hFa]
      have hFattrs : tF.attrs = t₂.attrs := by
        rw [htF]
        show (PL.foldl (fun u x => attachReachable u x i) t₂).attrs = t₂.attrs
        rw [hFat]
      have hFvals : tF.values = t.values ++ [lab] := by
        rw [htF]
        show (PL.foldl (fun u x => attachReachable u x i) t₂).values = t.values ++ [lab]
        rw [hFv]
        show t₁.values ++ [lab] = t.values ++ [lab]
        rw [hgs.vals_eq]
      have hFvidx : tF.valueIdx = fun x => if x = sF then some i else t.valueIdx x := by
        rw [htF]
        show (PL.foldl (fun u x => attachReachable u x i) t₂).valueIdx = _
        rw [hFvi]
        show (fun x => if x = sF then some i else t₁.valueIdx x) = _
        rw [hgs.vidx_eq]
      have hsFnotPL : sF ∉ PL := by
        intro hmem
        obtain ⟨j, hj, hwj⟩ := (hPLchar sF).mp hmem
        have heq : w.take j = w := walk_inj t₁.automaton hgs.inv (w.take j) w sF hwj hwalkF
        have hlen := congrArg List.length heq
        simp [List.length_take] at hlen
        omega
      have hreach₂ : ∀ u, t₂.reachable u = t.reachable u := by
        intro u
        show t₁.reachable u = t.reachable u
        rw [hgs.reach_eq]
      have hreach_final : ∀ u, tF.reachable u =
          if u ∈ PL ∨ u = sF then t.reachable u ++ [i] else t.reachable u := by
        intro u
        have h1 : tF.reachable u =
            if u = sF then (PL.foldl (fun u x => attachReachable u x i) t₂).reachable u ++ [i]
            else (PL.foldl (fun u x => attachReachable u x i) t₂).reachable u := rfl
        rw [h1, hFr u]
        by_cases hu : u = sF
        · rw [if_pos hu, if_neg (by rw [hu]; exact hsFnotPL), if_pos (Or.inr hu), hreach₂]
        · by_cases hu' : u ∈ PL
          · rw [if_neg hu, if_pos hu', if_pos (Or.inl hu'), hreach₂]
          · rw [if_neg hu, if_neg hu', if_neg (by rintro (h | h) <;> [exact hu' h; exact hu h]),
              hreach₂]
      have hmem_iff : ∀ v x, walk t₁.automaton 0 v = some x →
          ((x ∈ PL ∨ x = sF) ↔ v <+: w) := by
        intro v x hv
        constructor
        · rintro (hx | rfl)
          · obtain ⟨j, hj, hwj⟩ := (hPLchar x).mp hx
            have heq : v = w.take j := walk_inj t₁.automaton hgs.inv v (w.take j) x hv hwj
            rw [heq]
            exact List.take_prefix j w
          · have heq : v = w := walk_inj t₁.automaton hgs.inv v w sF hv hwalkF
            rw [heq]
        · intro hpref
          have hvt : v = w.take v.length := List.prefix_iff_eq_take.mp hpref
          rcases Nat.lt_or_ge v.length w.length with hlen | hlen
          · left
            refine (hPLchar x).mpr ⟨v.length, hlen, ?_⟩
            rw [← hvt]
            exact hv
          · have hveq : v = w := by
              have h1 := hpref.length_le
              have h2 : v.length = w.length := by omega
              rw [hvt, h2, List.take_length]
            right
            rw [hveq] at hv
            exact Option.some.inj (hv.symm.trans hwalkF)
      -- now discharge the eight clauses of the invariant
      refine ⟨?_, ?_, ?_, ?_, ?_, ?_, ?_, ?_⟩
      · rw [hFauto]; exact hgs.inv
      · rw [hFvals, hK', List.map_append, List.map_cons, List.map_nil]
        rw [hfl_w]
        have : (dedupKeys ps).map (fun k => (firstLabel (ps ++ [(w, lab)]) k).getD 0) =
            (dedupKeys ps).map (fun k => (firstLabel ps k).getD 0) := by
          refine List.map_congr_left ?_
          intro k hk
          rw [hfl_old k hk]
        rw [this, ← hInv.vals]
        rfl
      · rw [hFauto, hK']
        intro k hk v hpref
        rcases List.mem_append.mp hk with hkK | hkw
        · obtain ⟨x, hx⟩ := Option.isSome_iff_exists.mp (hInv.keys_closed k hkK v hpref)
          rw [hgs.mono v x hx]
          rfl
        · rw [List.mem_singleton] at hkw
          subst hkw
          obtain ⟨tl, htl⟩ := hpref
          obtain ⟨x, hx⟩ := walk_isSome_of_append t₁.automaton v tl sF (by rw [htl]; exact hwalkF)
          rw [hx]
          rfl
      · rw [hFauto, hK']
        intro x hx hx0
        rcases Nat.lt_or_ge x t.automaton.size with hcase | hcase
        · obtain ⟨v, w', hw'K, hpref, hvne, hwalk⟩ := hInv.states_reached x hcase hx0
          exact ⟨v, w', List.mem_append.mpr (Or.inl hw'K), hpref, hvne, hgs.mono v x hwalk⟩
        · obtain ⟨r, hrne, hrpref, hwalk⟩ := hgs.new_covered x hcase hx
          refine ⟨v₀ ++ r, w, List.mem_append.mpr (Or.inr (by simp)), ?_, by simp [hrne], hwalk⟩
          obtain ⟨tl, htl⟩ := hrpref
          exact ⟨tl, by rw [hw_eq, ← htl]; simp⟩
      · rw [hFauto, hK']
        intro x j
        have hvidx_x : tF.valueIdx x = if x = sF then some i else t.valueIdx x :=
          congrFun hFvidx x
        rw [hvidx_x]
        by_cases hx : x = sF
        · rw [if_pos hx]
          constructor
          · intro hj
            have hij : i = j := Option.some.inj hj
            refine ⟨w, by rw [hx]; exact hwalkF, ?_⟩
            rw [← hij, hiK]
            simp
          · rintro ⟨v, hv, hKj⟩
            rcases Nat.lt_or_ge j (dedupKeys ps).length with hj | hj
            · rw [List.getElem?_append_left hj] at hKj
              have hvK : v ∈ dedupKeys ps := List.getElem?_mem hKj
              obtain ⟨y, hy⟩ :=
                Option.isSome_iff_exists.mp (hInv.keys_closed v hvK v (List.prefix_refl v))
              have hy' := hgs.mono v y hy
              have hxy : x = y := Option.some.inj (hv.symm.trans hy')
              have hylt := walk_lt_size t.automaton hInv.fsmInv v 0 y hy hInv.fsmInv.size_pos
              exfalso
              rcases Decidable.em (rest = []) with hrnil | hrne
              · obtain ⟨jv, hjv⟩ := List.mem_iff_getElem?.mp hvK
                have hvix : t.valueIdx y = some jv := (hInv.vidx y jv).mpr ⟨v, hy, hjv⟩
                have hnone : t.valueIdx sF = none := by rw [← hgs.vidx_eq]; exact hvidx
                have hnone' : t.valueIdx y = none := by rw [← hxy, hx]; exact hnone
                rw [hvix] at hnone'
                cases hnone'
              · have := hgs.fresh hrne
                omega
            · have hj2 : j = (dedupKeys ps).length := by
                obtain ⟨hlt, -⟩ := List.getElem?_eq_some_iff.mp hKj
                simp at hlt
                omega
              rw [hiK, hj2]
        · rw [if_neg hx]
          constructor
          · intro hj
            obtain ⟨v, hv, hKj⟩ := (hInv.vidx x j).mp hj
            have hjlt : j < (dedupKeys ps).length := by
              obtain ⟨hlt, -⟩ := List.getElem?_eq_some_iff.mp hKj
              exact hlt
            exact ⟨v, hgs.mono v x hv, by rw [List.getElem?_append_left hjlt]; exact hKj⟩
          · rintro ⟨v, hv, hKj⟩
            rcases Nat.lt_or_ge j (dedupKeys ps).length with hj | hj
            · rw [List.getElem?_append_left hj] at hKj
              have hvK : v ∈ dedupKeys ps := List.getElem?_mem hKj
              obtain ⟨y, hy⟩ :=
                Option.isSome_iff_exists.mp (hInv.keys_closed v hvK v (List.prefix_refl v))
              have hy' := hgs.mono v y hy
              have hxy : x = y := Option.some.inj (hv.symm.trans hy')
              subst hxy
              exact (hInv.vidx x j).mpr ⟨v, hy, hKj⟩
            · exfalso
              have hj2 : j = (dedupKeys ps).length := by
                obtain ⟨hlt, -⟩ := List.getElem?_eq_some_iff.mp hKj
                simp at hlt
                omega
              have hvw : v = w := by
                rw [hj2] at hKj
                simp at hKj
                exact hKj.symm
              rw [hvw] at hv
              exact hx (Option.some.inj (hv.symm.trans hwalkF))
      · intro x
        have hattr_x : tF.attrs x =
            if x = sF then { t₁.attrs x with isAccept := true } else t₁.attrs x :=
          congrFun hFattrs x
        have hvidx_x : tF.valueIdx x = if x = sF then some i else t.valueIdx x :=
          congrFun hFvidx x
        rw [hattr_x, hvidx_x]
        by_cases hx : x = sF
        · rw [if_pos hx, if_pos hx]
          rfl
        · rw [if_neg hx, if_neg hx]
          rcases Nat.lt_or_ge x t.automaton.size with hcase | hcase
          · rw [hgs.attrs_old x hcase]
            exact hInv.accept x
          · rcases Nat.lt_or_ge x t₁.automaton.size with hcase2 | hcase2
            · rw [hgs.attrs_new x hcase hcase2]
              have hnone : t.valueIdx x = none := by
                cases hsome : t.valueIdx x with
                | none => rfl
                | some j =>
                    obtain ⟨v, hv, -⟩ := (hInv.vidx x j).mp hsome
                    have := walk_lt_size t.automaton hInv.fsmInv v 0 x hv hInv.fsmInv.size_pos
                    omega
              rw [hnone]
              rfl
            · rw [hgs.attrs_junk x hcase2]
              exact hInv.accept x
      · rw [hFauto, hK']
        intro v x hv
        rw [hreach_final x]
        have hcond : (x ∈ PL ∨ x = sF) ↔ v <+: w := hmem_iff v x hv
        have hRHS : (List.range ((dedupKeys ps).length + 1)).filter
              (fun j => v.isPrefixOf ((dedupKeys ps ++ [w]).getD j [])) =
            (List.range (dedupKeys ps).length).filter
              (fun j => v.isPrefixOf ((dedupKeys ps).getD j [])) ++
            (if v.isPrefixOf w then [(dedupKeys ps).length] else []) := by
          rw [List.range_succ, List.filter_append]
          congr 1
          · refine List.filter_congr ?_
            intro j hj
            rw [List.mem_range] at hj
            congr 1
            simp [List.getD_eq_getElem?_getD, List.getElem?_append_left hj]
          · simp only [List.filter_cons, List.filter_nil]
            have : (dedupKeys ps ++ [w]).getD (dedupKeys ps).length [] = w := by
              simp [List.getD_eq_getElem?_getD]
            rw [this]
        rw [List.length_append, List.length_singleton, hRHS]
        rcases Nat.lt_or_ge x t.automaton.size with hcase | hcase
        · have hvt : walk t.automaton 0 v = some x := hgs.reflect v x hcase hv
          have hold := hInv.cache v x hvt
          rw [hold]
          by_cases hp : v <+: w
          · rw [if_pos (hcond.mpr hp), if_pos (List.isPrefixOf_iff_prefix.mpr hp), hiK]
          · rw [if_neg (fun hc => hp (hcond.mp hc)),
              if_neg (fun hb => hp (List.isPrefixOf_iff_prefix.mp hb))]
            simp
        · have hfreshx : t.reachable x = [] := hInv.cache_fresh x hcase
          have hfilter_nil : (List.range (dedupKeys ps).length).filter
              (fun j => v.isPrefixOf ((dedupKeys ps).getD j [])) = [] := by
            rw [List.filter_eq_nil_iff]
            intro j hj
            rw [List.mem_range] at hj
            intro hpj
            have hkmem : (dedupKeys ps).getD j [] ∈ dedupKeys ps := by
              rw [List.getD_eq_getElem?_getD, List.getElem?_eq_getElem hj]
              exact List.getElem_mem hj
            have hpref : v <+: (dedupKeys ps).getD j [] := List.isPrefixOf_iff_prefix.mp hpj
            obtain ⟨y, hy⟩ := Option.isSome_iff_exists.mp
              (hInv.keys_closed ((dedupKeys ps).getD j []) hkmem v hpref)
            have hy' := hgs.mono v y hy
            have hxy : x = y := Option.some.inj (hv.symm.trans hy')
            have := walk_lt_size t.automaton hInv.fsmInv v 0 y hy hInv.fsmInv.size_pos
            omega
          rw [hfreshx, hfilter_nil]
          by_cases hp : v <+: w
          · rw [if_pos (hcond.mpr hp), if_pos (List.isPrefixOf_iff_prefix.mpr hp), hiK]
          · rw [if_neg (fun hc => hp (hcond.mp hc)),
              if_neg (fun hb => hp (List.isPrefixOf_iff_prefix.mp hb))]
            simp
      · intro u hu
        rw [hFauto] at hu
        rw [hreach_final u]
        have hnot : ¬ (u ∈ PL ∨ u = sF) := by
          rintro (hmem | rfl)
          · obtain ⟨j, hj, hwj⟩ := (hPLchar u).mp hmem
            have := walk_lt_size t₁.automaton hgs.inv (w.take j) 0 u hwj hgs.inv.size_pos
            omega
          · have := hgs.fin_lt
            omega
        rw [if_neg hnot]
        refine hInv.cache_fresh u ?_
        have := hgs.size_eq
        omega

theorem inv_buildTrie (ps : List (List Symbol × Label)) : Inv (buildTrie ps) ps := by
  induction ps using List.reverseRecOn with
  | nil => exact inv_empty
  | append_singleton ps' pr ih =>
      rw [buildTrie_append]
      exact inv_addPair (buildTrie ps') ps' pr.1 pr.2 ih

theorem range_filter_map (K : List (List Symbol)) (q : List Symbol → Bool)
    (f : List Symbol → Label) :
    ((List.range K.length).filter (fun i => q (K.getD i []))).map
      (fun i => (K.map f).getD i 0) = (K.filter q).map f := by
  induction K using List.reverseRecOn with
  | nil => simp
  | append_singleton K₀ a ih =>
      have hsplit : List.range (K₀ ++ [a]).length = List.range K₀.length ++ [K₀.length] := by
        simp [List.range_succ]
      have hmain : ((List.range (K₀ ++ [a]).length).filter
            (fun i => q ((K₀ ++ [a]).getD i []))).map
            (fun i => ((K₀ ++ [a]).map f).getD i 0) =
          (((List.range K₀.length).filter (fun i => q (K₀.getD i []))).map
            (fun i => (K₀.map f).getD i 0)) ++
          (if q a then [f a] else []) := by
        rw [hsplit, List.filter_append, List.map_append]
        congr 1
        · have h1 : (List.range K₀.length).filter (fun i => q ((K₀ ++ [a]).getD i [])) =
              (List.range K₀.length).filter (fun i => q (K₀.getD i [])) := by
            refine List.filter_congr ?_
            intro i hi
            rw [List.mem_range] at hi
            have hgd : (K₀ ++ [a]).getD i [] = K₀.getD i [] := by
              simp [List.getD_eq_getElem?_getD, List.getElem?_append_left hi]
            rw [hgd]
          rw [h1]
          refine List.map_congr_left ?_
          intro i hi
          rw [List.mem_filter, List.mem_range] at hi
          have hlen : i < (List.map f K₀).length := by simpa using hi.1
          rw [List.map_append, List.getD_eq_getElem?_getD, List.getD_eq_getElem?_getD,
            List.getElem?_append_left hlen]
        · have hga : (K₀ ++ [a]).getD K₀.length [] = a := by
            simp [List.getD_eq_getElem?_getD]
          have hfa : ((K₀ ++ [a]).map f).getD K₀.length 0 = f a := by
            rw [List.map_append]
            simp [List.getD_eq_getElem?_getD]
          by_cases hq : q a <;> simp [hq, hga, hfa]
      rw [hmain, ih, List.filter_append, List.map_append]
      congr 1
      by_cases hq : q a <;> simp [hq]

/-- Claim C1: for a trie built from any pair list and any sequence occurring
in it, `find` succeeds and dereferencing yields the label of the first pair
carrying that sequence (later duplicates are ignored). -/
theorem trie_find_first_wins (ps : List (List Symbol × Label)) (w : List Symbol)
    (h : w ∈ ps.map Prod.fst) :
    ∃ l, firstLabel ps w = some l ∧ (buildTrie ps).find w = some l := by
  have hInv := inv_buildTrie ps
  have hwK : w ∈ dedupKeys ps := (mem_dedupKeys ps w).mpr h
  obtain ⟨x, hx⟩ := Option.isSome_iff_exists.mp
    (hInv.keys_closed w hwK w (List.prefix_refl w))
  obtain ⟨j, hj⟩ := List.mem_iff_getElem?.mp hwK
  have hvidx : (buildTrie ps).valueIdx x = some j := (hInv.vidx x j).mpr ⟨w, hx, hj⟩
  have htrav := traverse_of_walk (buildTrie ps).automaton w 0 x hx
  obtain ⟨l, hl⟩ := Option.isSome_iff_exists.mp ((firstLabel_isSome_iff ps w).mpr h)
  refine ⟨l, hl, ?_⟩
  unfold Trie.find
  rw [htrav]
  show ((buildTrie ps).valueIdx x).map (fun i => (buildTrie ps).values.getD i 0) = some l
  rw [hvidx]
  show some ((buildTrie ps).values.getD j 0) = some l
  rw [hInv.vals, List.getD_eq_getElem?_getD, List.getElem?_map, hj]
  simp [hl]

theorem trie_find_first_wins_witness :
    [1, 2] ∈ ([([1, 2], 5), ([1, 2], 7), ([3], 9)] : List (List Symbol × Label)).map Prod.fst ∧
    ∃ l, firstLabel [([1, 2], 5), ([1, 2], 7), ([3], 9)] [1, 2] = some l ∧
      (buildTrie [([1, 2], 5), ([1, 2], 7), ([3], 9)]).find [1, 2] = some l :=
  ⟨by decide, trie_find_first_wins [([1, 2], 5), ([1, 2], 7), ([3], 9)] [1, 2] (by decide)⟩

/-- Claim C6: `find_prefix p` emits exactly the (first-occurrence) labels of
the distinct inserted sequences extending `p`, this equals mapping the
reachable-values cache of the state reached by `p`, and a stalled walk emits
nothing. -/
theorem trie_findPrefix_correct (ps : List (List Symbol × Label)) (pre : List Symbol) :
    ((buildTrie ps).findPrefix pre =
      ((dedupKeys ps).filter (fun k => pre.isPrefixOf k)).map
        (fun k => (firstLabel ps k).getD 0)) ∧
    (∀ s, walk (buildTrie ps).automaton 0 pre = some s →
      (buildTrie ps).findPrefix pre =
        ((buildTrie ps).reachable s).map (fun i => (buildTrie ps).values.getD i 0)) ∧
    (walk (buildTrie ps).automaton 0 pre = none → (buildTrie ps).findPrefix pre = []) := by
  have hInv := inv_buildTrie ps
  have hstalled : walk (buildTrie ps).automaton 0 pre = none →
      (buildTrie ps).findPrefix pre = [] := by
    intro hnone
    obtain ⟨s', rest, htrav⟩ :
        ∃ s' rest, traverse (buildTrie ps).automaton 0 pre = (s', rest) := ⟨_, _, rfl⟩
    obtain ⟨v, hv_eq, hvwalk, -⟩ := traverse_spec (buildTrie ps).automaton pre 0 s' rest htrav
    cases hrest : rest with
    | nil =>
        rw [hrest] at hv_eq
        simp at hv_eq
        rw [← hv_eq] at hvwalk
        rw [hnone] at hvwalk
        cases hvwalk
    | cons a tl =>
        unfold Trie.findPrefix
        rw [htrav, hrest]
  refine ⟨?_, ?_, hstalled⟩
  · cases hwalk : walk (buildTrie ps).automaton 0 pre with
    | none =>
        rw [hstalled hwalk]
        have hfil : (dedupKeys ps).filter (fun k => pre.isPrefixOf k) = [] := by
          rw [List.filter_eq_nil_iff]
          intro k hk hpk
          have hpref : pre <+: k := List.isPrefixOf_iff_prefix.mp hpk
          obtain ⟨y, hy⟩ := Option.isSome_iff_exists.mp (hInv.keys_closed k hk pre hpref)
          rw [hwalk] at hy
          cases hy
        rw [hfil]
        rfl
    | some s =>
        have htrav := traverse_of_walk (buildTrie ps).automaton pre 0 s hwalk
        have hfp : (buildTrie ps).findPrefix pre =
            ((buildTrie ps).reachable s).map
              (fun i => (buildTrie ps).values.getD i 0) := by
          unfold Trie.findPrefix
          rw [htrav]
        rw [hfp, hInv.cache pre s hwalk]
        have := range_filter_map (dedupKeys ps) (fun k => pre.isPrefixOf k)
          (fun k => (firstLabel ps k).getD 0)
        rw [← this]
        refine List.map_congr_left ?_
        intro i hi
        rw [hInv.vals]
  · intro s hwalk
    have htrav := traverse_of_walk (buildTrie ps).automaton pre 0 s hwalk
    unfold Trie.findPrefix
    rw [htrav]

theorem trie_findPrefix_correct_witness :
    walk (buildTrie [([1, 2], 5), ([3], 9)]).automaton 0 [1] = some 1 ∧
    (buildTrie [([1, 2], 5), ([3], 9)]).findPrefix [1] =
      ((buildTrie [([1, 2], 5), ([3], 9)]).reachable 1).map
        (fun i => (buildTrie [([1, 2], 5), ([3], 9)]).values.getD i 0) := by
  have h : walk (buildTrie [([1, 2], 5), ([3], 9)]).automaton 0 [1] = some 1 := by decide
  exact ⟨h, (trie_findPrefix_correct [([1, 2], 5), ([3], 9)] [1]).2.1 1 h⟩

/-- Claim C10: empty queries are legal.  `find []` is exactly the root's
label lookup; the root is labelled iff an empty pattern was inserted; `match`
of the empty text emits nothing. -/
theorem empty_query_legal (ps : List (List Symbol × Label)) :
    ((buildTrie ps).find [] =
      ((buildTrie ps).valueIdx 0).map (fun i => (buildTrie ps).values.getD i 0)) ∧
    (((buildTrie ps).valueIdx 0).isSome ↔ [] ∈ ps.map Prod.fst) ∧
    acMatch (buildAho ps) [] = [] := by
  have hInv := inv_buildTrie ps
  refine ⟨rfl, ?_, rfl⟩
  constructor
  · intro hsome
    obtain ⟨i, hi⟩ := Option.isSome_iff_exists.mp hsome
    obtain ⟨w, hw, hKi⟩ := (hInv.vidx 0 i).mp hi
    have hwnil : w = [] := walk_inj _ hInv.fsmInv w [] 0 hw (by simp [walk])
    rw [← mem_dedupKeys]
    rw [hwnil] at hKi
    exact List.getElem?_mem hKi
  · intro hmem
    have hK : [] ∈ dedupKeys ps := (mem_dedupKeys ps []).mpr hmem
    obtain ⟨j, hj⟩ := List.mem_iff_getElem?.mp hK
    have : (buildTrie ps).valueIdx 0 = some j :=
      (hInv.vidx 0 j).mpr ⟨[], by simp [walk], hj⟩
    rw [this]
    rfl

theorem pairLe_total (x y : Nat × Nat) (h : ¬ pairLe x y = true) : pairLe y x = true := by
  simp [pairLe] at h ⊢
  omega

theorem pairLe_trans (x y z : Nat × Nat) (h1 : pairLe x y = true) (h2 : pairLe y z = true) :
    pairLe x z = true := by
  simp [pairLe] at h1 h2 ⊢
  omega

theorem mem_insertPairSorted (x z : Nat × Nat) :
    ∀ l, z ∈ insertPairSorted x l ↔ z = x ∨ z ∈ l := by
  intro l
  induction l with
  | nil => simp [insertPairSorted]
  | cons y ys ih =>
      unfold insertPairSorted
      by_cases hle : pairLe x y
      · simp [hle]
      · simp [hle, ih]
        tauto

theorem mem_sortPairs (z : Nat × Nat) : ∀ l, z ∈ sortPairs l ↔ z ∈ l := by
  intro l
  induction l with
  | nil => simp [sortPairs]
  | cons x xs ih =>
      unfold sortPairs
      rw [mem_insertPairSorted]
      simp [ih]

theorem pairwise_insertPairSorted (x : Nat × Nat) :
    ∀ l, l.Pairwise (fun a b => pairLe a b = true) →
      (insertPairSorted x l).Pairwise (fun a b => pairLe a b = true) := by
  intro l
  induction l with
  | nil => intro _; simp [insertPairSorted]
  | cons y ys ih =>
      intro hp
      rw [List.pairwise_cons] at hp
      obtain ⟨hy, hys⟩ := hp
      unfold insertPairSorted
      by_cases hle : pairLe x y
      · rw [if_pos hle, List.pairwise_cons]
        constructor
        · intro z hz
          rcases List.mem_cons.mp hz with rfl | hz'
          · exact hle
          · exact pairLe_trans x y z hle (hy z hz')
        · rw [List.pairwise_cons]
          exact ⟨hy, hys⟩
      · rw [if_neg hle, List.pairwise_cons]
        constructor
        · intro z hz
          rcases (mem_insertPairSorted x z ys).mp hz with rfl | hz'
          · exact pairLe_total _ _ hle
          · exact hy z hz'
        · exact ih hys

theorem pairwise_sortPairs : ∀ l, (sortPairs l).Pairwise (fun a b => pairLe a b = true) := by
  intro l
  induction l with
  | nil => simp [sortPairs]
  | cons x xs ih =>
      unfold sortPairs
      exact pairwise_insertPairSorted x (sortPairs xs) ih

theorem mem_uniqueRest (z : Nat × Nat) :
    ∀ l k, z ∈ uniqueRest k l → z ∈ l := by
  intro l
  induction l with
  | nil => intro k h; simp [uniqueRest] at h
  | cons y ys ih =>
      intro k h
      unfold uniqueRest at h
      by_cases hy : y.1 = k
      · rw [if_pos hy] at h
        exact List.mem_cons_of_mem y (ih k h)
      · rw [if_neg hy] at h
        rcases List.mem_cons.mp h with rfl | h'
        · exact List.mem_cons_self _ _
        · exact List.mem_cons_of_mem y (ih y.1 h')

theorem mem_uniqueByFirst (z : Nat × Nat) (l : List (Nat × Nat))
    (h : z ∈ uniqueByFirst l) : z ∈ l := by
  cases l with
  | nil => simp [uniqueByFirst] at h
  | cons x xs =>
      unfold uniqueByFirst at h
      rcases List.mem_cons.mp h with rfl | h'
      · exact List.mem_cons_self _ _
      · exact List.mem_cons_of_mem x (mem_uniqueRest z xs x.1 h')

theorem uniqueRest_strict :
    ∀ l k, l.Pairwise (fun a b => pairLe a b = true) → (∀ y ∈ l, k ≤ y.1) →
      (∀ z ∈ uniqueRest k l, k < z.1) ∧
      (uniqueRest k l).Pairwise (fun a b => a.1 < b.1) := by
  intro l
  induction l with
  | nil =>
      intro k _ _
      refine ⟨?_, by simp [uniqueRest]⟩
      intro z hz
      simp [uniqueRest] at hz
  | cons y ys ih =>
      intro k hp hk
      rw [List.pairwise_cons] at hp
      obtain ⟨hy, hys⟩ := hp
      have hk_ys : ∀ z ∈ ys, y.1 ≤ z.1 := by
        intro z hz
        have := hy z hz
        simp [pairLe] at this
        omega
      unfold uniqueRest
      by_cases hcase : y.1 = k
      · rw [if_pos hcase]
        refine ih k hys ?_
        intro z hz
        have := hk_ys z hz
        omega
      · rw [if_neg hcase]
        have hky : k < y.1 := by
          have := hk y (List.mem_cons_self y ys)
          omega
        obtain ⟨hgt, hpw⟩ := ih y.1 hys hk_ys
        constructor
        · intro z hz
          rcases List.mem_cons.mp hz with rfl | hz'
          · exact hky
          · have := hgt z hz'
            omega
        · rw [List.pairwise_cons]
          exact ⟨fun z hz => hgt z hz, hpw⟩

theorem uniqueByFirst_strict (l : List (Nat × Nat))
    (hp : l.Pairwise (fun a b => pairLe a b = true)) :
    (uniqueByFirst l).Pairwise (fun a b => a.1 < b.1) := by
  cases l with
  | nil => simp [uniqueByFirst]
  | cons x xs =>
      rw [List.pairwise_cons] at hp
      obtain ⟨hx, hxs⟩ := hp
      have hk_xs : ∀ z ∈ xs, x.1 ≤ z.1 := by
        intro z hz
        have := hx z hz
        simp [pairLe] at this
        omega
      obtain ⟨hgt, hpw⟩ := uniqueRest_strict xs x.1 hxs hk_xs
      unfold uniqueByFirst
      rw [List.pairwise_cons]
      exact ⟨fun z hz => hgt z hz, hpw⟩

theorem uniqueRest_min :
    ∀ l k, l.Pairwise (fun a b => pairLe a b = true) → (∀ y ∈ l, k ≤ y.1) →
      ∀ z ∈ uniqueRest k l, z.1 ≠ k ∧ ∀ y ∈ l, y.1 = z.1 → z.2 ≤ y.2 := by
  intro l
  induction l with
  | nil => intro k _ _ z hz; simp [uniqueRest] at hz
  | cons y ys ih =>
      intro k hp hk z hz
      rw [List.pairwise_cons] at hp
      obtain ⟨hy, hys⟩ := hp
      have hk_ys : ∀ u ∈ ys, y.1 ≤ u.1 := by
        intro u hu
        have := hy u hu
        simp [pairLe] at this
        omega
      unfold uniqueRest at hz
      by_cases hcase : y.1 = k
      · rw [if_pos hcase] at hz
        obtain ⟨hne, hmin⟩ := ih k hys (fun u hu => by have := hk_ys u hu; omega) z hz
        refine ⟨hne, ?_⟩
        intro u hu hu1
        rcases List.mem_cons.mp hu with rfl | hu'
        · exfalso
          apply hne
          omega
        · exact hmin u hu' hu1
      · rw [if_neg hcase] at hz
        rcases List.mem_cons.mp hz with rfl | hz'
        · refine ⟨hcase, ?_⟩
          intro u hu hu1
          rcases List.mem_cons.mp hu with rfl | hu'
          · exact le_refl _
          · have := hy u hu'
            simp [pairLe] at this
            omega
        · obtain ⟨hne, hmin⟩ := ih y.1 hys hk_ys z hz'
          have hstrict := (uniqueRest_strict ys y.1 hys hk_ys).1 z hz'
          have hky : k ≤ y.1 := hk y (List.mem_cons_self y ys)
          refine ⟨by omega, ?_⟩
          intro u hu hu1
          rcases List.mem_cons.mp hu with rfl | hu'
          · exfalso
            omega
          · exact hmin u hu' hu1

theorem uniqueByFirst_min (l : List (Nat × Nat))
    (hp : l.Pairwise (fun a b => pairLe a b = true)) :
    ∀ z ∈ uniqueByFirst l, ∀ y ∈ l, y.1 = z.1 → z.2 ≤ y.2 := by
  intro z hz y hy hy1
  cases l with
  | nil => simp [uniqueByFirst] at hz
  | cons x xs =>
      rw [List.pairwise_cons] at hp
      obtain ⟨hx, hxs⟩ := hp
      have hk_xs : ∀ u ∈ xs, x.1 ≤ u.1 := by
        intro u hu
        have := hx u hu
        simp [pairLe] at this
        omega
      unfold uniqueByFirst at hz
      rcases List.mem_cons.mp hz with rfl | hz'
      · rcases List.mem_cons.mp hy with rfl | hy'
        · exact le_refl _
        · have := hx y hy'
          simp [pairLe] at this
          omega
      · obtain ⟨hne, hmin⟩ := uniqueRest_min xs x.1 hxs hk_xs z hz'
        rcases List.mem_cons.mp hy with rfl | hy'
        · exfalso
          apply hne
          omega
        · exact hmin y hy' hy1

/-- Claim C7: in the fuzzy `find_prefix`, each label appears at most once in
the output, which is exactly the sorted-then-deduplicated-by-label buffer. -/
theorem fuzzy_findPrefix_dedup (ps : List (List Symbol × Label)) (p : LevParams)
    (q : List Symbol) :
    ((fuzzyFindPrefix (buildTrie ps) p q).map Prod.fst).Nodup ∧
    fuzzyFindPrefix (buildTrie ps) p q =
      uniqueByFirst (sortPairs (collectedPairs (buildTrie ps) p q)) := by
  refine ⟨?_, rfl⟩
  have hstrict := uniqueByFirst_strict (sortPairs (collectedPairs (buildTrie ps) p q))
    (pairwise_sortPairs _)
  show ((fuzzyFindPrefix (buildTrie ps) p q).map Prod.fst).Pairwise (fun a b => a ≠ b)
  rw [List.pairwise_map]
  exact hstrict.imp (fun h => Nat.ne_of_lt h)

/-- Claim C8: each pair retained by the fuzzy `find_prefix` is an element of
the collected buffer carrying the minimum distance among all buffer entries
with that label (the first of the label's run after the lexicographic sort). -/
theorem fuzzy_findPrefix_min_distance (ps : List (List Symbol × Label)) (p : LevParams)
    (q : List Symbol) (l : Label) (d : Nat)
    (h : (l, d) ∈ fuzzyFindPrefix (buildTrie ps) p q) :
    (l, d) ∈ collectedPairs (buildTrie ps) p q ∧
    ∀ d', (l, d') ∈ collectedPairs (buildTrie ps) p q → d ≤ d' := by
  have hsorted := pairwise_sortPairs (collectedPairs (buildTrie ps) p q)
  have hmem : (l, d) ∈ sortPairs (collectedPairs (buildTrie ps) p q) :=
    mem_uniqueByFirst (l, d) _ h
  constructor
  · exact (mem_sortPairs _ _).mp hmem
  · intro d' hd'
    have hd's : (l, d') ∈ sortPairs (collectedPairs (buildTrie ps) p q) :=
      (mem_sortPairs _ _).mpr hd'
    exact uniqueByFirst_min _ hsorted (l, d) h (l, d') hd's rfl

theorem fuzzy_findPrefix_min_distance_witness :
    (5, 0) ∈ fuzzyFindPrefix (buildTrie [([1], 5)])
      ⟨0, fun _ => 1, fun a b => if a = b then 0 else 1⟩ [1] ∧
    (5, 0) ∈ collectedPairs (buildTrie [([1], 5)])
      ⟨0, fun _ => 1, fun a b => if a = b then 0 else 1⟩ [1] ∧
    ∀ d', (5, d') ∈ collectedPairs (buildTrie [([1], 5)])
      ⟨0, fun _ => 1, fun a b => if a = b then 0 else 1⟩ [1] → 0 ≤ d' := by
  have h : (5, 0) ∈ fuzzyFindPrefix (buildTrie [([1], 5)])
      ⟨0, fun _ => 1, fun a b => if a = b then 0 else 1⟩ [1] := by decide
  have h2 := fuzzy_findPrefix_min_distance [([1], 5)]
    ⟨0, fun _ => 1, fun a b => if a = b then 0 else 1⟩ [1] 5 0 h
  exact ⟨h, h2.1, h2.2⟩

theorem lev_nil_snoc (C : Levenshtein.Cost Symbol Symbol Nat) (b : Symbol) :
    ∀ w : List Symbol, levenshtein C [] (w ++ [b]) = levenshtein C [] w + C.insert b := by
  intro w
  induction w with
  | nil =>
      rw [List.nil_append, levenshtein_nil_cons, levenshtein_nil_nil]
      omega
  | cons c w' ih =>
      rw [List.cons_append, levenshtein_nil_cons, ih, levenshtein_nil_cons]
      omega

theorem lev_snoc_nil (C : Levenshtein.Cost Symbol Symbol Nat) (a : Symbol) :
    ∀ x : List Symbol, levenshtein C (x ++ [a]) [] = levenshtein C x [] + C.delete a := by
  intro x
  induction x with
  | nil =>
      rw [List.nil_append, levenshtein_cons_nil, levenshtein_nil_nil]
      omega
  | cons c x' ih =>
      rw [List.cons_append, levenshtein_cons_nil, ih, levenshtein_cons_nil]
      omega

set_option maxHeartbeats 1600000 in
theorem lev_snoc_snoc (C : Levenshtein.Cost Symbol Symbol Nat) :
    ∀ (n : Nat) (x w : List Symbol) (a b : Symbol), x.length + w.length ≤ n →
      levenshtein C (x ++ [a]) (w ++ [b]) =
        min (levenshtein C x (w ++ [b]) + C.delete a)
          (min (levenshtein C (x ++ [a]) w + C.insert b)
            (levenshtein C x w + C.substitute a b)) := by
  intro n
  induction n with
  | zero =>
      intro x w a b hlen
      have hx : x = [] := List.eq_nil_of_length_eq_zero (by omega)
      have hw : w = [] := List.eq_nil_of_length_eq_zero (by omega)
      subst hx; subst hw
      simp only [List.nil_append]
      simp only [levenshtein_cons_cons, levenshtein_nil_cons, levenshtein_cons_nil,
        levenshtein_nil_nil]
      omega
  | succ n ih =>
      intro x w a b hlen
      cases x with
      | nil =>
          cases w with
          | nil =>
              simp only [List.nil_append]
              simp only [levenshtein_cons_cons, levenshtein_nil_cons, levenshtein_cons_nil,
                levenshtein_nil_nil]
              omega
          | cons e w' =>
              have hih := ih [] w' a b (by simp at hlen ⊢; omega)
              simp only [List.nil_append] at hih
              have hnil1 := lev_nil_snoc C b w'
              simp only [List.nil_append, List.cons_append]
              simp only [levenshtein_cons_cons, levenshtein_nil_cons, levenshtein_cons_nil,
                levenshtein_nil_nil]
              rw [hih, hnil1]
              omega
      | cons c x' =>
          cases w with
          | nil =>
              have hih := ih x' [] a b (by simp at hlen ⊢; omega)
              simp only [List.nil_append] at hih
              have hnil1 := lev_snoc_nil C a x'
              simp only [List.nil_append, List.cons_append]
              simp only [levenshtein_cons_cons, levenshtein_nil_cons, levenshtein_cons_nil,
                levenshtein_nil_nil]
              rw [hih, hnil1]
              omega
          | cons e w' =>
              have hih1 := ih x' (e :: w') a b (by simp at hlen ⊢; omega)
              have hih2 := ih (c :: x') w' a b (by simp at hlen ⊢; omega)
              have hih3 := ih x' w' a b (by simp at hlen ⊢; omega)
              simp only [List.cons_append] at hih1 hih2 hih3
              simp only [List.cons_append]
              simp only [levenshtein_cons_cons]
              rw [hih1, hih2, hih3]
              simp only [← min_add_add_left, ← min_add_add_right, add_assoc]
              ac_rfl

theorem specRow_eq_cons (p : LevParams) (w X : List Symbol) (qs : List Symbol) :
    specRow p w X qs = editDistance p X w :: (specRow p w X qs).tail := by
  cases qs <;> rfl

theorem specRow_ne_nil (p : LevParams) (w X qs : List Symbol) :
    specRow p w X qs ≠ [] := by
  rw [specRow_eq_cons]
  simp

theorem rowLast_mem (row : List Nat) (h : row ≠ []) : rowLast row ∈ row := by
  unfold rowLast
  rw [List.getLastD_eq_getLast?, List.getLast?_eq_getLast_of_ne_nil h]
  exact List.getLast_mem h

theorem specRow_empty_word (p : LevParams) :
    ∀ (qs X : List Symbol),
      specRow p [] X qs =
        editDistance p X [] :: initialRowFrom p (editDistance p X []) qs := by
  intro qs
  induction qs with
  | nil => intro X; rfl
  | cons a qs' ih =>
      intro X
      show editDistance p X [] :: specRow p [] (X ++ [a]) qs' = _
      rw [ih (X ++ [a])]
      have h : editDistance p (X ++ [a]) [] =
          editDistance p X [] + p.deletion_or_insertion_penalty a := by
        show levenshtein (levCost p) (X ++ [a]) [] = _
        rw [lev_snoc_nil]
        rfl
      rw [h]
      rfl

theorem initialRow_spec (p : LevParams) (q : List Symbol) :
    initialRow p q = specRow p [] [] q := by
  rw [specRow_empty_word]
  have h : editDistance p [] [] = 0 := by
    show levenshtein (levCost p) [] [] = 0
    exact levenshtein_nil_nil
  rw [h]
  rfl

theorem specRow_getLastD (p : LevParams) (w : List Symbol) :
    ∀ (qs X : List Symbol) (d : Nat),
      (specRow p w X qs).getLastD d = editDistance p (X ++ qs) w := by
  intro qs
  induction qs with
  | nil =>
      intro X d
      show (editDistance p X w :: []).getLastD d = _
      simp
  | cons a qs' ih =>
      intro X d
      show (editDistance p X w :: specRow p w (X ++ [a]) qs').getLastD d = _
      rw [List.getLastD_cons, ih (X ++ [a]) (editDistance p X w)]
      simp

theorem rowLast_specRow (p : LevParams) (w q : List Symbol) :
    rowLast (specRow p w [] q) = editDistance p q w := by
  show (specRow p w [] q).getLastD 0 = _
  rw [specRow_getLastD]
  rfl

theorem specRow_snoc (p : LevParams) (w : List Symbol) (b : Symbol) :
    ∀ (qs X : List Symbol),
      specRow p (w ++ [b]) X qs =
        editDistance p X (w ++ [b]) ::
          fillRowFrom p b (editDistance p X (w ++ [b])) qs (specRow p w X qs) := by
  intro qs
  induction qs with
  | nil => intro X; rfl
  | cons a qs' ih =>
      intro X
      show editDistance p X (w ++ [b]) :: specRow p (w ++ [b]) (X ++ [a]) qs'
          = editDistance p X (w ++ [b]) ::
              fillRowFrom p b (editDistance p X (w ++ [b])) (a :: qs')
                (specRow p w X (a :: qs'))
      have hrec : specRow p w X (a :: qs') =
          editDistance p X w ::
            (editDistance p (X ++ [a]) w :: (specRow p w (X ++ [a]) qs').tail) := by
        rw [← specRow_eq_cons]
        rfl
      have hv : min (editDistance p X (w ++ [b]) + p.deletion_or_insertion_penalty a)
          (min (editDistance p (X ++ [a]) w + p.deletion_or_insertion_penalty b)
            (editDistance p X w + p.replacement_penalty a b)) =
          editDistance p (X ++ [a]) (w ++ [b]) :=
        (lev_snoc_snoc (levCost p) (X.length + w.length) X w a b (le_refl _)).symm
      rw [hrec]
      show _ = editDistance p X (w ++ [b]) ::
          (min (editDistance p X (w ++ [b]) + p.deletion_or_insertion_penalty a)
            (min (editDistance p (X ++ [a]) w + p.deletion_or_insertion_penalty b)
              (editDistance p X w + p.replacement_penalty a b)) ::
            fillRowFrom p b
              (min (editDistance p X (w ++ [b]) + p.deletion_or_insertion_penalty a)
                (min (editDistance p (X ++ [a]) w + p.deletion_or_insertion_penalty b)
                  (editDistance p X w + p.replacement_penalty a b)))
              qs' (editDistance p (X ++ [a]) w :: (specRow p w (X ++ [a]) qs').tail))
      rw [hv, ← specRow_eq_cons, ih (X ++ [a])]

theorem fillRow_specRow (p : LevParams) (q w : List Symbol) (b : Symbol) :
    fillRow p q (specRow p w [] q) b = specRow p (w ++ [b]) [] q := by
  rw [specRow_eq_cons p w [] q, specRow_snoc]
  show (editDistance p [] w + p.deletion_or_insertion_penalty b) ::
      fillRowFrom p b (editDistance p [] w + p.deletion_or_insertion_penalty b) q
        (editDistance p [] w :: (specRow p w [] q).tail)
      = editDistance p [] (w ++ [b]) ::
          fillRowFrom p b (editDistance p [] (w ++ [b])) q (specRow p w [] q)
  have hb : editDistance p [] w + p.deletion_or_insertion_penalty b =
      editDistance p [] (w ++ [b]) := (lev_nil_snoc (levCost p) b w).symm
  rw [hb, ← specRow_eq_cons]

theorem fillRowFrom_gt (p : LevParams) (b : Symbol) (M : Nat) :
    ∀ (qs : List Symbol) (prev : Nat) (src : List Nat),
      (∀ x ∈ src, M < x) → M < prev →
      ∀ y ∈ fillRowFrom p b prev qs src, M < y := by
  intro qs
  induction qs with
  | nil =>
      intro prev src _ _ y hy
      simp [fillRowFrom] at hy
  | cons a qs' ih =>
      intro prev src hsrc hprev y hy
      match src with
      | [] => simp [fillRowFrom] at hy
      | [s0] => simp [fillRowFrom] at hy
      | s0 :: s1 :: rest =>
          have hstep : fillRowFrom p b prev (a :: qs') (s0 :: s1 :: rest) =
              (min (prev + p.deletion_or_insertion_penalty a)
                (min (s1 + p.deletion_or_insertion_penalty b)
                  (s0 + p.replacement_penalty a b))) ::
              fillRowFrom p b
                (min (prev + p.deletion_or_insertion_penalty a)
                  (min (s1 + p.deletion_or_insertion_penalty b)
                    (s0 + p.replacement_penalty a b))) qs' (s1 :: rest) := rfl
          rw [hstep] at hy
          have h0 := hsrc s0 (by simp)
          have h1 := hsrc s1 (by simp)
          rcases List.mem_cons.mp hy with h | h
          · subst h
            omega
          · refine ih _ (s1 :: rest) ?_ (by omega) y h
            intro x hx
            exact hsrc x (List.mem_cons_of_mem _ hx)

theorem fillRow_gt (p : LevParams) (q : List Symbol) (src : List Nat) (b : Symbol)
    (M : Nat) (hsrc : ∀ x ∈ src, M < x) :
    ∀ y ∈ fillRow p q src b, M < y := by
  match src with
  | [] => intro y hy; simp [fillRow] at hy
  | s0 :: rest =>
      intro y hy
      have hstep : fillRow p q (s0 :: rest) b =
          (s0 + p.deletion_or_insertion_penalty b) ::
            fillRowFrom p b (s0 + p.deletion_or_insertion_penalty b) q (s0 :: rest) := rfl
      rw [hstep] at hy
      have h0 := hsrc s0 (by simp)
      rcases List.mem_cons.mp hy with h | h
      · subst h
        omega
      · exact fillRowFrom_gt p b M q _ _ hsrc (by omega) y h

theorem specRow_gt_extend (p : LevParams) (q : List Symbol) (M : Nat) :
    ∀ (ext w : List Symbol),
      (∀ x ∈ specRow p w [] q, M < x) →
      ∀ x ∈ specRow p (w ++ ext) [] q, M < x := by
  intro ext
  induction ext with
  | nil => intro w h; simpa using h
  | cons b ext' ih =>
      intro w h
      have h' : ∀ x ∈ specRow p (w ++ [b]) [] q, M < x := by
        rw [← fillRow_specRow]
        exact fillRow_gt p q _ b M h
      have h2 := ih (w ++ [b]) h'
      intro x hx
      refine h2 x ?_
      have he : w ++ [b] ++ ext' = w ++ b :: ext' := by
        rw [List.append_assoc]
        rfl
      rw [he]
      exact hx

theorem lookupSym_mem (a : Symbol) (d : Nat) :
    ∀ l : List (Symbol × Nat), lookupSym a l = some d → (a, d) ∈ l := by
  intro l
  induction l with
  | nil => intro h; simp [lookupSym] at h
  | cons pr rest ih =>
      intro h
      obtain ⟨b, e⟩ := pr
      by_cases hab : a = b
      · subst hab
        simp [lookupSym] at h
        simp [h]
      · simp only [lookupSym, if_neg hab] at h
        exact List.mem_cons_of_mem _ (ih h)

theorem mem_lookupSym (a : Symbol) (d : Nat) :
    ∀ l : List (Symbol × Nat), (l.map Prod.fst).Nodup → (a, d) ∈ l →
      lookupSym a l = some d := by
  intro l
  induction l with
  | nil => intro _ h; simp at h
  | cons pr rest ih =>
      intro hnd h
      obtain ⟨b, e⟩ := pr
      rw [List.map_cons] at hnd
      have hnd' := List.nodup_cons.mp hnd
      rcases List.mem_cons.mp h with he | he
      · simp at he
        obtain ⟨h1, h2⟩ := he
        subst h1
        subst h2
        simp [lookupSym]
      · have hb : a ≠ b := by
          intro hab
          subst hab
          exact hnd'.1 (List.mem_map.mpr ⟨(a, d), he, rfl⟩)
        simp only [lookupSym, if_neg hb]
        exact ih hnd'.2 he

theorem row_dests_nodup (m : Fsm) (hm : FsmInv m) (s : Nat) :
    ((m.row s).map Prod.snd).Nodup := by
  have hfst : (m.row s).Pairwise (fun x y => x.1 ≠ y.1) :=
    List.pairwise_map.mp (hm.rows_nodup s)
  have himp : (m.row s).Pairwise (fun x y => x.2 ≠ y.2) := by
    refine List.Pairwise.imp_of_mem ?_ hfst
    intro x y hx hy hne heq
    have htx : TransTo m s x.1 x.2 := mem_lookupSym x.1 x.2 _ (hm.rows_nodup s) hx
    have hty : TransTo m s y.1 y.2 := mem_lookupSym y.1 y.2 _ (hm.rows_nodup s) hy
    rw [heq] at htx
    exact hne (hm.uinc s x.1 s y.1 y.2 htx hty).2
  exact List.pairwise_map.mpr himp

theorem mem_foldl_cons {α β : Type} (f : β → α) :
    ∀ (l : List β) (init : List α) (x : α),
      x ∈ l.foldl (fun st pr => f pr :: st) init ↔ x ∈ init ∨ ∃ pr ∈ l, x = f pr := by
  intro l
  induction l with
  | nil => intro init x; simp
  | cons b rest ih =>
      intro init x
      rw [List.foldl_cons, ih]
      constructor
      · rintro (h | h)
        · rcases List.mem_cons.mp h with h | h
          · exact Or.inr ⟨b, by simp, h⟩
          · exact Or.inl h
        · obtain ⟨pr, hpr, hx⟩ := h
          exact Or.inr ⟨pr, List.mem_cons_of_mem _ hpr, hx⟩
      · rintro (h | ⟨pr, hpr, hx⟩)
        · exact Or.inl (List.mem_cons_of_mem _ h)
        · rcases List.mem_cons.mp hpr with h | h
          · subst h
            exact Or.inl (by simp [hx])
          · exact Or.inr ⟨pr, h, hx⟩

theorem foldl_cons_map_sum {α β : Type} (g : α → Nat) (f : β → α) :
    ∀ (l : List β) (init : List α),
      ((l.foldl (fun st pr => f pr :: st) init).map g).sum =
        (l.map (fun pr => g (f pr))).sum + (init.map g).sum := by
  intro l
  induction l with
  | nil => intro init; simp
  | cons b rest ih =>
      intro init
      rw [List.foldl_cons, ih]
      simp [List.map_cons]
      omega

theorem pow_sum_bound (N : Nat) :
    ∀ (k s : Nat), N = s + k →
      ∀ D : List Nat, D.Nodup → (∀ d ∈ D, s < d ∧ d < N) →
        (D.map (fun d => 2 ^ (N - d))).sum ≤ 2 ^ k - 2 := by
  intro k
  induction k with
  | zero =>
      intro s hN D _ hD
      cases D with
      | nil => simp
      | cons d rest => exact absurd (hD d (by simp)) (by omega)
  | succ k ih =>
      intro s hN D hnd hD
      by_cases hmem : (s + 1) ∈ D
      · have hk1 : 1 ≤ k := by
          have := hD (s + 1) hmem
          omega
        have hperm : D.Perm ((s + 1) :: D.erase (s + 1)) := List.perm_cons_erase hmem
        have hsum : (D.map (fun d => 2 ^ (N - d))).sum =
            2 ^ (N - (s + 1)) + ((D.erase (s + 1)).map (fun d => 2 ^ (N - d))).sum := by
          rw [List.Perm.sum_eq (hperm.map _)]
          simp
        have hD' : ∀ d ∈ D.erase (s + 1), s + 1 < d ∧ d < N := by
          intro d hd
          have h1 := hD d (List.mem_of_mem_erase hd)
          have h2 : d ≠ s + 1 := ((List.Nodup.mem_erase_iff hnd).mp hd).1
          omega
        have hih := ih (s + 1) (by omega) (D.erase (s + 1)) (hnd.erase _) hD'
        have hNs : N - (s + 1) = k := by omega
        have h2k : 2 ≤ 2 ^ k := by
          calc (2 : Nat) = 2 ^ 1 := by norm_num
            _ ≤ 2 ^ k := Nat.pow_le_pow_right (by omega) hk1
        have hpow : 2 ^ (k + 1) = 2 ^ k + 2 ^ k := by
          rw [pow_succ]
          omega
        rw [hsum, hNs]
        omega
      · have hD' : ∀ d ∈ D, s + 1 < d ∧ d < N := by
          intro d hd
          have h1 := hD d hd
          have h2 : d ≠ s + 1 := fun h => hmem (h ▸ hd)
          omega
        have hih := ih (s + 1) (by omega) D hnd hD'
        have hmono : (2 : Nat) ^ k ≤ 2 ^ (k + 1) :=
          Nat.pow_le_pow_right (by omega) (by omega)
        omega

theorem stackMeasure_foldl (t : Trie) (p : LevParams) (q : List Symbol) (row : List Nat)
    (l : List (Symbol × Nat)) (rest : List (Nat × List Nat)) :
    stackMeasure t (l.foldl (fun st pr => (pr.2, fillRow p q row pr.1) :: st) rest) =
      ((l.map Prod.snd).map (fun d => 2 ^ (t.automaton.size - d))).sum +
        stackMeasure t rest := by
  unfold stackMeasure
  rw [foldl_cons_map_sum, List.map_map]
  rfl

theorem visitStack_sound (t : Trie) (p : LevParams) (q : List Symbol)
    (hm : FsmInv t.automaton) :
    ∀ (fuel : Nat) (stack : List (Nat × List Nat)),
      (∀ e ∈ stack, ∃ w, walk t.automaton 0 w = some e.1 ∧ e.2 = specRow p w [] q) →
      ∀ sd ∈ visitStack t p q fuel stack,
        ∃ w, walk t.automaton 0 w = some sd.1 ∧ sd.2 = editDistance p q w ∧
          sd.2 ≤ p.distance_limit := by
  intro fuel
  induction fuel with
  | zero =>
      intro stack _ sd hsd
      simp [visitStack] at hsd
  | succ fuel ih =>
      intro stack hstack sd hsd
      cases stack with
      | nil => simp [visitStack] at hsd
      | cons e rest =>
          obtain ⟨s, row⟩ := e
          obtain ⟨w, hw, hrow0⟩ := hstack (s, row) (List.mem_cons_self _ _)
          have hrow : row = specRow p w [] q := hrow0
          have hunf : visitStack t p q (fuel + 1) ((s, row) :: rest) =
              (if rowLast row ≤ p.distance_limit then [(s, rowLast row)] else []) ++
                visitStack t p q fuel
                  (if row.any (fun x => x ≤ p.distance_limit) then
                    (t.automaton.row s).foldl
                      (fun st pr => (pr.2, fillRow p q row pr.1) :: st) rest
                  else rest) := rfl
          rw [hunf] at hsd
          rcases List.mem_append.mp hsd with h | h
          · by_cases hd : rowLast row ≤ p.distance_limit
            · rw [if_pos hd] at h
              simp at h
              subst h
              refine ⟨w, hw, ?_, ?_⟩
              · show rowLast row = _
                rw [hrow, rowLast_specRow]
              · show rowLast row ≤ _
                exact hd
            · rw [if_neg hd] at h
              simp at h
          · refine ih _ ?_ sd h
            intro e' he'
            by_cases hany : row.any (fun x => x ≤ p.distance_limit) = true
            · rw [if_pos hany] at he'
              rcases (mem_foldl_cons _ _ _ _).mp he' with h' | ⟨pr, hpr, h2⟩
              · exact hstack e' (List.mem_cons_of_mem _ h')
              · subst h2
                have htr : TransTo t.automaton s pr.1 pr.2 :=
                  mem_lookupSym pr.1 pr.2 _ (hm.rows_nodup s) hpr
                refine ⟨w ++ [pr.1], ?_, ?_⟩
                · rw [walk_append, hw]
                  show walk t.automaton s [pr.1] = some pr.2
                  rw [walk_single]
                  exact htr
                · show fillRow p q row pr.1 = _
                  rw [hrow, fillRow_specRow]
            · rw [if_neg hany] at he'
              exact hstack e' (List.mem_cons_of_mem _ he')

theorem visitStack_complete (t : Trie) (p : LevParams) (q : List Symbol)
    (hm : FsmInv t.automaton) :
    ∀ (fuel : Nat) (stack : List (Nat × List Nat)),
      stackMeasure t stack ≤ fuel →
      (∀ e ∈ stack, e.1 < t.automaton.size) →
      ∀ e, e ∈ stack →
      ∀ w ext sF,
        walk t.automaton 0 w = some e.1 → e.2 = specRow p w [] q →
        walk t.automaton 0 (w ++ ext) = some sF →
        editDistance p q (w ++ ext) ≤ p.distance_limit →
        (sF, editDistance p q (w ++ ext)) ∈ visitStack t p q fuel stack := by
  intro fuel
  induction fuel with
  | zero =>
      intro stack hmeas hok e he
      exfalso
      cases stack with
      | nil => simp at he
      | cons e0 rest =>
          have h1 : 1 ≤ 2 ^ (t.automaton.size - e0.1) := Nat.one_le_two_pow
          unfold stackMeasure at hmeas
          rw [List.map_cons, List.sum_cons] at hmeas
          omega
  | succ fuel ih =>
      intro stack hmeas hok e he w ext sF hw hrow hwalk hdist
      cases stack with
      | nil => simp at he
      | cons e0 rest =>
          obtain ⟨s, row⟩ := e0
          have hs : s < t.automaton.size := hok (s, row) (List.mem_cons_self _ _)
          have hunf : visitStack t p q (fuel + 1) ((s, row) :: rest) =
              (if rowLast row ≤ p.distance_limit then [(s, rowLast row)] else []) ++
                visitStack t p q fuel
                  (if row.any (fun x => x ≤ p.distance_limit) then
                    (t.automaton.row s).foldl
                      (fun st pr => (pr.2, fillRow p q row pr.1) :: st) rest
                  else rest) := rfl
          rw [hunf]
          have hms : 2 ≤ 2 ^ (t.automaton.size - s) := by
            calc (2 : Nat) = 2 ^ 1 := by norm_num
              _ ≤ 2 ^ (t.automaton.size - s) := Nat.pow_le_pow_right (by omega) (by omega)
          have hmeas0 : stackMeasure t ((s, row) :: rest) =
              2 ^ (t.automaton.size - s) + stackMeasure t rest := by
            unfold stackMeasure
            rw [List.map_cons, List.sum_cons]
          rw [hmeas0] at hmeas
          have hchild : ∀ pr ∈ t.automaton.row s, s < pr.2 ∧ pr.2 < t.automaton.size := by
            intro pr hpr
            have htr : TransTo t.automaton s pr.1 pr.2 :=
              mem_lookupSym pr.1 pr.2 _ (hm.rows_nodup s) hpr
            exact hm.edges s pr.1 pr.2 htr
          have hbound : (((t.automaton.row s).map Prod.snd).map
              (fun d => 2 ^ (t.automaton.size - d))).sum ≤
              2 ^ (t.automaton.size - s) - 2 := by
            refine pow_sum_bound t.automaton.size (t.automaton.size - s) s (by omega) _
              (row_dests_nodup t.automaton hm s) ?_
            intro d hd
            obtain ⟨pr, hpr, h2⟩ := List.mem_map.mp hd
            subst h2
            exact hchild pr hpr
          rcases List.mem_cons.mp he with heq | hin
          · subst heq
            have hw' : walk t.automaton 0 w = some s := hw
            have hrow' : row = specRow p w [] q := hrow
            cases ext with
            | nil =>
                have hsf : sF = s := by
                  rw [List.append_nil, hw'] at hwalk
                  exact (Option.some.inj hwalk).symm
                have hlast : rowLast row = editDistance p q (w ++ []) := by
                  rw [hrow', rowLast_specRow, List.append_nil]
                refine List.mem_append_left _ ?_
                rw [if_pos (by rw [hlast]; exact hdist)]
                simp [hsf, hlast]
            | cons a ext' =>
                have hany : row.any (fun x => x ≤ p.distance_limit) = true := by
                  by_contra hno
                  have hall : ∀ x ∈ row, p.distance_limit < x := by
                    intro x hx
                    by_contra hle
                    have hxle : x ≤ p.distance_limit := by omega
                    exact hno (List.any_eq_true.mpr ⟨x, hx, by simpa using hxle⟩)
                  have hall' : ∀ x ∈ specRow p (w ++ (a :: ext')) [] q,
                      p.distance_limit < x := by
                    refine specRow_gt_extend p q p.distance_limit (a :: ext') w ?_
                    rw [← hrow']
                    exact hall
                  have hm1 := hall' (rowLast (specRow p (w ++ (a :: ext')) [] q))
                    (rowLast_mem _ (specRow_ne_nil p _ [] q))
                  rw [rowLast_specRow] at hm1
                  omega
                rw [if_pos hany]
                have hsplit : w ++ a :: ext' = (w ++ [a]) ++ ext' := by
                  rw [List.append_assoc]
                  rfl
                rw [hsplit] at hwalk hdist ⊢
                obtain ⟨x, hx⟩ := walk_isSome_of_append t.automaton (w ++ [a]) ext' sF hwalk
                have hxa : lookupSym a (t.automaton.row s) = some x := by
                  have h1 := walk_append t.automaton w [a] 0
                  rw [hw', hx] at h1
                  rw [← walk_single]
                  exact h1.symm
                have hmem_row : (a, x) ∈ t.automaton.row s := lookupSym_mem a x _ hxa
                have hchild_in : ((x, fillRow p q row a) : Nat × List Nat) ∈
                    (t.automaton.row s).foldl
                      (fun st pr => (pr.2, fillRow p q row pr.1) :: st) rest :=
                  (mem_foldl_cons _ _ _ _).mpr (Or.inr ⟨(a, x), hmem_row, rfl⟩)
                refine List.mem_append_right _ ?_
                refine ih _ ?_ ?_ (x, fillRow p q row a) hchild_in (w ++ [a]) ext' sF
                  hx ?_ hwalk hdist
                · rw [stackMeasure_foldl]
                  omega
                · intro e' he'
                  rcases (mem_foldl_cons _ _ _ _).mp he' with h' | ⟨pr, hpr, h2⟩
                  · exact hok e' (List.mem_cons_of_mem _ h')
                  · subst h2
                    exact (hchild pr hpr).2
                · show fillRow p q row a = specRow p (w ++ [a]) [] q
                  rw [hrow', fillRow_specRow]
          · by_cases hany : row.any (fun x => x ≤ p.distance_limit) = true
            · rw [if_pos hany]
              refine List.mem_append_right _ ?_
              refine ih _ ?_ ?_ e ?_ w ext sF hw hrow hwalk hdist
              · rw [stackMeasure_foldl]
                omega
              · intro e' he'
                rcases (mem_foldl_cons _ _ _ _).mp he' with h' | ⟨pr, hpr, h2⟩
                · exact hok e' (List.mem_cons_of_mem _ h')
                · subst h2
                  exact (hchild pr hpr).2
              · exact (mem_foldl_cons _ _ _ _).mpr (Or.inl hin)
            · rw [if_neg hany]
              refine List.mem_append_right _ ?_
              refine ih _ ?_ ?_ e hin w ext sF hw hrow hwalk hdist
              · omega
              · intro e' he'
                exact hok e' (List.mem_cons_of_mem _ he')

theorem values_getD_firstLabel (ps : List (List Symbol × Label)) (t : Trie)
    (hInv : Inv t ps) (i : Nat) (w : List Symbol)
    (hK : (dedupKeys ps)[i]? = some w) :
    t.values.getD i 0 = (firstLabel ps w).getD 0 := by
  rw [hInv.vals, List.getD_eq_getElem?_getD, List.getElem?_map, hK]
  rfl

/-- Claim C2: fuzzy soundness.  Every pair `(l, d)` emitted by the fuzzy
`find(params, q, out)` overload on the trie built from `ps` satisfies: `l` is
the label attached (by first occurrence) to some inserted pattern `w`, `d`
equals the Wagner-Fischer edit distance between the query `q` and `w` under
the cost functions of `params`, and `d ≤ params.distance_limit`. -/
theorem fuzzy_find_sound (ps : List (List Symbol × Label)) (p : LevParams)
    (q : List Symbol) (l : Label) (d : Nat)
    (h : (l, d) ∈ fuzzyFind (buildTrie ps) p q) :
    ∃ w, w ∈ dedupKeys ps ∧ firstLabel ps w = some l ∧
      d = editDistance p q w ∧ d ≤ p.distance_limit := by
  have hInv := inv_buildTrie ps
  unfold fuzzyFind at h
  obtain ⟨sd, hsd, hmap⟩ := List.mem_filterMap.mp h
  by_cases hacc : ((buildTrie ps).attrs sd.1).isAccept = true
  case neg =>
    rw [if_neg hacc] at hmap
    simp at hmap
  case pos =>
    rw [if_pos hacc] at hmap
    have hpair := Option.some.inj hmap
    have h1 : (buildTrie ps).values.getD (((buildTrie ps).valueIdx sd.1).getD 0) 0 = l :=
      congrArg Prod.fst hpair
    have h2 : sd.2 = d := congrArg Prod.snd hpair
    obtain ⟨i, hi⟩ := Option.isSome_iff_exists.mp (by
      rw [← hInv.accept sd.1]
      exact hacc)
    obtain ⟨w', hw'walk, hKi⟩ := (hInv.vidx sd.1 i).mp hi
    obtain ⟨w, hwwalk, hd_eq, hd_le⟩ := visitStack_sound (buildTrie ps) p q hInv.fsmInv
      (2 ^ (buildTrie ps).automaton.size) [(0, initialRow p q)]
      (by
        intro e he
        rw [List.mem_singleton] at he
        subst he
        exact ⟨[], rfl, initialRow_spec p q⟩)
      sd hsd
    have hww' : w = w' := walk_inj (buildTrie ps).automaton hInv.fsmInv w w' sd.1
      hwwalk hw'walk
    subst hww'
    have hwK : w ∈ dedupKeys ps := List.mem_iff_getElem?.mpr ⟨i, hKi⟩
    have hfl : (firstLabel ps w).isSome :=
      (firstLabel_isSome_iff ps w).mpr ((mem_dedupKeys ps w).mp hwK)
    obtain ⟨l₀, hl₀⟩ := Option.isSome_iff_exists.mp hfl
    have hval : (buildTrie ps).values.getD i 0 = (firstLabel ps w).getD 0 :=
      values_getD_firstLabel ps (buildTrie ps) hInv i w hKi
    rw [hi] at h1
    have h1' : (buildTrie ps).values.getD i 0 = l := h1
    refine ⟨w, hwK, ?_, ?_, ?_⟩
    · rw [hl₀]
      rw [hval, hl₀] at h1'
      simp at h1'
      rw [h1']
    · rw [← h2, hd_eq]
    · rw [← h2]
      exact hd_le

/-- Claim C3: fuzzy completeness.  Every inserted pattern `w` whose weighted
edit distance to the query `q` is at most `params.distance_limit` appears in
the output of the fuzzy `find(params, q, out)` overload together with that
distance; in particular the any-entry-within-limit pruning test never discards
such a pattern. -/
theorem fuzzy_find_complete (ps : List (List Symbol × Label)) (p : LevParams)
    (q w : List Symbol) (lab : Label) (hmem : (w, lab) ∈ ps)
    (hdist : editDistance p q w ≤ p.distance_limit) :
    ((firstLabel ps w).getD 0, editDistance p q w) ∈ fuzzyFind (buildTrie ps) p q := by
  have hInv := inv_buildTrie ps
  have hwK : w ∈ dedupKeys ps :=
    (mem_dedupKeys ps w).mpr (List.mem_map.mpr ⟨(w, lab), hmem, rfl⟩)
  have hwalked : (walk (buildTrie ps).automaton 0 w).isSome :=
    hInv.keys_closed w hwK w (List.prefix_refl w)
  obtain ⟨sF, hsF⟩ := Option.isSome_iff_exists.mp hwalked
  obtain ⟨i, hKi⟩ := List.mem_iff_getElem?.mp hwK
  have hvidx : (buildTrie ps).valueIdx sF = some i :=
    (hInv.vidx sF i).mpr ⟨w, hsF, hKi⟩
  have hacc : ((buildTrie ps).attrs sF).isAccept = true := by
    rw [hInv.accept sF, hvidx]
    rfl
  have hin : (sF, editDistance p q (([] : List Symbol) ++ w)) ∈
      visitCloseStates (buildTrie ps) p q := by
    refine visitStack_complete (buildTrie ps) p q hInv.fsmInv
      (2 ^ (buildTrie ps).automaton.size) [(0, initialRow p q)] ?_ ?_
      (0, initialRow p q) (List.mem_singleton.mpr rfl) [] w sF rfl
      (initialRow_spec p q) ?_ ?_
    · unfold stackMeasure
      simp
    · intro e he
      rw [List.mem_singleton] at he
      subst he
      exact hInv.fsmInv.size_pos
    · exact hsF
    · exact hdist
  have hin' : (sF, editDistance p q w) ∈ visitCloseStates (buildTrie ps) p q := hin
  have hval : (buildTrie ps).values.getD i 0 = (firstLabel ps w).getD 0 :=
    values_getD_firstLabel ps (buildTrie ps) hInv i w hKi
  unfold fuzzyFind
  refine List.mem_filterMap.mpr ⟨(sF, editDistance p q w), hin', ?_⟩
  show (if ((buildTrie ps).attrs sF).isAccept then
      some ((buildTrie ps).values.getD (((buildTrie ps).valueIdx sF).getD 0) 0,
        editDistance p q w)
    else none) = some ((firstLabel ps w).getD 0, editDistance p q w)
  rw [if_pos hacc, hvidx]
  rw [Option.getD_some, hval]

theorem fuzzy_find_sound_witness :
    ((5, 1) ∈ fuzzyFind (buildTrie [([1], 5)]) ⟨1, fun _ => 1, fun _ _ => 1⟩ []) ∧
    ∃ w, w ∈ dedupKeys [([1], 5)] ∧ firstLabel [([1], 5)] w = some 5 ∧
      1 = editDistance ⟨1, fun _ => 1, fun _ _ => 1⟩ [] w ∧
      1 ≤ (⟨1, fun _ => 1, fun _ _ => 1⟩ : LevParams).distance_limit := by
  have h : (5, 1) ∈ fuzzyFind (buildTrie [([1], 5)]) ⟨1, fun _ => 1, fun _ _ => 1⟩ [] := by
    decide
  exact ⟨h, fuzzy_find_sound [([1], 5)] ⟨1, fun _ => 1, fun _ _ => 1⟩ [] 5 1 h⟩

theorem fuzzy_find_complete_witness :
    (([1], 5) ∈ ([([1], 5)] : List (List Symbol × Label))) ∧
    editDistance ⟨1, fun _ => 1, fun _ _ => 1⟩ [] [1] ≤
      (⟨1, fun _ => 1, fun _ _ => 1⟩ : LevParams).distance_limit ∧
    ((firstLabel [([1], 5)] [1]).getD 0,
        editDistance ⟨1, fun _ => 1, fun _ _ => 1⟩ [] [1]) ∈
      fuzzyFind (buildTrie [([1], 5)]) ⟨1, fun _ => 1, fun _ _ => 1⟩ [] := by
  have h1 : (([1], 5) ∈ ([([1], 5)] : List (List Symbol × Label))) := by decide
  have h2 : editDistance ⟨1, fun _ => 1, fun _ _ => 1⟩ [] [1] ≤
      (⟨1, fun _ => 1, fun _ _ => 1⟩ : LevParams).distance_limit := by decide
  exact ⟨h1, h2, fuzzy_find_complete [([1], 5)] ⟨1, fun _ => 1, fun _ _ => 1⟩ [] [1] 5 h1 h2⟩

theorem find?_cons_pos {α : Type} (p : α → Bool) (x : α) (l : List α) (h : p x = true) :
    List.find? p (x :: l) = some x := by
  rw [List.find?_cons, h]

theorem find?_cons_neg {α : Type} (p : α → Bool) (x : α) (l : List α) (h : p x = false) :
    List.find? p (x :: l) = List.find? p l := by
  rw [List.find?_cons, h]

theorem tails_find_max (p : List Symbol → Bool) :
    ∀ u : List Symbol,
      (u.tails.find? p = none → ∀ v, v <:+ u → p v = false) ∧
      (∀ r, u.tails.find? p = some r → r <:+ u ∧ p r = true ∧
        ∀ v, v <:+ u → p v = true → v.length ≤ r.length) := by
  intro u
  induction u with
  | nil =>
      have htn : ([] : List Symbol).tails = [[]] := rfl
      rw [htn]
      by_cases hp : p [] = true
      · rw [List.find?_cons_of_pos _ hp]
        constructor
        · intro h
          exact absurd h (by simp)
        · intro r hr
          have hr' : r = [] := (Option.some.inj hr).symm
          subst hr'
          refine ⟨List.suffix_refl _, hp, ?_⟩
          intro v hv _
          rw [List.suffix_nil.mp hv]
      · rw [List.find?_cons_of_neg _ hp]
        constructor
        · intro _ v hv
          rw [List.suffix_nil.mp hv]
          rw [Bool.not_eq_true] at hp
          exact hp
        · intro r hr
          simp at hr
  | cons c u' ih =>
      rw [List.tails_cons]
      by_cases hp : p (c :: u') = true
      · rw [List.find?_cons_of_pos _ hp]
        constructor
        · intro h
          exact absurd h (by simp)
        · intro r hr
          have hr' : r = c :: u' := (Option.some.inj hr).symm
          subst hr'
          refine ⟨List.suffix_refl _, hp, ?_⟩
          intro v hv _
          exact List.IsSuffix.length_le hv
      · rw [List.find?_cons_of_neg _ hp]
        constructor
        · intro h v hv
          rcases List.suffix_cons_iff.mp hv with h1 | h1
          · subst h1
            rw [Bool.not_eq_true] at hp
            exact hp
          · exact ih.1 h v h1
        · intro r hr
          obtain ⟨h1, h2, h3⟩ := ih.2 r hr
          refine ⟨h1.trans (List.suffix_cons c u'), h2, ?_⟩
          intro v hv hpv
          rcases List.suffix_cons_iff.mp hv with h4 | h4
          · subst h4
            exact absurd hpv hp
          · exact h3 v h4 hpv

theorem suffix_nested {v₁ v₂ w : List Symbol} (h1 : v₁ <:+ w) (h2 : v₂ <:+ w)
    (hle : v₁.length ≤ v₂.length) : v₁ <:+ v₂ := by
  obtain ⟨t1, ht1⟩ := h1
  obtain ⟨t2, ht2⟩ := h2
  have hv1 : v₁ = w.drop t1.length := by rw [← ht1, List.drop_left]
  have hv2 : v₂ = w.drop t2.length := by rw [← ht2, List.drop_left]
  have hlen1 : t1.length + v₁.length = w.length := by
    rw [← ht1]
    simp
  have hlen2 : t2.length + v₂.length = w.length := by
    rw [← ht2]
    simp
  have heq : v₁ = v₂.drop (t1.length - t2.length) := by
    rw [hv1, hv2, List.drop_drop]
    have h : t2.length + (t1.length - t2.length) = t1.length := by omega
    rw [h]
  rw [heq]
  exact List.drop_suffix _ _

theorem suffix_eq_of_length {v₁ v₂ w : List Symbol} (h1 : v₁ <:+ w) (h2 : v₂ <:+ w)
    (hlen : v₁.length = v₂.length) : v₁ = v₂ :=
  (suffix_nested h1 h2 (le_of_eq hlen)).eq_of_length hlen

theorem suffix_append_singleton {v x : List Symbol} {a : Symbol} (h : v <:+ x ++ [a])
    (hne : v ≠ []) : ∃ v', v' <:+ x ∧ v = v' ++ [a] := by
  obtain ⟨t, ht⟩ := h
  have hlen : t.length + v.length = x.length + 1 := by
    rw [← List.length_append, ht]
    simp
  have hle : t.length ≤ x.length := by
    have h1 : 1 ≤ v.length := by
      cases v with
      | nil => exact absurd rfl hne
      | cons _ _ => simp
    omega
  refine ⟨x.drop t.length, List.drop_suffix _ _, ?_⟩
  have hv : v = (x ++ [a]).drop t.length := by rw [← ht, List.drop_left]
  rw [hv, List.drop_append_eq_append_drop]
  have h0 : t.length - x.length = 0 := by omega
  rw [h0]
  rfl

theorem suffix_append_singleton_of_suffix {v x : List Symbol} (a : Symbol)
    (h : v <:+ x) : v ++ [a] <:+ x ++ [a] := by
  obtain ⟨t, ht⟩ := h
  exact ⟨t, by rw [← List.append_assoc, ht]⟩

theorem lss_spec (t : Trie) (x : List Symbol) :
    lss t x <:+ x ∧ (walk t.automaton 0 (lss t x)).isSome ∧
      ∀ v, v <:+ x → (walk t.automaton 0 v).isSome → v.length ≤ (lss t x).length := by
  unfold lss
  cases hf : x.tails.find? (fun v => (walk t.automaton 0 v).isSome) with
  | none =>
      exfalso
      have h := (tails_find_max _ x).1 hf [] List.nil_suffix
      simp [walk] at h
  | some r =>
      obtain ⟨h1, h2, h3⟩ := (tails_find_max _ x).2 r hf
      exact ⟨h1, h2, h3⟩

theorem lps_cons (t : Trie) (c : Symbol) (w' : List Symbol) :
    lps t (c :: w') = lss t w' := by
  unfold lps lss properSuffixes
  rw [List.tails_cons]
  rfl

theorem lps_spec (t : Trie) (w : List Symbol) (hw : w ≠ []) :
    lps t w <:+ w ∧ (lps t w).length < w.length ∧
      (walk t.automaton 0 (lps t w)).isSome ∧
      ∀ v, v <:+ w → v.length < w.length → (walk t.automaton 0 v).isSome →
        v.length ≤ (lps t w).length := by
  match w with
  | [] => exact absurd rfl hw
  | c :: w' =>
      rw [lps_cons]
      obtain ⟨h1, h2, h3⟩ := lss_spec t w'
      refine ⟨h1.trans (List.suffix_cons c w'), ?_, h2, ?_⟩
      · have hl := List.IsSuffix.length_le h1
        simp only [List.length_cons]
        omega
      · intro v hv hlen hwv
        rcases List.suffix_cons_iff.mp hv with h4 | h4
        · subst h4
          simp at hlen
        · exact h3 v h4 hwv

theorem matchSuffix_none (t : Trie) (a : Symbol) (w : List Symbol)
    (h : matchSuffix t w a = none) :
    ∀ v, v <:+ w → walk t.automaton 0 (v ++ [a]) = none := by
  intro v hv
  have h1 := (tails_find_max _ w).1 h v hv
  cases hwv : walk t.automaton 0 (v ++ [a]) with
  | none => rfl
  | some d =>
      rw [hwv] at h1
      simp at h1

theorem matchSuffix_some (t : Trie) (a : Symbol) (w : List Symbol) (r : List Symbol)
    (h : matchSuffix t w a = some r) :
    r <:+ w ∧ (walk t.automaton 0 (r ++ [a])).isSome ∧
      ∀ v, v <:+ w → (walk t.automaton 0 (v ++ [a])).isSome → v.length ≤ r.length :=
  (tails_find_max _ w).2 r h

theorem lss_snoc (t : Trie) (x : List Symbol) (a : Symbol) :
    lss t (x ++ [a]) = (match matchSuffix t (lss t x) a with
      | some v => v ++ [a]
      | none => []) := by
  obtain ⟨hx1, hx2, hx3⟩ := lss_spec t x
  obtain ⟨hs1, hs2, hs3⟩ := lss_spec t (x ++ [a])
  cases hm : matchSuffix t (lss t x) a with
  | none =>
      show lss t (x ++ [a]) = []
      by_contra hne
      obtain ⟨v', hv', heq⟩ := suffix_append_singleton hs1 hne
      have hv'w : (walk t.automaton 0 v').isSome := by
        rw [heq] at hs2
        obtain ⟨u, hu⟩ := Option.isSome_iff_exists.mp hs2
        obtain ⟨z, hz⟩ := walk_isSome_of_append t.automaton v' [a] u hu
        rw [hz]
        rfl
      have hnest : v' <:+ lss t x := suffix_nested hv' hx1 (hx3 v' hv' hv'w)
      have hcontra := matchSuffix_none t a (lss t x) hm v' hnest
      rw [heq, hcontra] at hs2
      simp at hs2
  | some r =>
      show lss t (x ++ [a]) = r ++ [a]
      obtain ⟨hr1, hr2, hr3⟩ := matchSuffix_some t a (lss t x) r hm
      have hra_sfx : r ++ [a] <:+ x ++ [a] :=
        suffix_append_singleton_of_suffix a (hr1.trans hx1)
      have h1 : (r ++ [a]).length ≤ (lss t (x ++ [a])).length := hs3 _ hra_sfx hr2
      by_cases hne : lss t (x ++ [a]) = []
      · rw [hne] at h1
        simp at h1
      · obtain ⟨v', hv', heq⟩ := suffix_append_singleton hs1 hne
        have hv'w : (walk t.automaton 0 v').isSome := by
          rw [heq] at hs2
          obtain ⟨u, hu⟩ := Option.isSome_iff_exists.mp hs2
          obtain ⟨z, hz⟩ := walk_isSome_of_append t.automaton v' [a] u hu
          rw [hz]
          rfl
        have hnest : v' <:+ lss t x := suffix_nested hv' hx1 (hx3 v' hv' hv'w)
        have hv'a : (walk t.automaton 0 (v' ++ [a])).isSome := by
          rw [← heq]
          exact hs2
        have h2 : v'.length ≤ r.length := hr3 v' hnest hv'a
        have h1' : r.length + 1 ≤ v'.length + 1 := by
          have h3 := h1
          rw [heq] at h3
          simpa using h3
        have hlen_eq : (lss t (x ++ [a])).length = (r ++ [a]).length := by
          rw [heq]
          simp
          omega
        exact suffix_eq_of_length hs1 hra_sfx hlen_eq

theorem lps_snoc (t : Trie) (w : List Symbol) (x : Symbol) (hw : w ≠ []) :
    lps t (w ++ [x]) = (match matchSuffix t (lps t w) x with
      | some v => v ++ [x]
      | none => []) := by
  match w with
  | [] => exact absurd rfl hw
  | c :: w' =>
      rw [List.cons_append, lps_cons t c (w' ++ [x]), lps_cons t c w', lss_snoc]

theorem walk_depth (m : Fsm) (hedge : ∀ s a d, TransTo m s a d → s < d) :
    ∀ (v : List Symbol) (x u : Nat), walk m x v = some u → x + v.length ≤ u := by
  intro v
  induction v with
  | nil =>
      intro x u h
      simp [walk] at h
      simp only [List.length_nil]
      omega
  | cons a rest ih =>
      intro x u h
      unfold walk at h
      cases hl : lookupSym a (m.row x) with
      | none =>
          rw [hl] at h
          simp at h
      | some d =>
          rw [hl] at h
          have h1 := hedge x a d hl
          have h2 := ih d u h
          simp only [List.length_cons]
          omega

theorem walk_root_iff (m : Fsm) (hm : FsmInv m) (v : List Symbol) :
    walk m 0 v = some 0 ↔ v = [] := by
  constructor
  · intro h
    cases v with
    | nil => rfl
    | cons a rest =>
        exfalso
        have hd := walk_depth m (fun s a d ht => (hm.edges s a d ht).1) (a :: rest) 0 0 h
        simp at hd
  · intro h
    subst h
    rfl

theorem accSpecGo_short (t : Trie) (f : Nat) (w : List Symbol) (h : w.length ≤ 1) :
    accSpecGo t f w = notSet := by
  cases f with
  | zero => rfl
  | succ f' =>
      unfold accSpecGo
      rw [if_pos h]

theorem accSpec_short (t : Trie) (w : List Symbol) (h : w.length ≤ 1) :
    accSpec t w = notSet :=
  accSpecGo_short t w.length w h

theorem accSpecGo_fuel (t : Trie) :
    ∀ (n : Nat) (w : List Symbol) (f : Nat), w.length ≤ n → w.length ≤ f →
      accSpecGo t f w = accSpec t w := by
  intro n
  induction n with
  | zero =>
      intro w f hn _
      have h1 : w.length ≤ 1 := by omega
      rw [accSpecGo_short t f w h1, accSpec_short t w h1]
  | succ n ih =>
      intro w f hlen hf
      by_cases hshort : w.length ≤ 1
      · rw [accSpecGo_short t f w hshort, accSpec_short t w hshort]
      · have hwne : w ≠ [] := by
          intro h
          subst h
          simp at hshort
        obtain ⟨hl1, hl2, hl3, hl4⟩ := lps_spec t w hwne
        cases f with
        | zero => omega
        | succ f' =>
            have hunf : ∀ g : Nat, accSpecGo t (g + 1) w =
                (if (t.attrs (stateOf t (lps t w))).isAccept then stateOf t (lps t w)
                 else accSpecGo t g (lps t w)) := by
              intro g
              show (if w.length ≤ 1 then notSet
                else if (t.attrs (stateOf t (lps t w))).isAccept then stateOf t (lps t w)
                  else accSpecGo t g (lps t w)) = _
              rw [if_neg hshort]
            have hwl : w.length = (w.length - 1) + 1 := by omega
            have hrhs : accSpec t w = (if (t.attrs (stateOf t (lps t w))).isAccept
                then stateOf t (lps t w) else accSpecGo t (w.length - 1) (lps t w)) := by
              show accSpecGo t w.length w = _
              conv_lhs => rw [hwl]
              rw [hunf]
            rw [hunf f', hrhs]
            by_cases hacc : (t.attrs (stateOf t (lps t w))).isAccept = true
            · rw [if_pos hacc, if_pos hacc]
            · rw [if_neg hacc, if_neg hacc,
                ih (lps t w) f' (by omega) (by omega),
                ih (lps t w) (w.length - 1) (by omega) (by omega)]

theorem acNextSpec_step (t : Trie) (w : List Symbol) (a : Symbol) (hwne : w ≠ [])
    (hfail : walk t.automaton 0 (w ++ [a]) = none) :
    acNextSpec t w a = acNextSpec t (lps t w) a := by
  obtain ⟨hp1, hp2, hp3, hp4⟩ := lps_spec t w hwne
  unfold acNextSpec
  cases hw : matchSuffix t w a with
  | none =>
      cases hl : matchSuffix t (lps t w) a with
      | none => rfl
      | some r₂ =>
          obtain ⟨h1, h2, h3⟩ := matchSuffix_some t a (lps t w) r₂ hl
          have hfail₂ := matchSuffix_none t a w hw r₂ (h1.trans hp1)
          rw [hfail₂] at h2
          simp at h2
  | some r =>
      obtain ⟨hr1, hr2, hr3⟩ := matchSuffix_some t a w r hw
      have hrne : r ≠ w := by
        intro h
        subst h
        rw [hfail] at hr2
        simp at hr2
      have hrlt : r.length < w.length := by
        have hle := List.IsSuffix.length_le hr1
        rcases Nat.lt_or_ge r.length w.length with h | h
        · exact h
        · exfalso
          exact hrne (List.IsSuffix.eq_of_length hr1 (by omega))
      have hrwalk : (walk t.automaton 0 r).isSome := by
        obtain ⟨u, hu⟩ := Option.isSome_iff_exists.mp hr2
        obtain ⟨z, hz⟩ := walk_isSome_of_append t.automaton r [a] u hu
        rw [hz]
        rfl
      have hrlps : r <:+ lps t w := suffix_nested hr1 hp1 (hp4 r hr1 hrlt hrwalk)
      cases hl : matchSuffix t (lps t w) a with
      | none =>
          have hfail₂ := matchSuffix_none t a (lps t w) hl r hrlps
          rw [hfail₂] at hr2
          simp at hr2
      | some r₂ =>
          obtain ⟨h1, h2, h3⟩ := matchSuffix_some t a (lps t w) r₂ hl
          have hle1 : r₂.length ≤ r.length := hr3 r₂ (h1.trans hp1) h2
          have hle2 : r.length ≤ r₂.length := h3 r hrlps hr2
          have heq : r = r₂ := suffix_eq_of_length hr1 (h1.trans hp1) (by omega)
          rw [heq]

theorem acNext_spec (t u : Trie) (hauto : u.automaton = t.automaton)
    (hm : FsmInv t.automaton) (a : Symbol) :
    ∀ (fuel : Nat) (w : List Symbol) (s : Nat),
      walk t.automaton 0 w = some s →
      w.length < fuel →
      (∀ v s', v ≠ [] → v <:+ w → walk t.automaton 0 v = some s' →
        (u.attrs s').suffixLink = stateOf t (lps t v)) →
      acNext u fuel s a = (acNextSpec t w a, true) := by
  intro fuel
  induction fuel with
  | zero =>
      intro w s _ hlt _
      omega
  | succ fuel ih =>
      intro w s hw hlt hchain
      by_cases hs : s = 0
      · subst hs
        have hwnil : w = [] := (walk_root_iff t.automaton hm w).mp hw
        subst hwnil
        unfold acNext
        rw [if_pos rfl, hauto]
        cases hl : lookupSym a (t.automaton.row 0) with
        | some d =>
            have hP : (walk t.automaton 0 ([] ++ [a])).isSome = true := by
              rw [List.nil_append, walk_single, hl]
              rfl
            have hms : matchSuffix t [] a = some [] := by
              unfold matchSuffix
              have htn : ([] : List Symbol).tails = [[]] := rfl
              rw [htn, find?_cons_pos (fun v => (walk t.automaton 0 (v ++ [a])).isSome)
                [] [] hP]
            unfold acNextSpec
            rw [hms]
            show ((t.automaton.next 0 a).1, true) = (stateOf t ([] ++ [a]), true)
            unfold Fsm.next stateOf
            rw [hl, List.nil_append, walk_single, hl]
            rfl
        | none =>
            have hP : (walk t.automaton 0 ([] ++ [a])).isSome = false := by
              rw [List.nil_append, walk_single, hl]
              rfl
            have hms : matchSuffix t [] a = none := by
              unfold matchSuffix
              have htn : ([] : List Symbol).tails = [[]] := rfl
              rw [htn, find?_cons_neg (fun v => (walk t.automaton 0 (v ++ [a])).isSome)
                [] [] hP, List.find?_nil]
            unfold acNextSpec
            rw [hms]
            show ((t.automaton.next 0 a).1, true) = (0, true)
            unfold Fsm.next
            rw [hl]
      · have hwne : w ≠ [] := by
          intro h
          subst h
          simp [walk] at hw
          exact hs hw.symm
        unfold acNext
        rw [if_neg hs, hauto]
        cases hl : lookupSym a (t.automaton.row s) with
        | some d =>
            have hnext : t.automaton.next s a = (d, true) := by
              unfold Fsm.next
              rw [hl]
            rw [hnext]
            have hwa : walk t.automaton 0 (w ++ [a]) = some d := by
              rw [walk_append, hw]
              show walk t.automaton s [a] = some d
              rw [walk_single]
              exact hl
            have hP : (walk t.automaton 0 (w ++ [a])).isSome = true := by
              rw [hwa]
              rfl
            have hms : matchSuffix t w a = some w := by
              unfold matchSuffix
              cases w with
              | nil => exact absurd rfl hwne
              | cons c w' =>
                  rw [List.tails_cons, find?_cons_pos
                    (fun v => (walk t.automaton 0 (v ++ [a])).isSome) (c :: w') w'.tails hP]
            unfold acNextSpec
            rw [hms]
            show (d, true) = (stateOf t (w ++ [a]), true)
            unfold stateOf
            rw [hwa]
            rfl
        | none =>
            have hnext : t.automaton.next s a = (s, false) := by
              unfold Fsm.next
              rw [hl]
            rw [hnext]
            have hsl : (u.attrs s).suffixLink = stateOf t (lps t w) :=
              hchain w s hwne (List.suffix_refl w) hw
            obtain ⟨hp1, hp2, hp3, hp4⟩ := lps_spec t w hwne
            obtain ⟨s₀, hs₀⟩ := Option.isSome_iff_exists.mp hp3
            have hstate : stateOf t (lps t w) = s₀ := by
              unfold stateOf
              rw [hs₀]
              rfl
            have hih := ih (lps t w) s₀ hs₀ (by omega)
              (fun v s' hne hsfx hwv => hchain v s' hne (hsfx.trans hp1) hwv)
            have hfail : walk t.automaton 0 (w ++ [a]) = none := by
              rw [walk_append, hw]
              show walk t.automaton s [a] = none
              rw [walk_single]
              exact hl
            rw [hsl, hstate, hih, acNextSpec_step t w a hwne hfail]

theorem foldl_attachReachable_attrs (i : Nat) :
    ∀ (L : List Nat) (t : Trie),
      (L.foldl (fun u x => attachReachable u x i) t).attrs = t.attrs := by
  intro L
  induction L with
  | nil => intro t; rfl
  | cons x L' ih =>
      intro t
      rw [List.foldl_cons, ih]
      rfl

theorem grow_links :
    ∀ (rest : List Symbol) (t : Trie) (s : Nat),
      (∀ x, (t.attrs x).suffixLink = notSet ∧ (t.attrs x).acceptSuffixLink = notSet) →
      ∀ x, ((grow t s rest).1.attrs x).suffixLink = notSet ∧
        ((grow t s rest).1.attrs x).acceptSuffixLink = notSet := by
  intro rest
  induction rest with
  | nil => intro t s h x; exact h x
  | cons a rest' ih =>
      intro t s h x
      rw [grow_cons]
      refine ih _ _ ?_ x
      intro y
      by_cases hy : y = (t.automaton.addTransition s a).2.1
      · show ((if y = (t.automaton.addTransition s a).2.1 then Attr.init
            else t.attrs y).suffixLink = notSet ∧
          (if y = (t.automaton.addTransition s a).2.1 then Attr.init
            else t.attrs y).acceptSuffixLink = notSet)
        rw [if_pos hy]
        exact ⟨rfl, rfl⟩
      · show ((if y = (t.automaton.addTransition s a).2.1 then Attr.init
            else t.attrs y).suffixLink = notSet ∧
          (if y = (t.automaton.addTransition s a).2.1 then Attr.init
            else t.attrs y).acceptSuffixLink = notSet)
        rw [if_neg hy]
        exact h y

theorem addPair_links (t : Trie) (w : List Symbol) (lab : Label)
    (h : ∀ x, (t.attrs x).suffixLink = notSet ∧ (t.attrs x).acceptSuffixLink = notSet) :
    ∀ x, ((addPair t w lab).attrs x).suffixLink = notSet ∧
      ((addPair t w lab).attrs x).acceptSuffixLink = notSet := by
  obtain ⟨s₀, rest, htrav⟩ : ∃ s₀ rest, traverse t.automaton 0 w = (s₀, rest) := ⟨_, _, rfl⟩
  have hins : insertSeq t w = ((grow t s₀ rest).1, (grow t s₀ rest).2) := by
    unfold insertSeq
    rw [htrav]
  set t₁ := (grow t s₀ rest).1 with ht₁
  set sF := (grow t s₀ rest).2 with hsF
  have h₁ : ∀ y, (t₁.attrs y).suffixLink = notSet ∧ (t₁.attrs y).acceptSuffixLink = notSet :=
    grow_links rest t s₀ h
  cases hvidx : t₁.valueIdx sF with
  | some i =>
      have hattach : attachValue t₁ sF lab = (t₁, i, false) := by
        unfold attachValue
        rw [hvidx]
      have haddPair : addPair t w lab = t₁ := by
        unfold addPair
        simp only [hins, hattach]
        simp
      rw [haddPair]
      exact h₁
  | none =>
      have hattach : attachValue t₁ sF lab =
          ({ t₁ with
               values := t₁.values ++ [lab]
               valueIdx := fun x => if x = sF then some t₁.values.length else t₁.valueIdx x
               attrs := fun x => if x = sF then { t₁.attrs x with isAccept := true }
                 else t₁.attrs x },
           t₁.values.length, true) := by
        unfold attachValue
        rw [hvidx]
      set t₂ : Trie := { t₁ with
               values := t₁.values ++ [lab]
               valueIdx := fun x => if x = sF then some t₁.values.length else t₁.valueIdx x
               attrs := fun x => if x = sF then { t₁.attrs x with isAccept := true }
                 else t₁.attrs x } with ht₂
      have haddPair : addPair t w lab =
          attachReachable
            ((pathStates t₂.automaton 0 w).foldl
              (fun u x => attachReachable u x t₁.values.length) t₂) sF t₁.values.length := by
        unfold addPair
        simp only [hins, hattach]
        simp
      rw [haddPair]
      intro x
      have hfattrs : ((pathStates t₂.automaton 0 w).foldl
          (fun u x => attachReachable u x t₁.values.length) t₂).attrs = t₂.attrs :=
        foldl_attachReachable_attrs t₁.values.length _ t₂
      show ((((pathStates t₂.automaton 0 w).foldl
            (fun u x => attachReachable u x t₁.values.length) t₂).attrs x).suffixLink = notSet ∧
          (((pathStates t₂.automaton 0 w).foldl
            (fun u x => attachReachable u x t₁.values.length) t₂).attrs x).acceptSuffixLink
            = notSet)
      rw [hfattrs]
      show ((if x = sF then { t₁.attrs x with isAccept := true } else t₁.attrs x).suffixLink
          = notSet ∧
        (if x = sF then { t₁.attrs x with isAccept := true }
          else t₁.attrs x).acceptSuffixLink = notSet)
      by_cases hx : x = sF
      · rw [if_pos hx]
        exact ⟨(h₁ x).1, (h₁ x).2⟩
      · rw [if_neg hx]
        exact h₁ x

theorem buildTrie_links (ps : List (List Symbol × Label)) :
    ∀ x, ((buildTrie ps).attrs x).suffixLink = notSet ∧
      ((buildTrie ps).attrs x).acceptSuffixLink = notSet := by
  have hgen : ∀ (l : List (List Symbol × Label)) (t : Trie),
      (∀ x, (t.attrs x).suffixLink = notSet ∧ (t.attrs x).acceptSuffixLink = notSet) →
      ∀ x, (((l.foldl (fun t pr => addPair t pr.1 pr.2) t).attrs x).suffixLink = notSet ∧
        ((l.foldl (fun t pr => addPair t pr.1 pr.2) t).attrs x).acceptSuffixLink = notSet) := by
    intro l
    induction l with
    | nil => intro t h; exact h
    | cons pr l' ih =>
        intro t h
        rw [List.foldl_cons]
        exact ih _ (addPair_links t pr.1 pr.2 h)
  exact hgen ps Trie.empty (fun x => ⟨rfl, rfl⟩)

theorem updateAttr_attrs (t : Trie) (s : Nat) (f : Attr → Attr) (x : Nat) :
    (updateAttr t s f).attrs x = if x = s then f (t.attrs x) else t.attrs x := rfl

theorem buildLinksLoop_cons (t0 t : Trie) (fuel : Nat) (s : Nat) (queue : List Nat) :
    buildLinksLoop t0 (fuel + 1) t (s :: queue) =
      buildLinksLoop t0 fuel
        (((t.automaton.row s).foldl (linkStep s) (t, queue)).1)
        (((t.automaton.row s).foldl (linkStep s) (t, queue)).2) := rfl

theorem linkStep_eq (s : Nat) (u : Trie) (q : List Nat) (pr : Symbol × Nat) :
    linkStep s (u, q) pr =
      (updateAttr u pr.2 (fun a =>
        { a with
            suffixLink := (acNext u u.automaton.size ((u.attrs s).suffixLink) pr.1).1
            acceptSuffixLink :=
              if (u.attrs ((acNext u u.automaton.size ((u.attrs s).suffixLink) pr.1).1)).isAccept
              then (acNext u u.automaton.size ((u.attrs s).suffixLink) pr.1).1
              else (u.attrs ((acNext u u.automaton.size
                ((u.attrs s).suffixLink) pr.1).1)).acceptSuffixLink }),
       q ++ [pr.2]) := rfl

theorem stateOf_lps_snoc (t : Trie) (w : List Symbol) (x : Symbol) (hw : w ≠ []) :
    stateOf t (lps t (w ++ [x])) = acNextSpec t (lps t w) x := by
  rw [lps_snoc t w x hw]
  unfold acNextSpec
  cases matchSuffix t (lps t w) x with
  | none => rfl
  | some v => rfl

theorem accSpec_unfold (t : Trie) (w : List Symbol) (h : 2 ≤ w.length) :
    accSpec t w = (if (t.attrs (stateOf t (lps t w))).isAccept then stateOf t (lps t w)
      else accSpec t (lps t w)) := by
  show accSpecGo t w.length w = _
  have hwl : w.length = (w.length - 1) + 1 := by omega
  conv_lhs => rw [hwl]
  show (if w.length ≤ 1 then notSet
    else if (t.attrs (stateOf t (lps t w))).isAccept then stateOf t (lps t w)
      else accSpecGo t (w.length - 1) (lps t w)) = _
  rw [if_neg (by omega)]
  have hwne : w ≠ [] := by
    intro he
    subst he
    simp at h
  obtain ⟨hl1, hl2, hl3, hl4⟩ := lps_spec t w hwne
  by_cases hacc : (t.attrs (stateOf t (lps t w))).isAccept = true
  · rw [if_pos hacc, if_pos hacc]
  · rw [if_neg hacc, if_neg hacc]
    exact accSpecGo_fuel t (lps t w).length (lps t w) (w.length - 1) (le_refl _) (by omega)

theorem links_fold (t : Trie) (hm : FsmInv t.automaton) (w₀ : List Symbol) (s₀ : Nat)
    (hw₀ : walk t.automaton 0 w₀ = some s₀) (hw₀ne : w₀ ≠ [])
    (ws' : List (List Symbol)) (hws'len : ∀ we ∈ ws', w₀.length ≤ we.length) :
    ∀ (l₂ l₁ : List (Symbol × Nat)) (u : Trie) (qacc : List Nat),
      t.automaton.row s₀ = l₁ ++ l₂ →
      u.automaton = t.automaton →
      (∀ x, (u.attrs x).isAccept = (t.attrs x).isAccept) →
      (u.attrs 0).suffixLink = 0 →
      (u.attrs 0).acceptSuffixLink = notSet →
      (∀ v s', v ≠ [] → walk t.automaton 0 v = some s' →
        (∀ we, we ∈ ws' → ¬(we <+: v ∧ we.length < v.length)) →
        (∀ pr', pr' ∈ l₁ → ¬((w₀ ++ [pr'.1]) <+: v ∧ (w₀ ++ [pr'.1]).length < v.length)) →
        (∀ pr', pr' ∈ l₂ → ¬((w₀ ++ [pr'.1]) <+: v)) →
        LinkCorr t u s' v) →
      ((l₂.foldl (linkStep s₀) (u, qacc)).2 = qacc ++ l₂.map Prod.snd) ∧
      (l₂.foldl (linkStep s₀) (u, qacc)).1.automaton = t.automaton ∧
      (∀ x, ((l₂.foldl (linkStep s₀) (u, qacc)).1.attrs x).isAccept = (t.attrs x).isAccept) ∧
      ((l₂.foldl (linkStep s₀) (u, qacc)).1.attrs 0).suffixLink = 0 ∧
      ((l₂.foldl (linkStep s₀) (u, qacc)).1.attrs 0).acceptSuffixLink = notSet ∧
      (l₂.foldl (linkStep s₀) (u, qacc)).1.values = u.values ∧
      (l₂.foldl (linkStep s₀) (u, qacc)).1.valueIdx = u.valueIdx ∧
      (l₂.foldl (linkStep s₀) (u, qacc)).1.reachable = u.reachable ∧
      (∀ v s', v ≠ [] → walk t.automaton 0 v = some s' →
        (∀ we, we ∈ ws' → ¬(we <+: v ∧ we.length < v.length)) →
        (∀ pr', pr' ∈ t.automaton.row s₀ →
          ¬((w₀ ++ [pr'.1]) <+: v ∧ (w₀ ++ [pr'.1]).length < v.length)) →
        LinkCorr t (l₂.foldl (linkStep s₀) (u, qacc)).1 s' v) := by
  intro l₂
  induction l₂ with
  | nil =>
      intro l₁ u qacc hrow hauto hae hroot1 hroot2 hc
      refine ⟨by simp, hauto, hae, hroot1, hroot2, rfl, rfl, rfl, ?_⟩
      intro v s' hvne hv hgw hgrow
      refine hc v s' hvne hv hgw ?_ ?_
      · intro pr' hpr'
        refine hgrow pr' ?_
        rw [hrow]
        simpa using hpr'
      · intro pr' hpr'
        simp at hpr'
  | cons pr l₂' ih =>
      intro l₁ u qacc hrow hauto hae hroot1 hroot2 hc
      -- facts about the head transition
      have hprmem : pr ∈ t.automaton.row s₀ := by
        rw [hrow]
        exact List.mem_append_right _ (List.mem_cons_self _ _)
      have hlook : lookupSym pr.1 (t.automaton.row s₀) = some pr.2 := by
        have := mem_lookupSym pr.1 pr.2 (t.automaton.row s₀) (hm.rows_nodup s₀)
        exact this (by exact hprmem)
      have hedge := hm.edges s₀ pr.1 pr.2 hlook
      have hwchild : walk t.automaton 0 (w₀ ++ [pr.1]) = some pr.2 := by
        rw [walk_append, hw₀]
        show walk t.automaton s₀ [pr.1] = some pr.2
        rw [walk_single]
        exact hlook
      have hchildne : w₀ ++ [pr.1] ≠ [] := by simp
      have hs₀depth : w₀.length ≤ s₀ := by
        have := walk_depth t.automaton (fun s a d ht => (hm.edges s a d ht).1) w₀ 0 s₀ hw₀
        omega
      have hs₀lt : s₀ < t.automaton.size :=
        walk_lt_size t.automaton hm w₀ 0 s₀ hw₀ hm.size_pos
      -- the front is link-correct in u
      have hfront : LinkCorr t u s₀ w₀ := by
        refine hc w₀ s₀ hw₀ne hw₀ ?_ ?_ ?_
        · intro we hwe
          intro hcontra
          have h1 := hws'len we hwe
          have h2 := List.IsPrefix.length_le hcontra.1
          omega
        · intro pr' _
          intro hcontra
          have h2 := List.IsPrefix.length_le hcontra.1
          simp at h2
        · intro pr' _
          intro hcontra
          have h2 := List.IsPrefix.length_le hcontra
          simp at h2
      -- the suffix chain of lps w₀ is link-correct in u
      obtain ⟨hp1, hp2, hp3, hp4⟩ := lps_spec t w₀ hw₀ne
      obtain ⟨s₁, hs₁⟩ := Option.isSome_iff_exists.mp hp3
      have hchain : ∀ v s', v ≠ [] → v <:+ lps t w₀ → walk t.automaton 0 v = some s' →
          (u.attrs s').suffixLink = stateOf t (lps t v) := by
        intro v s' hvne hvsfx hv
        have hvlen : v.length ≤ (lps t w₀).length := List.IsSuffix.length_le hvsfx
        refine (hc v s' hvne hv ?_ ?_ ?_).1
        · intro we hwe
          intro hcontra
          have h1 := hws'len we hwe
          omega
        · intro pr' _
          intro hcontra
          have h2 := List.IsPrefix.length_le hcontra.1
          simp at h2
          omega
        · intro pr' _
          intro hcontra
          have h2 := List.IsPrefix.length_le hcontra
          simp at h2
          omega
      have hstate₁ : stateOf t (lps t w₀) = s₁ := by
        unfold stateOf
        rw [hs₁]
        rfl
      have hacnext : acNext u u.automaton.size s₁ pr.1 =
          (acNextSpec t (lps t w₀) pr.1, true) := by
        refine acNext_spec t u hauto hm pr.1 u.automaton.size (lps t w₀) s₁ hs₁ ?_ hchain
        rw [hauto]
        omega
      have hsl_val : (acNext u u.automaton.size ((u.attrs s₀).suffixLink) pr.1).1 =
          stateOf t (lps t (w₀ ++ [pr.1])) := by
        rw [hfront.1, hstate₁, hacnext, stateOf_lps_snoc t w₀ pr.1 hw₀ne]
      -- the lps of the child word and its state are link-correct (or the root)
      obtain ⟨hq1, hq2, hq3, hq4⟩ := lps_spec t (w₀ ++ [pr.1]) hchildne
      obtain ⟨s₂, hs₂⟩ := Option.isSome_iff_exists.mp hq3
      have hstate₂ : stateOf t (lps t (w₀ ++ [pr.1])) = s₂ := by
        unfold stateOf
        rw [hs₂]
        rfl
      have hq2' : (lps t (w₀ ++ [pr.1])).length ≤ w₀.length := by
        have : (w₀ ++ [pr.1]).length = w₀.length + 1 := by simp
        omega
      have hslCorr : (u.attrs s₂).acceptSuffixLink = accSpec t (lps t (w₀ ++ [pr.1])) := by
        by_cases hvl : lps t (w₀ ++ [pr.1]) = []
        · rw [hvl]
          rw [hvl] at hs₂
          have : s₂ = 0 := by
            simp [walk] at hs₂
            omega
          rw [this, hroot2, accSpec_short t [] (by simp)]
        · refine (hc (lps t (w₀ ++ [pr.1])) s₂ hvl hs₂ ?_ ?_ ?_).2
          · intro we hwe
            intro hcontra
            have h1 := hws'len we hwe
            omega
          · intro pr' _
            intro hcontra
            have h2 := List.IsPrefix.length_le hcontra.1
            simp at h2
            omega
          · intro pr' _
            intro hcontra
            have h2 := List.IsPrefix.length_le hcontra
            simp at h2
            omega
      -- the updated trie
      rw [List.foldl_cons, linkStep_eq]
      have hchildCorr : LinkCorr t (updateAttr u pr.2 (fun a =>
          { a with
              suffixLink := (acNext u u.automaton.size ((u.attrs s₀).suffixLink) pr.1).1
              acceptSuffixLink :=
                if (u.attrs ((acNext u u.automaton.size
                    ((u.attrs s₀).suffixLink) pr.1).1)).isAccept
                then (acNext u u.automaton.size ((u.attrs s₀).suffixLink) pr.1).1
                else (u.attrs ((acNext u u.automaton.size
                  ((u.attrs s₀).suffixLink) pr.1).1)).acceptSuffixLink }))
          pr.2 (w₀ ++ [pr.1]) := by
        constructor
        · rw [updateAttr_attrs, if_pos rfl]
          show (acNext u u.automaton.size ((u.attrs s₀).suffixLink) pr.1).1 = _
          exact hsl_val
        · rw [updateAttr_attrs, if_pos rfl]
          show (if (u.attrs ((acNext u u.automaton.size
                ((u.attrs s₀).suffixLink) pr.1).1)).isAccept
              then (acNext u u.automaton.size ((u.attrs s₀).suffixLink) pr.1).1
              else (u.attrs ((acNext u u.automaton.size
                ((u.attrs s₀).suffixLink) pr.1).1)).acceptSuffixLink) =
            accSpec t (w₀ ++ [pr.1])
          rw [hsl_val, hstate₂, hae s₂,
            accSpec_unfold t (w₀ ++ [pr.1]) (by
              cases w₀ with
              | nil => exact absurd rfl hw₀ne
              | cons c wr => simp), hstate₂, hslCorr]
      -- apply the induction hypothesis to the updated accumulator
      set u₁ : Trie := updateAttr u pr.2 (fun a =>
          { a with
              suffixLink := (acNext u u.automaton.size ((u.attrs s₀).suffixLink) pr.1).1
              acceptSuffixLink :=
                if (u.attrs ((acNext u u.automaton.size
                    ((u.attrs s₀).suffixLink) pr.1).1)).isAccept
                then (acNext u u.automaton.size ((u.attrs s₀).suffixLink) pr.1).1
                else (u.attrs ((acNext u u.automaton.size
                  ((u.attrs s₀).suffixLink) pr.1).1)).acceptSuffixLink }) with hu₁
      have hrow₁ : t.automaton.row s₀ = (l₁ ++ [pr]) ++ l₂' := by
        rw [hrow]
        simp
      have hauto₁ : u₁.automaton = t.automaton := hauto
      have hae₁ : ∀ x, (u₁.attrs x).isAccept = (t.attrs x).isAccept := by
        intro x
        rw [hu₁, updateAttr_attrs]
        by_cases hx : x = pr.2
        · rw [if_pos hx]
          exact hae x
        · rw [if_neg hx]
          exact hae x
      have hroot₁ : (u₁.attrs 0).suffixLink = 0 := by
        rw [hu₁, updateAttr_attrs, if_neg (by omega)]
        exact hroot1
      have hroot₂ : (u₁.attrs 0).acceptSuffixLink = notSet := by
        rw [hu₁, updateAttr_attrs, if_neg (by omega)]
        exact hroot2
      have hc₁ : ∀ v s', v ≠ [] → walk t.automaton 0 v = some s' →
          (∀ we, we ∈ ws' → ¬(we <+: v ∧ we.length < v.length)) →
          (∀ pr', pr' ∈ l₁ ++ [pr] →
            ¬((w₀ ++ [pr'.1]) <+: v ∧ (w₀ ++ [pr'.1]).length < v.length)) →
          (∀ pr', pr' ∈ l₂' → ¬((w₀ ++ [pr'.1]) <+: v)) →
          LinkCorr t u₁ s' v := by
        intro v s' hvne hv hgw hgl₁ hgl₂
        by_cases hsd : s' = pr.2
        · have hveq : v = w₀ ++ [pr.1] :=
            walk_inj t.automaton hm v (w₀ ++ [pr.1]) pr.2 (hsd ▸ hv) hwchild
          rw [hveq, hsd]
          exact hchildCorr
        · have hattr : u₁.attrs s' = u.attrs s' := by
            rw [hu₁, updateAttr_attrs, if_neg hsd]
          have hold : LinkCorr t u s' v := by
            refine hc v s' hvne hv hgw ?_ ?_
            · intro pr' hpr'
              exact hgl₁ pr' (List.mem_append_left _ hpr')
            · intro pr' hpr'
              rcases List.mem_cons.mp hpr' with h1 | h1
              · subst h1
                intro hcontra
                by_cases hlen : (w₀ ++ [pr'.1]).length < v.length
                · exact hgl₁ pr' (List.mem_append_right _ (List.mem_cons_self _ _))
                    ⟨hcontra, hlen⟩
                · have h2 := List.IsPrefix.length_le hcontra
                  have hveq : v = w₀ ++ [pr'.1] :=
                    (List.prefix_iff_eq_take.mp hcontra) ▸ (by
                      rw [List.take_of_length_le (by omega)])
                  rw [hveq] at hv
                  rw [hwchild] at hv
                  exact hsd (Option.some.inj hv).symm
              · exact hgl₂ pr' h1
          constructor
          · rw [hattr]
            exact hold.1
          · rw [hattr]
            exact hold.2
      obtain ⟨k1, k2, k3, k4, k5, k6, k7, k8, k9⟩ :=
        ih (l₁ ++ [pr]) u₁ (qacc ++ [pr.2]) hrow₁ hauto₁ hae₁ hroot₁ hroot₂ hc₁
      refine ⟨?_, k2, k3, k4, k5, ?_, ?_, ?_, k9⟩
      · rw [k1]
        simp
      · rw [k6, hu₁]
        rfl
      · rw [k7, hu₁]
        rfl
      · rw [k8, hu₁]
        rfl

theorem pairwise_of_forall {α : Type} (R : α → α → Prop) :
    ∀ l : List α, (∀ a ∈ l, ∀ b ∈ l, R a b) → l.Pairwise R := by
  intro l
  induction l with
  | nil => intro _; exact List.Pairwise.nil
  | cons x l' ih =>
      intro h
      refine List.Pairwise.cons ?_ (ih ?_)
      · intro b hb
        exact h x (List.mem_cons_self _ _) b (List.mem_cons_of_mem _ hb)
      · intro a ha b hb
        exact h a (List.mem_cons_of_mem _ ha) b (List.mem_cons_of_mem _ hb)

theorem prefix_eq_of_length {w₁ w₂ v : List Symbol} (h1 : w₁ <+: v) (h2 : w₂ <+: v)
    (hlen : w₁.length = w₂.length) : w₁ = w₂ := by
  rw [List.prefix_iff_eq_take.mp h1, List.prefix_iff_eq_take.mp h2, hlen]

theorem strict_prefix_decomp {w v : List Symbol} (h : w <+: v) (hlen : w.length < v.length) :
    ∃ x rest, v = w ++ x :: rest := by
  obtain ⟨rr, hrr⟩ := h
  cases rr with
  | nil =>
      rw [List.append_nil] at hrr
      subst hrr
      omega
  | cons x rest => exact ⟨x, rest, hrr.symm⟩

theorem buildLinksLoop_correct (t t0 : Trie) (hm : FsmInv t.automaton) :
    ∀ (fuel : Nat) (u : Trie) (ws : List (List Symbol)),
      (((ws.map (fun w => stateOf t w)).map
        (fun s => 2 ^ (t.automaton.size - s))).sum ≤ fuel) →
      u.automaton = t.automaton →
      (∀ x, (u.attrs x).isAccept = (t.attrs x).isAccept) →
      (u.attrs 0).suffixLink = 0 →
      (u.attrs 0).acceptSuffixLink = notSet →
      (∀ w, w ∈ ws → w ≠ [] ∧ (walk t.automaton 0 w).isSome) →
      ws.Nodup →
      (∀ w1, w1 ∈ ws → ∀ w2, w2 ∈ ws → ¬(w1 <+: w2 ∧ w1.length < w2.length)) →
      List.Pairwise (fun a b => a.length ≤ b.length) ws →
      (∀ w1, w1 ∈ ws → ∀ w2, w2 ∈ ws → w2.length ≤ w1.length + 1) →
      (∀ v s', v ≠ [] → walk t.automaton 0 v = some s' →
        (∀ we, we ∈ ws → ¬(we <+: v ∧ we.length < v.length)) →
        LinkCorr t u s' v) →
      (buildLinksLoop t0 fuel u (ws.map (fun w => stateOf t w))).automaton = t.automaton ∧
      (∀ x, ((buildLinksLoop t0 fuel u (ws.map (fun w => stateOf t w))).attrs x).isAccept
        = (t.attrs x).isAccept) ∧
      ((buildLinksLoop t0 fuel u (ws.map (fun w => stateOf t w))).attrs 0).suffixLink = 0 ∧
      ((buildLinksLoop t0 fuel u (ws.map (fun w => stateOf t w))).attrs 0).acceptSuffixLink
        = notSet ∧
      (buildLinksLoop t0 fuel u (ws.map (fun w => stateOf t w))).values = u.values ∧
      (buildLinksLoop t0 fuel u (ws.map (fun w => stateOf t w))).valueIdx = u.valueIdx ∧
      (buildLinksLoop t0 fuel u (ws.map (fun w => stateOf t w))).reachable = u.reachable ∧
      (∀ v s', v ≠ [] → walk t.automaton 0 v = some s' →
        LinkCorr t (buildLinksLoop t0 fuel u (ws.map (fun w => stateOf t w))) s' v) := by
  intro fuel
  induction fuel with
  | zero =>
      intro u ws hmeas hauto hae hroot1 hroot2 hwords hnd hnoext hsort hrange hc
      cases ws with
      | nil =>
          refine ⟨hauto, hae, hroot1, hroot2, rfl, rfl, rfl, ?_⟩
          intro v s' hvne hv
          exact hc v s' hvne hv (by intro we hwe; simp at hwe)
      | cons w₀ ws' =>
          exfalso
          rw [List.map_cons, List.map_cons, List.sum_cons] at hmeas
          have h1 : 1 ≤ 2 ^ (t.automaton.size - stateOf t w₀) := Nat.one_le_two_pow
          omega
  | succ fuel ih =>
      intro u ws hmeas hauto hae hroot1 hroot2 hwords hnd hnoext hsort hrange hc
      cases ws with
      | nil =>
          refine ⟨hauto, hae, hroot1, hroot2, rfl, rfl, rfl, ?_⟩
          intro v s' hvne hv
          exact hc v s' hvne hv (by intro we hwe; simp at hwe)
      | cons w₀ ws' =>
          obtain ⟨hw₀ne, hw₀some⟩ := hwords w₀ (List.mem_cons_self _ _)
          obtain ⟨s₀, hw₀⟩ := Option.isSome_iff_exists.mp hw₀some
          have hstate₀ : stateOf t w₀ = s₀ := by
            unfold stateOf
            rw [hw₀]
            rfl
          have hs₀lt : s₀ < t.automaton.size :=
            walk_lt_size t.automaton hm w₀ 0 s₀ hw₀ hm.size_pos
          have hms : 2 ≤ 2 ^ (t.automaton.size - s₀) := by
            calc (2 : Nat) = 2 ^ 1 := by norm_num
              _ ≤ 2 ^ (t.automaton.size - s₀) := Nat.pow_le_pow_right (by omega) (by omega)
          rw [List.map_cons, hstate₀]
          rw [buildLinksLoop_cons, hauto]
          -- the fold over the dequeued state's transitions
          have hws'len : ∀ we ∈ ws', w₀.length ≤ we.length := by
            have hp := List.pairwise_cons.mp hsort
            exact hp.1
          have hcfold : ∀ v s', v ≠ [] → walk t.automaton 0 v = some s' →
              (∀ we, we ∈ ws' → ¬(we <+: v ∧ we.length < v.length)) →
              (∀ pr', pr' ∈ ([] : List (Symbol × Nat)) →
                ¬((w₀ ++ [pr'.1]) <+: v ∧ (w₀ ++ [pr'.1]).length < v.length)) →
              (∀ pr', pr' ∈ t.automaton.row s₀ → ¬((w₀ ++ [pr'.1]) <+: v)) →
              LinkCorr t u s' v := by
            intro v s' hvne hv hgw _ hgrow
            refine hc v s' hvne hv ?_
            intro we hwe
            rcases List.mem_cons.mp hwe with h1 | h1
            · subst h1
              intro hcontra
              obtain ⟨x, rest, hveq⟩ := strict_prefix_decomp hcontra.1 hcontra.2
              have hvx : (walk t.automaton 0 (we ++ [x])).isSome := by
                have hv' := hv
                rw [hveq] at hv'
                have hsplit : we ++ x :: rest = (we ++ [x]) ++ rest := by
                  rw [List.append_assoc]
                  rfl
                rw [hsplit] at hv'
                obtain ⟨z, hz⟩ := walk_isSome_of_append t.automaton (we ++ [x]) rest s' hv'
                rw [hz]
                rfl
              obtain ⟨d, hd⟩ := Option.isSome_iff_exists.mp hvx
              have hlook : lookupSym x (t.automaton.row s₀) = some d := by
                have h2 := walk_append t.automaton we [x] 0
                rw [hw₀, hd] at h2
                rw [← walk_single]
                exact h2.symm
              have hmemrow : (x, d) ∈ t.automaton.row s₀ := lookupSym_mem x d _ hlook
              refine hgrow (x, d) hmemrow ?_
              show (we ++ [x]) <+: v
              rw [hveq]
              exact ⟨rest, by simp⟩
            · exact hgw we h1
          obtain ⟨k1, k2, k3, k4, k5, k6, k7, k8, k9⟩ :=
            links_fold t hm w₀ s₀ hw₀ hw₀ne ws' hws'len (t.automaton.row s₀) [] u
              (ws'.map (fun w => stateOf t w)) (by simp) hauto hae hroot1 hroot2 hcfold
          -- identify the new queue with the new word list
          set childWords : List (List Symbol) :=
            (t.automaton.row s₀).map (fun pr => w₀ ++ [pr.1]) with hcw
          have hchildwalk : ∀ pr, pr ∈ t.automaton.row s₀ →
              walk t.automaton 0 (w₀ ++ [pr.1]) = some pr.2 := by
            intro pr hpr
            have hlook : lookupSym pr.1 (t.automaton.row s₀) = some pr.2 :=
              mem_lookupSym pr.1 pr.2 _ (hm.rows_nodup s₀) hpr
            rw [walk_append, hw₀]
            show walk t.automaton s₀ [pr.1] = some pr.2
            rw [walk_single]
            exact hlook
          have hq2 : ((t.automaton.row s₀).foldl (linkStep s₀)
              (u, ws'.map (fun w => stateOf t w))).2 =
              (ws' ++ childWords).map (fun w => stateOf t w) := by
            rw [k1, List.map_append]
            have hmm : childWords.map (fun w => stateOf t w) =
                (t.automaton.row s₀).map Prod.snd := by
              rw [hcw, List.map_map]
              refine List.map_congr_left ?_
              intro pr hpr
              show stateOf t (w₀ ++ [pr.1]) = pr.2
              unfold stateOf
              rw [hchildwalk pr hpr]
              rfl
            rw [hmm]
          rw [hq2]
          -- properties of the child words
          have hchildlen : ∀ we, we ∈ childWords → we.length = w₀.length + 1 := by
            intro we hwe
            obtain ⟨pr, _, h2⟩ := List.mem_map.mp hwe
            rw [← h2]
            simp
          have hchildne : ∀ we, we ∈ childWords → we ≠ [] := by
            intro we hwe
            have := hchildlen we hwe
            intro h
            rw [h] at this
            simp at this
          have hchildsome : ∀ we, we ∈ childWords → (walk t.automaton 0 we).isSome := by
            intro we hwe
            obtain ⟨pr, hpr, h2⟩ := List.mem_map.mp hwe
            rw [← h2, hchildwalk pr hpr]
            rfl
          have hchildpre : ∀ we, we ∈ childWords → w₀ <+: we ∧ w₀.length < we.length := by
            intro we hwe
            obtain ⟨pr, hpr, h2⟩ := List.mem_map.mp hwe
            constructor
            · rw [← h2]
              exact ⟨[pr.1], rfl⟩
            · rw [hchildlen we hwe]
              omega
          have hw₀notin : w₀ ∉ ws' := (List.nodup_cons.mp hnd).1
          have hnd' : ws'.Nodup := (List.nodup_cons.mp hnd).2
          -- measure for the recursive call
          have hdest_bound : (((t.automaton.row s₀).map Prod.snd).map
              (fun s => 2 ^ (t.automaton.size - s))).sum ≤
              2 ^ (t.automaton.size - s₀) - 2 := by
            refine pow_sum_bound t.automaton.size (t.automaton.size - s₀) s₀ (by omega) _
              (row_dests_nodup t.automaton hm s₀) ?_
            intro d hd
            obtain ⟨pr, hpr, h2⟩ := List.mem_map.mp hd
            subst h2
            exact hm.edges s₀ pr.1 pr.2
              (mem_lookupSym pr.1 pr.2 _ (hm.rows_nodup s₀) hpr)
          have hmeas' : (((ws' ++ childWords).map (fun w => stateOf t w)).map
              (fun s => 2 ^ (t.automaton.size - s))).sum ≤ fuel := by
            rw [List.map_cons, hstate₀, List.map_cons, List.sum_cons] at hmeas
            rw [List.map_append, List.map_append, List.sum_append]
            have hcweq : (childWords.map (fun w => stateOf t w)).map
                (fun s => 2 ^ (t.automaton.size - s)) =
                ((t.automaton.row s₀).map Prod.snd).map
                  (fun s => 2 ^ (t.automaton.size - s)) := by
              have hmm : childWords.map (fun w => stateOf t w) =
                  (t.automaton.row s₀).map Prod.snd := by
                rw [hcw, List.map_map]
                refine List.map_congr_left ?_
                intro pr hpr
                show stateOf t (w₀ ++ [pr.1]) = pr.2
                unfold stateOf
                rw [hchildwalk pr hpr]
                rfl
              rw [hmm]
            rw [hcweq]
            omega
          -- remaining invariants for the recursive call
          have hwords' : ∀ w, w ∈ ws' ++ childWords → w ≠ [] ∧ (walk t.automaton 0 w).isSome := by
            intro w hw
            rcases List.mem_append.mp hw with h1 | h1
            · exact hwords w (List.mem_cons_of_mem _ h1)
            · exact ⟨hchildne w h1, hchildsome w h1⟩
          have hnodup' : (ws' ++ childWords).Nodup := by
            rw [List.nodup_append]
            refine ⟨hnd', ?_, ?_⟩
            · rw [hcw]
              have hfst : ((t.automaton.row s₀).map Prod.fst).Nodup := hm.rows_nodup s₀
              have : childWords = ((t.automaton.row s₀).map Prod.fst).map
                  (fun x => w₀ ++ [x]) := by
                rw [hcw, List.map_map]
                rfl
              rw [hcw] at this
              rw [this]
              refine List.Nodup.map ?_ hfst
              intro x y hxy
              have := List.append_cancel_left hxy
              simpa using this
            · intro w1 hw1 hw1c
              have hpre := hchildpre w1 hw1c
              exact hnoext w₀ (List.mem_cons_self _ _) w1 (List.mem_cons_of_mem _ hw1)
                ⟨hpre.1, hpre.2⟩
          have hnoext' : ∀ w1, w1 ∈ ws' ++ childWords → ∀ w2, w2 ∈ ws' ++ childWords →
              ¬(w1 <+: w2 ∧ w1.length < w2.length) := by
            intro w1 hw1 w2 hw2
            rcases List.mem_append.mp hw1 with h1 | h1 <;>
              rcases List.mem_append.mp hw2 with h2 | h2
            · exact hnoext w1 (List.mem_cons_of_mem _ h1) w2 (List.mem_cons_of_mem _ h2)
            · intro hcontra
              have hlen2 := hchildlen w2 h2
              have hlen1 := hws'len w1 h1
              have hle : w1.length ≤ w₀.length := by omega
              have hw1w0 : w1 = w₀ := by
                refine prefix_eq_of_length hcontra.1 (hchildpre w2 h2).1 ?_
                omega
              subst hw1w0
              exact hw₀notin h1
            · intro hcontra
              have hlen1 := hchildlen w1 h1
              have hlen2 := hrange w₀ (List.mem_cons_self _ _) w2 (List.mem_cons_of_mem _ h2)
              omega
            · intro hcontra
              have hlen1 := hchildlen w1 h1
              have hlen2 := hchildlen w2 h2
              omega
          have hsort' : List.Pairwise (fun a b => a.length ≤ b.length) (ws' ++ childWords) := by
            rw [List.pairwise_append]
            refine ⟨(List.pairwise_cons.mp hsort).2, ?_, ?_⟩
            · refine pairwise_of_forall _ _ ?_
              intro a ha b hb
              rw [hchildlen a ha, hchildlen b hb]
            · intro a ha b hb
              have h1 := hrange w₀ (List.mem_cons_self _ _) a (List.mem_cons_of_mem _ ha)
              rw [hchildlen b hb]
              omega
          have hrange' : ∀ w1, w1 ∈ ws' ++ childWords → ∀ w2, w2 ∈ ws' ++ childWords →
              w2.length ≤ w1.length + 1 := by
            intro w1 hw1 w2 hw2
            rcases List.mem_append.mp hw1 with h1 | h1 <;>
              rcases List.mem_append.mp hw2 with h2 | h2
            · exact hrange w1 (List.mem_cons_of_mem _ h1) w2 (List.mem_cons_of_mem _ h2)
            · have := hws'len w1 h1
              rw [hchildlen w2 h2]
              omega
            · have h3 := hrange w₀ (List.mem_cons_self _ _) w2 (List.mem_cons_of_mem _ h2)
              rw [hchildlen w1 h1]
              omega
            · rw [hchildlen w1 h1, hchildlen w2 h2]
              omega
          have hc' : ∀ v s', v ≠ [] → walk t.automaton 0 v = some s' →
              (∀ we, we ∈ ws' ++ childWords → ¬(we <+: v ∧ we.length < v.length)) →
              LinkCorr t ((t.automaton.row s₀).foldl (linkStep s₀)
                (u, ws'.map (fun w => stateOf t w))).1 s' v := by
            intro v s' hvne hv hg
            refine k9 v s' hvne hv ?_ ?_
            · intro we hwe
              exact hg we (List.mem_append_left _ hwe)
            · intro pr' hpr'
              refine hg (w₀ ++ [pr'.1]) (List.mem_append_right _ ?_)
              rw [hcw]
              exact List.mem_map.mpr ⟨pr', hpr', rfl⟩
          obtain ⟨m1, m2, m3, m4, m5, m6, m7, m8⟩ :=
            ih (((t.automaton.row s₀).foldl (linkStep s₀)
              (u, ws'.map (fun w => stateOf t w))).1) (ws' ++ childWords)
              hmeas' k2 k3 k4 k5 hwords' hnodup' hnoext' hsort' hrange' hc'
          refine ⟨m1, m2, m3, m4, ?_, ?_, ?_, m8⟩
          · rw [m5, k6]
          · rw [m6, k7]
          · rw [m7, k8]

theorem foldl_setSuffix (L : List Nat) :
    ∀ u : Trie,
      (L.foldl (fun u d => updateAttr u d (fun a => { a with suffixLink := 0 })) u).automaton
        = u.automaton ∧
      (L.foldl (fun u d => updateAttr u d (fun a => { a with suffixLink := 0 })) u).values
        = u.values ∧
      (L.foldl (fun u d => updateAttr u d (fun a => { a with suffixLink := 0 })) u).valueIdx
        = u.valueIdx ∧
      (L.foldl (fun u d => updateAttr u d (fun a => { a with suffixLink := 0 })) u).reachable
        = u.reachable ∧
      ∀ x, (L.foldl (fun u d => updateAttr u d (fun a => { a with suffixLink := 0 })) u).attrs x
        = if x ∈ L then { u.attrs x with suffixLink := 0 } else u.attrs x := by
  induction L with
  | nil =>
      intro u
      refine ⟨rfl, rfl, rfl, rfl, ?_⟩
      intro x
      rw [if_neg (by simp)]
      rfl
  | cons d L' ih =>
      intro u
      rw [List.foldl_cons]
      obtain ⟨i1, i2, i3, i4, i5⟩ := ih (updateAttr u d (fun a => { a with suffixLink := 0 }))
      refine ⟨i1, i2, i3, i4, ?_⟩
      intro x
      rw [i5 x, updateAttr_attrs]
      by_cases hxL : x ∈ L'
      · rw [if_pos hxL, if_pos (List.mem_cons_of_mem _ hxL)]
        by_cases hxd : x = d
        · rw [if_pos hxd]
        · rw [if_neg hxd]
      · rw [if_neg hxL]
        by_cases hxd : x = d
        · rw [if_pos hxd, if_pos (by rw [hxd]; exact List.mem_cons_self _ _)]
        · rw [if_neg hxd, if_neg (by
            intro hmem
            rcases List.mem_cons.mp hmem with h1 | h1
            · exact hxd h1
            · exact hxL h1)]

theorem lps_singleton (t : Trie) (b : Symbol) : lps t [b] = [] := by
  rw [lps_cons]
  unfold lss
  have htn : ([] : List Symbol).tails = [[]] := rfl
  rw [htn, find?_cons_pos (fun v => (walk t.automaton 0 v).isSome) [] [] rfl]
  rfl

theorem buildSuffixLinks_correct (t : Trie) (hm : FsmInv t.automaton)
    (hinit : ∀ x, (t.attrs x).suffixLink = notSet ∧ (t.attrs x).acceptSuffixLink = notSet) :
    (buildSuffixLinks t).automaton = t.automaton ∧
    (∀ x, ((buildSuffixLinks t).attrs x).isAccept = (t.attrs x).isAccept) ∧
    ((buildSuffixLinks t).attrs 0).suffixLink = 0 ∧
    ((buildSuffixLinks t).attrs 0).acceptSuffixLink = notSet ∧
    (buildSuffixLinks t).values = t.values ∧
    (buildSuffixLinks t).valueIdx = t.valueIdx ∧
    (buildSuffixLinks t).reachable = t.reachable ∧
    (∀ v s', v ≠ [] → walk t.automaton 0 v = some s' →
      LinkCorr t (buildSuffixLinks t) s' v) := by
  set t₀ : Trie := updateAttr t 0 (fun a => { a with suffixLink := 0 }) with ht₀
  set RC : List Nat := (t₀.automaton.row 0).map Prod.snd with hRC
  set t₁ : Trie := RC.foldl
    (fun u d => updateAttr u d (fun a => { a with suffixLink := 0 })) t₀ with ht₁
  have hbs : buildSuffixLinks t = buildLinksLoop t₁ (2 ^ t₁.automaton.size) t₁ RC := rfl
  have ht₀auto : t₀.automaton = t.automaton := rfl
  obtain ⟨f1, f2, f3, f4, f5⟩ := foldl_setSuffix RC t₀
  have ht₁auto : t₁.automaton = t.automaton := by
    rw [ht₁, f1]
    exact ht₀auto
  have hRC' : RC = (t.automaton.row 0).map Prod.snd := by
    rw [hRC, ht₀auto]
  have hRCmem : ∀ d, d ∈ RC → ∃ b, lookupSym b (t.automaton.row 0) = some d := by
    intro d hd
    rw [hRC'] at hd
    obtain ⟨pr, hpr, h2⟩ := List.mem_map.mp hd
    subst h2
    exact ⟨pr.1, mem_lookupSym pr.1 pr.2 _ (hm.rows_nodup 0) hpr⟩
  have hRCbound : ∀ d, d ∈ RC → 0 < d ∧ d < t.automaton.size := by
    intro d hd
    obtain ⟨b, hb⟩ := hRCmem d hd
    exact hm.edges 0 b d hb
  -- the word list of the initial queue
  set ws : List (List Symbol) := (t.automaton.row 0).map (fun pr => [pr.1]) with hws
  have hwsmap : ws.map (fun w => stateOf t w) = RC := by
    rw [hws, hRC', List.map_map]
    refine List.map_congr_left ?_
    intro pr hpr
    show stateOf t [pr.1] = pr.2
    unfold stateOf
    rw [walk_single, mem_lookupSym pr.1 pr.2 _ (hm.rows_nodup 0) hpr]
    rfl
  -- attrs of t₁
  have ht₁attrs : ∀ x, t₁.attrs x =
      if x ∈ RC then { t.attrs x with suffixLink := 0 }
      else if x = 0 then { t.attrs x with suffixLink := 0 }
      else t.attrs x := by
    intro x
    rw [ht₁, f5 x]
    by_cases hx : x ∈ RC
    · rw [if_pos hx, if_pos hx]
      have hx0 : x ≠ 0 := by
        have := hRCbound x hx
        omega
      rw [ht₀, updateAttr_attrs, if_neg hx0]
    · rw [if_neg hx, if_neg hx, ht₀, updateAttr_attrs]
  have ht₁root1 : (t₁.attrs 0).suffixLink = 0 := by
    rw [ht₁attrs 0]
    by_cases h0 : (0 : Nat) ∈ RC
    · rw [if_pos h0]
    · rw [if_neg h0, if_pos rfl]
  have ht₁root2 : (t₁.attrs 0).acceptSuffixLink = notSet := by
    rw [ht₁attrs 0]
    by_cases h0 : (0 : Nat) ∈ RC
    · rw [if_pos h0]
      exact (hinit 0).2
    · rw [if_neg h0, if_pos rfl]
      exact (hinit 0).2
  have ht₁ae : ∀ x, (t₁.attrs x).isAccept = (t.attrs x).isAccept := by
    intro x
    rw [ht₁attrs x]
    by_cases hx : x ∈ RC
    · rw [if_pos hx]
    · rw [if_neg hx]
      by_cases hx0 : x = 0
      · rw [if_pos hx0]
      · rw [if_neg hx0]
  -- hypotheses about the initial word list
  have hwords : ∀ w, w ∈ ws → w ≠ [] ∧ (walk t.automaton 0 w).isSome := by
    intro w hw
    rw [hws] at hw
    obtain ⟨pr, hpr, h2⟩ := List.mem_map.mp hw
    subst h2
    refine ⟨by simp, ?_⟩
    rw [walk_single, mem_lookupSym pr.1 pr.2 _ (hm.rows_nodup 0) hpr]
    rfl
  have hwlen : ∀ w, w ∈ ws → w.length = 1 := by
    intro w hw
    rw [hws] at hw
    obtain ⟨pr, _, h2⟩ := List.mem_map.mp hw
    rw [← h2]
    rfl
  have hnd : ws.Nodup := by
    rw [hws]
    have : (t.automaton.row 0).map (fun pr => ([pr.1] : List Symbol)) =
        ((t.automaton.row 0).map Prod.fst).map (fun b => [b]) := by
      rw [List.map_map]
      rfl
    rw [this]
    refine List.Nodup.map ?_ (hm.rows_nodup 0)
    intro x y hxy
    simpa using hxy
  have hnoext : ∀ w1, w1 ∈ ws → ∀ w2, w2 ∈ ws → ¬(w1 <+: w2 ∧ w1.length < w2.length) := by
    intro w1 hw1 w2 hw2
    intro hcontra
    rw [hwlen w1 hw1, hwlen w2 hw2] at hcontra
    omega
  have hsort : List.Pairwise (fun a b => a.length ≤ b.length) ws := by
    refine pairwise_of_forall _ _ ?_
    intro a ha b hb
    rw [hwlen a ha, hwlen b hb]
  have hrange : ∀ w1, w1 ∈ ws → ∀ w2, w2 ∈ ws → w2.length ≤ w1.length + 1 := by
    intro w1 hw1 w2 hw2
    rw [hwlen w1 hw1, hwlen w2 hw2]
    omega
  have hc : ∀ v s', v ≠ [] → walk t.automaton 0 v = some s' →
      (∀ we, we ∈ ws → ¬(we <+: v ∧ we.length < v.length)) →
      LinkCorr t t₁ s' v := by
    intro v s' hvne hv hg
    match v, hvne with
    | b :: v', _ =>
      cases v' with
      | cons c v'' =>
          exfalso
          have hbwalk : (walk t.automaton 0 [b]).isSome := by
            have hv' := hv
            have hsplit : b :: c :: v'' = [b] ++ (c :: v'') := rfl
            rw [hsplit] at hv'
            obtain ⟨z, hz⟩ := walk_isSome_of_append t.automaton [b] (c :: v'') s' hv'
            rw [hz]
            rfl
          obtain ⟨d, hd⟩ := Option.isSome_iff_exists.mp hbwalk
          rw [walk_single] at hd
          have hmemrow : (b, d) ∈ t.automaton.row 0 := lookupSym_mem b d _ hd
          refine hg [b] ?_ ⟨⟨c :: v'', rfl⟩, by simp⟩
          rw [hws]
          exact List.mem_map.mpr ⟨(b, d), hmemrow, rfl⟩
      | nil =>
          -- v = [b] : a root child
          have hd : lookupSym b (t.automaton.row 0) = some s' := by
            rw [← walk_single]
            exact hv
          have hmemrow : (b, s') ∈ t.automaton.row 0 := lookupSym_mem b s' _ hd
          have hsRC : s' ∈ RC := by
            rw [hRC']
            exact List.mem_map.mpr ⟨(b, s'), hmemrow, rfl⟩
          constructor
          · rw [ht₁attrs s', if_pos hsRC]
            show (0 : Nat) = stateOf t (lps t [b])
            rw [lps_singleton]
            rfl
          · rw [ht₁attrs s', if_pos hsRC]
            show (t.attrs s').acceptSuffixLink = accSpec t [b]
            rw [(hinit s').2, accSpec_short t [b] (by simp)]
  -- the measure fits in the fuel
  have hmeas : ((ws.map (fun w => stateOf t w)).map
      (fun s => 2 ^ (t.automaton.size - s))).sum ≤ 2 ^ t.automaton.size := by
    rw [hwsmap]
    have hb : ((RC.map (fun s => 2 ^ (t.automaton.size - s)))).sum ≤
        2 ^ t.automaton.size - 2 := by
      rw [hRC']
      refine pow_sum_bound t.automaton.size t.automaton.size 0 (by omega) _
        (row_dests_nodup t.automaton hm 0) ?_
      intro d hd
      obtain ⟨pr, hpr, h2⟩ := List.mem_map.mp hd
      subst h2
      exact hm.edges 0 pr.1 pr.2 (mem_lookupSym pr.1 pr.2 _ (hm.rows_nodup 0) hpr)
    exact le_trans hb (Nat.sub_le _ _)
  have hfuel : 2 ^ t₁.automaton.size = 2 ^ t.automaton.size := by rw [ht₁auto]
  obtain ⟨m1, m2, m3, m4, m5, m6, m7, m8⟩ :=
    buildLinksLoop_correct t t₁ hm (2 ^ t.automaton.size) t₁ ws hmeas ht₁auto ht₁ae
      ht₁root1 ht₁root2 hwords hnd hnoext hsort hrange hc
  rw [hbs, hfuel, ← hwsmap]
  have ht₁vals : t₁.values = t.values := by rw [ht₁, f2]; rfl
  have ht₁vidx : t₁.valueIdx = t.valueIdx := by rw [ht₁, f3]; rfl
  have ht₁reach : t₁.reachable = t.reachable := by rw [ht₁, f4]; rfl
  refine ⟨m1, m2, m3, m4, ?_, ?_, ?_, m8⟩
  · rw [m5, ht₁vals]
  · rw [m6, ht₁vidx]
  · rw [m7, ht₁reach]

theorem buildAho_facts (ps : List (List Symbol × Label)) :
    (buildAho ps).automaton = (buildTrie ps).automaton ∧
    (∀ x, ((buildAho ps).attrs x).isAccept = ((buildTrie ps).attrs x).isAccept) ∧
    ((buildAho ps).attrs 0).suffixLink = 0 ∧
    ((buildAho ps).attrs 0).acceptSuffixLink = notSet ∧
    (buildAho ps).values = (buildTrie ps).values ∧
    (buildAho ps).valueIdx = (buildTrie ps).valueIdx ∧
    (buildAho ps).reachable = (buildTrie ps).reachable ∧
    (∀ v s', v ≠ [] → walk (buildTrie ps).automaton 0 v = some s' →
      LinkCorr (buildTrie ps) (buildAho ps) s' v) :=
  buildSuffixLinks_correct (buildTrie ps) (inv_buildTrie ps).fsmInv (buildTrie_links ps)

/-- Claim C5: after link construction, the root's suffix link is the root, and
every non-root state `s` (reached by the non-empty word `w`) carries a suffix
link that is a valid state reached by a strictly shorter suffix `v` of `w`
that is present in the trie and is the longest such suffix (the empty suffix,
i.e. the root, when no non-empty present proper suffix exists). -/
theorem ac_suffix_links (ps : List (List Symbol × Label)) :
    ((buildAho ps).attrs 0).suffixLink = 0 ∧
    (∀ s, s < (buildAho ps).automaton.size → s ≠ 0 →
      ∃ w, walk (buildAho ps).automaton 0 w = some s ∧ w ≠ [] ∧
        ∃ v, v <:+ w ∧ v.length < w.length ∧
          ((buildAho ps).attrs s).suffixLink < (buildAho ps).automaton.size ∧
          walk (buildAho ps).automaton 0 v = some (((buildAho ps).attrs s).suffixLink) ∧
          (∀ v', v' <:+ w → v'.length < w.length →
            (walk (buildAho ps).automaton 0 v').isSome → v'.length ≤ v.length)) := by
  obtain ⟨hauto, hae, hroot1, hroot2, hv1, hv2, hv3, hcorr⟩ := buildAho_facts ps
  have hInv := inv_buildTrie ps
  refine ⟨hroot1, ?_⟩
  intro s hs hs0
  rw [hauto] at hs
  obtain ⟨w, k, hkK, hwpre, hwne, hwwalk⟩ := hInv.states_reached s hs hs0
  refine ⟨w, ?_, hwne, ?_⟩
  · rw [hauto]
    exact hwwalk
  obtain ⟨hp1, hp2, hp3, hp4⟩ := lps_spec (buildTrie ps) w hwne
  obtain ⟨s₁, hs₁⟩ := Option.isSome_iff_exists.mp hp3
  have hsl : ((buildAho ps).attrs s).suffixLink = s₁ := by
    rw [(hcorr w s hwne hwwalk).1]
    unfold stateOf
    rw [hs₁]
    rfl
  refine ⟨lps (buildTrie ps) w, hp1, hp2, ?_, ?_, ?_⟩
  · rw [hsl, hauto]
    exact walk_lt_size (buildTrie ps).automaton hInv.fsmInv _ 0 s₁ hs₁ hInv.fsmInv.size_pos
  · rw [hsl, hauto]
    exact hs₁
  · intro v' hsfx hlen hwalkable
    rw [hauto] at hwalkable
    exact hp4 v' hsfx hlen hwalkable

theorem ac_suffix_links_witness :
    ((buildAho [([1, 2], 5)]).attrs 0).suffixLink = 0 ∧
    (2 < (buildAho [([1, 2], 5)]).automaton.size ∧ (2 : Nat) ≠ 0) ∧
    (∃ w, walk (buildAho [([1, 2], 5)]).automaton 0 w = some 2 ∧ w ≠ [] ∧
      ∃ v, v <:+ w ∧ v.length < w.length ∧
        ((buildAho [([1, 2], 5)]).attrs 2).suffixLink <
          (buildAho [([1, 2], 5)]).automaton.size ∧
        walk (buildAho [([1, 2], 5)]).automaton 0 v =
          some (((buildAho [([1, 2], 5)]).attrs 2).suffixLink) ∧
        (∀ v', v' <:+ w → v'.length < w.length →
          (walk (buildAho [([1, 2], 5)]).automaton 0 v').isSome →
            v'.length ≤ v.length)) := by
  have h := ac_suffix_links [([1, 2], 5)]
  exact ⟨h.1, ⟨by decide, by decide⟩, h.2 2 (by decide) (by decide)⟩

theorem count_flatMap {α β : Type} [BEq β] (f : α → List β) (a : β) :
    ∀ l : List α, ((l.flatMap f).count a) = (l.map (fun x => (f x).count a)).sum := by
  intro l
  induction l with
  | nil => rfl
  | cons x l' ih =>
      rw [List.flatMap_cons, List.count_append, ih, List.map_cons, List.sum_cons]

theorem count_map_eq_countP {α : Type} (f : α → Nat) (a : Nat) :
    ∀ l : List α, (l.map f).count a = l.countP (fun x => decide (f x = a)) := by
  intro l
  induction l with
  | nil => rfl
  | cons x l' ih =>
      rw [List.map_cons, List.count_cons, List.countP_cons, ih]
      by_cases hx : f x = a
      · simp [hx]
      · simp [hx]

theorem nodup_tails (x : List Symbol) : x.tails.Nodup := by
  induction x with
  | nil => simp
  | cons c x' ih =>
      rw [List.tails_cons]
      refine List.nodup_cons.mpr ⟨?_, ih⟩
      intro hmem
      have hsfx : (c :: x') <:+ x' := List.mem_tails _ _ |>.mp hmem
      have := List.IsSuffix.length_le hsfx
      simp at this

theorem length_filter_eq_of_mem_iff {α : Type} [DecidableEq α] (p : α → Bool) :
    ∀ (l₁ l₂ : List α), l₁.Nodup → l₂.Nodup →
      (∀ a, a ∈ l₁ ↔ a ∈ l₂) → (l₁.filter p).length = (l₂.filter p).length := by
  intro l₁ l₂ h₁ h₂ hmem
  have hperm : l₁.Perm l₂ := by
    rw [List.perm_ext_iff_of_nodup h₁ h₂]
    exact hmem
  exact (hperm.filter p).length_eq

theorem countP_range_shift (R : Nat → Bool) (k : Nat) :
    ∀ m, ((List.range (m + k)).countP (fun e => decide (k ≤ e) && R (e - k))) =
      (List.range m).countP R := by
  intro m
  induction m with
  | zero =>
      rw [Nat.zero_add, List.range_zero, List.countP_nil]
      refine List.countP_eq_zero.mpr ?_
      intro e he
      have he' : e < k := List.mem_range.mp he
      intro hcontra
      rw [Bool.and_eq_true, decide_eq_true_eq] at hcontra
      omega
  | succ m ih =>
      have h1 : m + 1 + k = (m + k) + 1 := by omega
      rw [h1, List.range_succ, List.range_succ, List.countP_append, List.countP_append, ih]
      rw [List.countP_cons, List.countP_cons]
      simp only [List.countP_nil]
      have h2 : (decide (k ≤ m + k) && R (m + k - k)) = R m := by
        rw [decide_eq_true (by omega)]
        simp only [Bool.true_and]
        have h3 : m + k - k = m := by omega
        rw [h3]
      rw [h2]

theorem countP_range_extend (Q : Nat → Bool) (m : Nat) :
    ∀ M, m ≤ M → (∀ j, m ≤ j → Q j = false) →
      (List.range M).countP Q = (List.range m).countP Q := by
  intro M
  induction M with
  | zero =>
      intro hm _
      have : m = 0 := by omega
      rw [this]
  | succ M ih =>
      intro hm hQ
      by_cases hcase : m = M + 1
      · rw [hcase]
      · have hm' : m ≤ M := by omega
        rw [List.range_succ, List.countP_append, ih hm' hQ, List.countP_cons,
          hQ M (by omega)]
        simp

theorem sum_map_add {α : Type} (f g : α → Nat) :
    ∀ l : List α, (l.map (fun x => f x + g x)).sum = (l.map f).sum + (l.map g).sum := by
  intro l
  induction l with
  | nil => rfl
  | cons x l' ih =>
      simp only [List.map_cons, List.sum_cons, ih]
      omega

theorem countP_eq_sum_map {α : Type} (p : α → Bool) :
    ∀ l : List α, l.countP p = (l.map (fun x => if p x then 1 else 0)).sum := by
  intro l
  induction l with
  | nil => rfl
  | cons x l' ih =>
      rw [List.countP_cons, List.map_cons, List.sum_cons, ih]
      by_cases hx : p x = true
      · simp [hx]
        omega
      · simp [hx]

theorem sum_exchange {α β : Type} (Q : α → β → Bool) :
    ∀ (I : List α) (L : List β),
      (I.map (fun i => L.countP (Q i))).sum =
        (L.map (fun w => I.countP (fun i => Q i w))).sum := by
  intro I
  induction I with
  | nil =>
      intro L
      simp only [List.map_nil, List.sum_nil]
      induction L with
      | nil => rfl
      | cons w L' ihL =>
          rw [List.map_cons, List.sum_cons, ← ihL, List.countP_nil]
          rfl
  | cons i I' ih =>
      intro L
      rw [List.map_cons, List.sum_cons, ih]
      rw [countP_eq_sum_map (Q i) L, ← sum_map_add]
      refine congrArg List.sum ?_
      refine List.map_congr_left ?_
      intro w _
      rw [List.countP_cons]
      by_cases hq : Q i w = true
      · simp [hq]
        omega
      · simp [hq]

theorem suffix_take_iff (w text : List Symbol) (e : Nat) (he : e ≤ text.length) :
    w <:+ text.take e ↔ (w.length ≤ e ∧ w.isPrefixOf (text.drop (e - w.length)) = true) := by
  constructor
  · intro h
    obtain ⟨p, hp⟩ := h
    have hlen : p.length + w.length = e := by
      have h1 : (p ++ w).length = (text.take e).length := by rw [hp]
      rw [List.length_append, List.length_take] at h1
      omega
    have hle : w.length ≤ e := by omega
    refine ⟨hle, ?_⟩
    rw [List.isPrefixOf_iff_prefix]
    have hdrop : text.drop (e - w.length) = w ++ text.drop e := by
      conv_lhs => rw [← List.take_append_drop e text]
      rw [List.drop_append_eq_append_drop]
      have h2 : e - w.length - (text.take e).length = 0 := by
        rw [List.length_take]
        omega
      rw [h2, List.drop_zero]
      congr 1
      rw [← hp]
      have h3 : e - w.length = p.length := by omega
      rw [h3, List.drop_left]
    rw [hdrop]
    exact ⟨text.drop e, rfl⟩
  · rintro ⟨hle, hpre⟩
    rw [List.isPrefixOf_iff_prefix] at hpre
    have hw : w = (text.drop (e - w.length)).take w.length :=
      List.prefix_iff_eq_take.mp hpre
    refine ⟨text.take (e - w.length), ?_⟩
    have h1 : e = (e - w.length) + w.length := by omega
    conv_rhs => rw [h1, List.take_add]
    rw [← hw]

theorem count_end_positions (w text : List Symbol) (hwne : w ≠ []) :
    (List.range text.length).countP (fun i => decide (w <:+ text.take (i + 1))) =
      countOccurrences w text := by
  unfold countOccurrences
  rw [← List.countP_eq_length_filter]
  have hw1 : 1 ≤ w.length := by
    cases w with
    | nil => exact absurd rfl hwne
    | cons _ _ => simp
  by_cases hbig : text.length < w.length
  · rw [List.countP_eq_zero.mpr ?_, List.countP_eq_zero.mpr ?_]
    · intro j hj
      intro hcontra
      rw [List.isPrefixOf_iff_prefix] at hcontra
      have h1 := List.IsPrefix.length_le hcontra
      rw [List.length_drop] at h1
      omega
    · intro i hi
      intro hcontra
      rw [decide_eq_true_eq] at hcontra
      have h1 := List.IsSuffix.length_le hcontra
      rw [List.length_take] at h1
      have h2 := List.mem_range.mp hi
      omega
  · have hk : w.length ≤ text.length := by omega
    have hcongr : (List.range text.length).countP
        (fun i => decide (w <:+ text.take (i + 1))) =
        (List.range text.length).countP
          (fun i => decide (w.length - 1 ≤ i) &&
            w.isPrefixOf (text.drop (i - (w.length - 1)))) := by
      refine List.countP_congr ?_
      intro i hi
      have hi' : i < text.length := List.mem_range.mp hi
      have hiff := suffix_take_iff w text (i + 1) (by omega)
      by_cases hsfx : w <:+ text.take (i + 1)
      · rw [decide_eq_true hsfx]
        obtain ⟨h1, h2⟩ := hiff.mp hsfx
        have h3 : i + 1 - w.length = i - (w.length - 1) := by omega
        rw [h3] at h2
        rw [decide_eq_true (by omega : w.length - 1 ≤ i), h2]
        rfl
      · rw [decide_eq_false hsfx]
        by_cases hge : w.length - 1 ≤ i
        · have h2 : w.isPrefixOf (text.drop (i - (w.length - 1))) = false := by
            by_contra hcon
            rw [Bool.not_eq_false] at hcon
            refine hsfx (hiff.mpr ⟨by omega, ?_⟩)
            have h3 : i + 1 - w.length = i - (w.length - 1) := by omega
            rw [h3]
            exact hcon
          rw [h2]
          simp
        · rw [decide_eq_false hge]
          simp
    rw [hcongr]
    have hn : text.length = (text.length - (w.length - 1)) + (w.length - 1) := by omega
    conv_lhs => rw [hn]
    rw [countP_range_shift (fun j => w.isPrefixOf (text.drop j)) (w.length - 1)]
    rw [countP_range_extend (fun j => w.isPrefixOf (text.drop j))
      (text.length - (w.length - 1)) (text.length + 1) (by omega) ?_]
    intro j hj
    by_contra hcon
    rw [Bool.not_eq_false, List.isPrefixOf_iff_prefix] at hcon
    have h1 := List.IsPrefix.length_le hcon
    rw [List.length_drop] at h1
    omega

theorem lss_nil (t : Trie) : lss t [] = [] := by
  unfold lss
  have htn : ([] : List Symbol).tails = [[]] := rfl
  rw [htn, find?_cons_pos (fun v => (walk t.automaton 0 v).isSome) [] [] rfl]
  rfl

theorem lss_of_present (t : Trie) (x : List Symbol) (h : (walk t.automaton 0 x).isSome) :
    lss t x = x := by
  obtain ⟨h1, h2, h3⟩ := lss_spec t x
  have hlen := h3 x (List.suffix_refl x) h
  have hle := List.IsSuffix.length_le h1
  exact List.IsSuffix.eq_of_length h1 (by omega)

theorem lss_cons_fail (t : Trie) (c : Symbol) (x' : List Symbol)
    (h : (walk t.automaton 0 (c :: x')).isSome = false) :
    lss t (c :: x') = lss t x' := by
  unfold lss
  rw [List.tails_cons,
    find?_cons_neg (fun v => (walk t.automaton 0 v).isSome) (c :: x') x'.tails h]

theorem accSuffixes_eq_lss (t : Trie) :
    ∀ x, accSuffixes t x = accSuffixes t (lss t x) := by
  intro x
  induction x with
  | nil => rw [lss_nil]
  | cons c x' ih =>
      by_cases hp : (walk t.automaton 0 (c :: x')).isSome = true
      · rw [lss_of_present t _ hp]
      · rw [Bool.not_eq_true] at hp
        rw [lss_cons_fail t c x' hp]
        unfold accSuffixes
        rw [List.tails_cons, List.filter_cons]
        have hfalse : ((walk t.automaton 0 (c :: x')).isSome &&
            (t.attrs (stateOf t (c :: x'))).isAccept) = false := by
          rw [hp]
          rfl
        rw [hfalse]
        simp only [Bool.false_eq_true, if_false]
        exact ih

theorem properSuffixes_cons (c : Symbol) (x' : List Symbol) :
    properSuffixes (c :: x') = x'.tails := by
  unfold properSuffixes
  rw [List.tails_cons]
  rfl

theorem accProperSuffixes_cons (t : Trie) (c : Symbol) (x' : List Symbol) :
    accProperSuffixes t (c :: x') = accSuffixes t x' := by
  unfold accProperSuffixes accSuffixes
  rw [properSuffixes_cons]

theorem accProperSuffixes_eq_lps (t : Trie) (u : List Symbol) (hu : u ≠ []) :
    accProperSuffixes t u = accSuffixes t (lps t u) := by
  match u with
  | [] => exact absurd rfl hu
  | c :: u' =>
      rw [accProperSuffixes_cons, lps_cons]
      exact accSuffixes_eq_lss t u'

theorem accSuffixes_head (t : Trie) (v : List Symbol) :
    accSuffixes t v = (if ((walk t.automaton 0 v).isSome &&
        (t.attrs (stateOf t v)).isAccept) then v :: accProperSuffixes t v
      else accProperSuffixes t v) := by
  cases v with
  | nil =>
      unfold accSuffixes accProperSuffixes properSuffixes
      have htn : ([] : List Symbol).tails = [[]] := rfl
      rw [htn]
      rw [List.filter_cons]
      rfl
  | cons c v' =>
      unfold accSuffixes
      rw [List.tails_cons, List.filter_cons, accProperSuffixes_cons]
      rfl

theorem acceptChain_notSet (t : Trie) : ∀ f, acceptChain t f notSet = [] := by
  intro f
  cases f with
  | zero => rfl
  | succ f' =>
      unfold acceptChain
      rw [if_pos rfl]

theorem accept_iff_key (ps : List (List Symbol × Label)) (w : List Symbol) (s : Nat)
    (hw : walk (buildTrie ps).automaton 0 w = some s) :
    ((buildTrie ps).attrs s).isAccept = true ↔ w ∈ dedupKeys ps := by
  have hInv := inv_buildTrie ps
  rw [hInv.accept s]
  constructor
  · intro h
    obtain ⟨i, hi⟩ := Option.isSome_iff_exists.mp h
    obtain ⟨w', hw'walk, hw'K⟩ := (hInv.vidx s i).mp hi
    have : w = w' := walk_inj _ hInv.fsmInv w w' s hw hw'walk
    subst this
    exact List.getElem?_mem hw'K
  · intro h
    obtain ⟨i, hKi⟩ := List.mem_iff_getElem?.mp h
    rw [(hInv.vidx s i).mpr ⟨w, hw, hKi⟩]
    rfl

theorem labelOf_firstLabel (ps : List (List Symbol × Label)) (w : List Symbol) (s : Nat)
    (hw : walk (buildTrie ps).automaton 0 w = some s) (hK : w ∈ dedupKeys ps) :
    labelOf (buildTrie ps) w = (firstLabel ps w).getD 0 := by
  have hInv := inv_buildTrie ps
  obtain ⟨i, hKi⟩ := List.mem_iff_getElem?.mp hK
  have hvidx : (buildTrie ps).valueIdx s = some i := (hInv.vidx s i).mpr ⟨w, hw, hKi⟩
  unfold labelOf stateOf
  rw [hw]
  show (buildTrie ps).values.getD (((buildTrie ps).valueIdx s).getD 0) 0 = _
  rw [hvidx, Option.getD_some]
  exact values_getD_firstLabel ps (buildTrie ps) hInv i w hKi

theorem root_not_accept (ps : List (List Symbol × Label))
    (hne : ∀ pr ∈ ps, pr.1 ≠ []) :
    ((buildTrie ps).attrs 0).isAccept = false := by
  by_contra h
  rw [Bool.not_eq_false] at h
  have hkey := (accept_iff_key ps [] 0 rfl).mp h
  rw [mem_dedupKeys] at hkey
  obtain ⟨pr, hpr, h2⟩ := List.mem_map.mp hkey
  exact hne pr hpr h2

theorem acceptChain_spec_short (ps : List (List Symbol × Label))
    (hne : ∀ pr ∈ ps, pr.1 ≠ []) (u : List Symbol) (fuel : Nat)
    (hshort : u.length ≤ 1) :
    acceptChain (buildAho ps) fuel (accSpec (buildTrie ps) u) =
      (accProperSuffixes (buildTrie ps) u).map (labelOf (buildTrie ps)) := by
  rw [accSpec_short _ u hshort, acceptChain_notSet]
  match u, hshort with
  | [], _ => rfl
  | [b], _ =>
      rw [accProperSuffixes_cons]
      unfold accSuffixes
      have htn : ([] : List Symbol).tails = [[]] := rfl
      rw [htn, List.filter_cons]
      have hc : ((walk (buildTrie ps).automaton 0 []).isSome &&
          ((buildTrie ps).attrs (stateOf (buildTrie ps) ([] : List Symbol))).isAccept)
            = false := by
        show (true && ((buildTrie ps).attrs 0).isAccept) = false
        rw [Bool.true_and]
        exact root_not_accept ps hne
      rw [hc]
      rfl
  | a :: b :: rest, h =>
      simp only [List.length_cons] at h
      omega

theorem acceptChain_spec (ps : List (List Symbol × Label))
    (hne : ∀ pr ∈ ps, pr.1 ≠ [])
    (hsz : (buildTrie ps).automaton.size ≤ notSet) :
    ∀ (n : Nat) (u : List Symbol) (fuel : Nat),
      (walk (buildTrie ps).automaton 0 u).isSome →
      u.length ≤ n → u.length ≤ fuel →
      acceptChain (buildAho ps) fuel (accSpec (buildTrie ps) u) =
        (accProperSuffixes (buildTrie ps) u).map (labelOf (buildTrie ps)) := by
  obtain ⟨hauto, hae, hroot1, hroot2, hval, hvidx, hreach, hcorr⟩ := buildAho_facts ps
  have hInv := inv_buildTrie ps
  intro n
  induction n with
  | zero =>
      intro u fuel _ hn _
      exact acceptChain_spec_short ps hne u fuel (by omega)
  | succ n ih =>
      intro u fuel hpres hn hfuel
      by_cases hshort : u.length ≤ 1
      · exact acceptChain_spec_short ps hne u fuel hshort
      · have h2 : 2 ≤ u.length := by omega
        have hune : u ≠ [] := by
          intro he
          subst he
          simp at h2
        obtain ⟨hp1, hp2, hp3, hp4⟩ := lps_spec (buildTrie ps) u hune
        obtain ⟨s₁, hs₁⟩ := Option.isSome_iff_exists.mp hp3
        have hstv : stateOf (buildTrie ps) (lps (buildTrie ps) u) = s₁ := by
          unfold stateOf
          rw [hs₁]
          rfl
        have hsveq : walk (buildTrie ps).automaton 0 (lps (buildTrie ps) u) =
            some (stateOf (buildTrie ps) (lps (buildTrie ps) u)) := by
          rw [hs₁, hstv]
        have hsv_lt : stateOf (buildTrie ps) (lps (buildTrie ps) u) <
            (buildTrie ps).automaton.size := by
          rw [hstv]
          exact walk_lt_size (buildTrie ps).automaton hInv.fsmInv _ 0 s₁ hs₁
            hInv.fsmInv.size_pos
        have hsv_ne : stateOf (buildTrie ps) (lps (buildTrie ps) u) ≠ notSet := by
          omega
        rw [accSpec_unfold (buildTrie ps) u h2]
        rw [accProperSuffixes_eq_lps (buildTrie ps) u hune]
        rw [accSuffixes_head]
        by_cases hacc : ((buildTrie ps).attrs
            (stateOf (buildTrie ps) (lps (buildTrie ps) u))).isAccept = true
        · have hvne : lps (buildTrie ps) u ≠ [] := by
            intro he
            rw [he] at hacc
            have hacc0 : ((buildTrie ps).attrs 0).isAccept = true := hacc
            rw [root_not_accept ps hne] at hacc0
            exact Bool.false_ne_true hacc0
          have hlink : ((buildAho ps).attrs
              (stateOf (buildTrie ps) (lps (buildTrie ps) u))).acceptSuffixLink =
                accSpec (buildTrie ps) (lps (buildTrie ps) u) :=
            (hcorr (lps (buildTrie ps) u) _ hvne hsveq).2
          have hcond : ((walk (buildTrie ps).automaton 0 (lps (buildTrie ps) u)).isSome &&
              ((buildTrie ps).attrs
                (stateOf (buildTrie ps) (lps (buildTrie ps) u))).isAccept) = true := by
            rw [hp3, hacc]
            rfl
          rw [if_pos hacc, if_pos hcond]
          obtain ⟨g, hg⟩ : ∃ g, fuel = g + 1 := ⟨fuel - 1, by omega⟩
          subst hg
          unfold acceptChain
          rw [if_neg hsv_ne]
          rw [hlink]
          rw [ih (lps (buildTrie ps) u) g hp3 (by omega) (by omega)]
          rw [List.map_cons]
          rw [hval, hvidx]
          rfl
        · have hcond : ((walk (buildTrie ps).automaton 0 (lps (buildTrie ps) u)).isSome &&
              ((buildTrie ps).attrs
                (stateOf (buildTrie ps) (lps (buildTrie ps) u))).isAccept) = false := by
            rw [Bool.not_eq_true] at hacc
            rw [hp3, Bool.true_and]
            exact hacc
          rw [if_neg hacc]
          rw [if_neg (by rw [hcond]; exact Bool.false_ne_true)]
          exact ih (lps (buildTrie ps) u) fuel hp3 (by omega) (by omega)

theorem collectMatching_spec (ps : List (List Symbol × Label))
    (hne : ∀ pr ∈ ps, pr.1 ≠ [])
    (hsz : (buildTrie ps).automaton.size ≤ notSet)
    (u : List Symbol) (hpres : (walk (buildTrie ps).automaton 0 u).isSome) :
    collectMatching (buildAho ps) (stateOf (buildTrie ps) u) =
      (accSuffixes (buildTrie ps) u).map (labelOf (buildTrie ps)) := by
  obtain ⟨hauto, hae, hroot1, hroot2, hval, hvidx, hreach, hcorr⟩ := buildAho_facts ps
  have hInv := inv_buildTrie ps
  obtain ⟨s₁, hs₁⟩ := Option.isSome_iff_exists.mp hpres
  have hstv : stateOf (buildTrie ps) u = s₁ := by
    unfold stateOf
    rw [hs₁]
    rfl
  have hsveq : walk (buildTrie ps).automaton 0 u = some (stateOf (buildTrie ps) u) := by
    rw [hs₁, hstv]
  have hlink : ((buildAho ps).attrs (stateOf (buildTrie ps) u)).acceptSuffixLink =
      accSpec (buildTrie ps) u := by
    cases hu : u with
    | nil =>
        have h0 : stateOf (buildTrie ps) ([] : List Symbol) = 0 := rfl
        rw [h0, hroot2, accSpec_short]
        simp
    | cons c u' =>
        rw [← hu]
        exact (hcorr u _ (by rw [hu]; exact List.cons_ne_nil c u') hsveq).2
  have hdepth := walk_depth (buildTrie ps).automaton
    (fun s a d ht => (hInv.fsmInv.edges s a d ht).1) u 0 s₁ hs₁
  have hs₁lt : s₁ < (buildTrie ps).automaton.size :=
    walk_lt_size (buildTrie ps).automaton hInv.fsmInv u 0 s₁ hs₁ hInv.fsmInv.size_pos
  have hlen : u.length ≤ (buildAho ps).automaton.size := by
    rw [hauto]
    omega
  unfold collectMatching
  rw [hlink, hae]
  rw [acceptChain_spec ps hne hsz u.length u ((buildAho ps).automaton.size) hpres
    (le_refl _) hlen]
  rw [accSuffixes_head]
  by_cases hacc : ((buildTrie ps).attrs (stateOf (buildTrie ps) u)).isAccept = true
  · have hcond : ((walk (buildTrie ps).automaton 0 u).isSome &&
        ((buildTrie ps).attrs (stateOf (buildTrie ps) u)).isAccept) = true := by
      rw [hpres, hacc]
      rfl
    rw [if_pos hacc, if_pos hcond]
    rw [List.map_cons, hval, hvidx]
    rfl
  · have hcond : ((walk (buildTrie ps).automaton 0 u).isSome &&
        ((buildTrie ps).attrs (stateOf (buildTrie ps) u)).isAccept) = false := by
      rw [Bool.not_eq_true] at hacc
      rw [hpres, Bool.true_and]
      exact hacc
    rw [if_neg hacc]
    rw [if_neg (by rw [hcond]; exact Bool.false_ne_true)]
    rw [List.nil_append]

theorem stateOf_lss_snoc (t : Trie) (x : List Symbol) (a : Symbol) :
    stateOf t (lss t (x ++ [a])) = acNextSpec t (lss t x) a := by
  rw [lss_snoc]
  unfold acNextSpec
  cases matchSuffix t (lss t x) a with
  | none => rfl
  | some v => rfl

theorem acNext_buildAho (ps : List (List Symbol × Label)) (x : List Symbol) (a : Symbol) :
    acNext (buildAho ps) ((buildAho ps).automaton.size)
        (stateOf (buildTrie ps) (lss (buildTrie ps) x)) a =
      (stateOf (buildTrie ps) (lss (buildTrie ps) (x ++ [a])), true) := by
  obtain ⟨hauto, hae, hroot1, hroot2, hval, hvidx, hreach, hcorr⟩ := buildAho_facts ps
  have hInv := inv_buildTrie ps
  obtain ⟨h1, h2, h3⟩ := lss_spec (buildTrie ps) x
  obtain ⟨s₁, hs₁⟩ := Option.isSome_iff_exists.mp h2
  have hstv : stateOf (buildTrie ps) (lss (buildTrie ps) x) = s₁ := by
    unfold stateOf
    rw [hs₁]
    rfl
  have hdepth := walk_depth (buildTrie ps).automaton
    (fun s a d ht => (hInv.fsmInv.edges s a d ht).1) (lss (buildTrie ps) x) 0 s₁ hs₁
  have hs₁lt : s₁ < (buildTrie ps).automaton.size :=
    walk_lt_size (buildTrie ps).automaton hInv.fsmInv _ 0 s₁ hs₁ hInv.fsmInv.size_pos
  have hlt : (lss (buildTrie ps) x).length < (buildAho ps).automaton.size := by
    rw [hauto]
    omega
  have hchain : ∀ v s', v ≠ [] → v <:+ lss (buildTrie ps) x →
      walk (buildTrie ps).automaton 0 v = some s' →
      ((buildAho ps).attrs s').suffixLink =
        stateOf (buildTrie ps) (lps (buildTrie ps) v) :=
    fun v s' hvne _ hv => (hcorr v s' hvne hv).1
  rw [hstv]
  rw [acNext_spec (buildTrie ps) (buildAho ps) hauto hInv.fsmInv a
    ((buildAho ps).automaton.size) (lss (buildTrie ps) x) s₁ hs₁ hlt hchain]
  rw [stateOf_lss_snoc]

theorem flatMap_congr_left {α β : Type} (f g : α → List β) :
    ∀ l : List α, (∀ a ∈ l, f a = g a) → l.flatMap f = l.flatMap g := by
  intro l
  induction l with
  | nil =>
      intro _
      rfl
  | cons a l' ih =>
      intro h
      rw [List.flatMap_cons, List.flatMap_cons, h a (List.mem_cons_self a l'),
        ih (fun b hb => h b (List.mem_cons_of_mem a hb))]

theorem acMatchFrom_spec (ps : List (List Symbol × Label))
    (hne : ∀ pr ∈ ps, pr.1 ≠ [])
    (hsz : (buildTrie ps).automaton.size ≤ notSet) :
    ∀ (text x : List Symbol),
      acMatchFrom (buildAho ps) (stateOf (buildTrie ps) (lss (buildTrie ps) x)) text =
        (List.range text.length).flatMap (fun i =>
          (accSuffixes (buildTrie ps) (x ++ text.take (i + 1))).map
            (labelOf (buildTrie ps))) := by
  intro text
  induction text with
  | nil =>
      intro x
      rfl
  | cons a rest ih =>
      intro x
      have hstep : acMatchFrom (buildAho ps)
          (stateOf (buildTrie ps) (lss (buildTrie ps) x)) (a :: rest) =
        collectMatching (buildAho ps)
            (stateOf (buildTrie ps) (lss (buildTrie ps) (x ++ [a]))) ++
          acMatchFrom (buildAho ps)
            (stateOf (buildTrie ps) (lss (buildTrie ps) (x ++ [a]))) rest := by
        show collectMatching (buildAho ps)
            ((acNext (buildAho ps) (buildAho ps).automaton.size
              (stateOf (buildTrie ps) (lss (buildTrie ps) x)) a).1) ++
          acMatchFrom (buildAho ps)
            ((acNext (buildAho ps) (buildAho ps).automaton.size
              (stateOf (buildTrie ps) (lss (buildTrie ps) x)) a).1) rest = _
        rw [acNext_buildAho ps x a]
      rw [hstep]
      rw [collectMatching_spec ps hne hsz (lss (buildTrie ps) (x ++ [a]))
        (lss_spec (buildTrie ps) (x ++ [a])).2.1]
      rw [ih (x ++ [a])]
      rw [← accSuffixes_eq_lss (buildTrie ps) (x ++ [a])]
      simp only [List.length_cons]
      rw [List.range_succ_eq_map, List.flatMap_cons, List.flatMap_map]
      congr 1
      exact flatMap_congr_left _ _ (List.range rest.length)
        (fun i _ => by rw [List.append_assoc]; rfl)

theorem acMatch_buildAho (ps : List (List Symbol × Label))
    (hne : ∀ pr ∈ ps, pr.1 ≠ [])
    (hsz : (buildTrie ps).automaton.size ≤ notSet) (text : List Symbol) :
    acMatch (buildAho ps) text =
      (List.range text.length).flatMap (fun i =>
        (accSuffixes (buildTrie ps) (text.take (i + 1))).map
          (labelOf (buildTrie ps))) := by
  have h0 : stateOf (buildTrie ps) (lss (buildTrie ps) []) = 0 := by
    rw [lss_nil]
    rfl
  unfold acMatch
  rw [← h0]
  rw [acMatchFrom_spec ps hne hsz text []]
  exact flatMap_congr_left _ _ _ (fun i _ => by rw [List.nil_append])

theorem length_eq_of_nodup_mem_iff {α : Type} (l₁ l₂ : List α)
    (h₁ : l₁.Nodup) (h₂ : l₂.Nodup) (hmem : ∀ a, a ∈ l₁ ↔ a ∈ l₂) :
    l₁.length = l₂.length :=
  ((List.perm_ext_iff_of_nodup h₁ h₂).mpr hmem).length_eq

theorem accSuffixes_countP (ps : List (List Symbol × Label)) (l : Label)
    (y : List Symbol) :
    (accSuffixes (buildTrie ps) y).countP
        (fun v => decide (labelOf (buildTrie ps) v = l)) =
      ((dedupKeys ps).filter
          (fun w => decide ((firstLabel ps w).getD 0 = l))).countP
        (fun w => decide (w <:+ y)) := by
  have hInv := inv_buildTrie ps
  rw [List.countP_eq_length_filter, List.countP_eq_length_filter]
  unfold accSuffixes
  refine length_eq_of_nodup_mem_iff _ _ ?_ ?_ ?_
  · exact List.Nodup.filter _ (List.Nodup.filter _ (nodup_tails y))
  · exact List.Nodup.filter _ (List.Nodup.filter _ (nodup_dedupKeys ps))
  · intro v
    rw [List.mem_filter, List.mem_filter, List.mem_filter, List.mem_filter]
    constructor
    · rintro ⟨⟨hvt, hA⟩, hlab⟩
      rw [Bool.and_eq_true] at hA
      obtain ⟨hpres, hacc⟩ := hA
      obtain ⟨s, hs⟩ := Option.isSome_iff_exists.mp hpres
      have hstv : stateOf (buildTrie ps) v = s := by
        unfold stateOf
        rw [hs]
        rfl
      rw [hstv] at hacc
      have hK : v ∈ dedupKeys ps := (accept_iff_key ps v s hs).mp hacc
      have hflab := labelOf_firstLabel ps v s hs hK
      rw [decide_eq_true_eq] at hlab
      refine ⟨⟨hK, ?_⟩, ?_⟩
      · rw [decide_eq_true_eq, ← hflab]
        exact hlab
      · rw [decide_eq_true_eq]
        exact List.mem_tails _ _ |>.mp hvt
    · rintro ⟨⟨hK, hlab⟩, hsfx⟩
      rw [decide_eq_true_eq] at hlab hsfx
      have hpres := hInv.keys_closed v hK v (List.prefix_refl v)
      obtain ⟨s, hs⟩ := Option.isSome_iff_exists.mp hpres
      have hstv : stateOf (buildTrie ps) v = s := by
        unfold stateOf
        rw [hs]
        rfl
      have hacc := (accept_iff_key ps v s hs).mpr hK
      have hflab := labelOf_firstLabel ps v s hs hK
      refine ⟨⟨List.mem_tails _ _ |>.mpr hsfx, ?_⟩, ?_⟩
      · rw [Bool.and_eq_true]
        refine ⟨hpres, ?_⟩
        rw [hstv]
        exact hacc
      · rw [decide_eq_true_eq, hflab]
        exact hlab

/-- Claim C4 (corrected): when every stored pattern is non-empty (and the
state count stays below the `not_set` sentinel), `match(text, out)` emits
each label exactly as many times as patterns carrying that label occur as
substrings of `text`, counting overlapping occurrences separately: the
multiplicity of `l` in the output is the sum, over stored patterns whose
label is `l`, of the number of occurrence positions of that pattern in
`text`.  The original claim, which also promises this for empty patterns,
is refuted by the counterexample below: an empty pattern occurs
`text.length + 1` times as a substring of `text`, but its label is never
emitted, because `collect_matching` reaches the root's label only through
`accept_suffix_link` fields that the link-building phase leaves at
`not_set` for the root and its direct children. -/
theorem ac_match_multiplicity (ps : List (List Symbol × Label)) (text : List Symbol)
    (l : Label)
    (hne : ∀ pr ∈ ps, pr.1 ≠ [])
    (hsz : (buildTrie ps).automaton.size ≤ notSet) :
    (acMatch (buildAho ps) text).count l =
      (((dedupKeys ps).filter (fun w => decide ((firstLabel ps w).getD 0 = l))).map
        (fun w => countOccurrences w text)).sum := by
  rw [acMatch_buildAho ps hne hsz text]
  rw [count_flatMap]
  have hmap : (List.range text.length).map
      (fun i => ((accSuffixes (buildTrie ps) (text.take (i + 1))).map
        (labelOf (buildTrie ps))).count l) =
      (List.range text.length).map (fun i =>
        ((dedupKeys ps).filter
            (fun w => decide ((firstLabel ps w).getD 0 = l))).countP
          (fun w => decide (w <:+ text.take (i + 1)))) := by
    refine List.map_congr_left ?_
    intro i _
    rw [count_map_eq_countP, accSuffixes_countP ps l (text.take (i + 1))]
  rw [hmap]
  rw [sum_exchange (fun i w => decide (w <:+ text.take (i + 1)))
    (List.range text.length)
    ((dedupKeys ps).filter (fun w => decide ((firstLabel ps w).getD 0 = l)))]
  refine congrArg List.sum ?_
  refine List.map_congr_left ?_
  intro w hw
  have hwK : w ∈ dedupKeys ps := (List.mem_filter.mp hw).1
  have hwne : w ≠ [] := by
    rw [mem_dedupKeys] at hwK
    obtain ⟨pr, hpr, h2⟩ := List.mem_map.mp hwK
    intro he
    subst he
    exact hne pr hpr h2
  exact count_end_positions w text hwne

theorem ac_match_multiplicity_witness :
    ((∀ pr ∈ [([1, 2], 5), ([2], 7)], pr.1 ≠ ([] : List Symbol)) ∧
      (buildTrie [([1, 2], 5), ([2], 7)]).automaton.size ≤ notSet) ∧
    (acMatch (buildAho [([1, 2], 5), ([2], 7)]) [1, 2, 1, 2]).count 7 =
      (((dedupKeys [([1, 2], 5), ([2], 7)]).filter
          (fun w => decide ((firstLabel [([1, 2], 5), ([2], 7)] w).getD 0 = 7))).map
        (fun w => countOccurrences w [1, 2, 1, 2])).sum :=
  ⟨⟨by decide, by decide⟩,
    ac_match_multiplicity [([1, 2], 5), ([2], 7)] [1, 2, 1, 2] 7
      (by decide) (by decide)⟩

/-- Counterexample to the original Claim C4 wording: with an empty pattern
stored under label `7`, the empty pattern occurs twice as a substring of the
one-symbol text `[1]` (before and after the symbol), but `match` never emits
`7`. -/
theorem ac_match_multiplicity_counterexample :
    countOccurrences [] [1] = 2 ∧
    ¬ ((acMatch (buildAho [([], 7), ([1], 8)]) [1]).count 7 =
        countOccurrences [] [1]) := by
  decide

end Textum
